import Mathlib

/-!
Verification development for the jw013/dlx dancing-links exact-cover library.

The C sources (dlx.c, dlx_read.c) are shallowly embedded as follows.

* The node arena is a heap: a total map `Nat → Node` from node ids to node
  records.  Pointers are node ids; a pointer write re-reads the heap exactly
  where the corresponding C statement re-reads memory.
* `size_t` arithmetic is carried out in `Nat` modulo `W = 2 ^ 64` wherever the
  source increments or decrements a `size_t` that could wrap (`node_count`,
  `*pnsol`, the darray size fields).
* The `while` loops that chase pointers around circular lists are modelled
  with explicit fuel.  Each loop receives fuel `arena + 1` where `arena` is
  the number of node slots of the matrix: on any structurally valid matrix a
  traversal of a simple cycle visits at most `arena` distinct nodes, so the
  fuel is never exhausted there (on a corrupted matrix the C code would loop
  forever; the model truncates instead).
* `NULL` is modelled as the id `0` in fields the engine never reads
  (`root.up`, `root.down`, `root.header`).
* The loader's allocation calls (`malloc`/`calloc`/`realloc`) consult an
  oracle `ok : Nat → Bool` indexed by the number of allocation calls made so
  far; the darray additionally records the allocated extent in bytes (`cap`)
  so that out-of-bounds writes are observable, and `read_bcsr` counts in a
  ghost field `dropped` how many failed `size_t_darray_append` calls had
  their return value discarded, exactly at the call sites where the C source
  ignores the result.
-/

namespace Dlx

/-- Machine word modulus: `size_t` arithmetic is modelled modulo `W`. -/
def W : Nat := 2 ^ 64

/-- `size_t` increment (`x++`). -/
def incW (x : Nat) : Nat := (x + 1) % W

/-- `size_t` decrement (`x--`). -/
def decW (x : Nat) : Nat := (x + (W - 1)) % W

/-- One `struct dlx_node` / `struct dlx_hnode` slot.  The header-only fields
(`node_count`, `id`) live in every slot, mirroring the layout punning of the
source where `dlx_hnode` extends `dlx_node`; they are unused for data nodes.
`row_id` holds the row index directly (spec §9: equivalent to the source's
pointer into `row_off`). -/
structure Node where
  row_id : Nat
  left : Nat
  right : Nat
  up : Nat
  down : Nat
  header : Nat
  node_count : Nat
  id : Nat
deriving DecidableEq, Repr

instance : Inhabited Node := ⟨⟨0, 0, 0, 0, 0, 0, 0, 0⟩⟩

/-- The node arena: a total map from node ids to node records. -/
abbrev Heap := Nat → Node

/-- Store a whole node record at id `i`. -/
def wr (s : Heap) (i : Nat) (v : Node) : Heap := Function.update s i v

def wLeft (s : Heap) (i v : Nat) : Heap := wr s i { s i with left := v }
def wRight (s : Heap) (i v : Nat) : Heap := wr s i { s i with right := v }
def wUp (s : Heap) (i v : Nat) : Heap := wr s i { s i with up := v }
def wDown (s : Heap) (i v : Nat) : Heap := wr s i { s i with down := v }

/-- `j->header->node_count--` (second half). -/
def decCount (s : Heap) (c : Nat) : Heap :=
  wr s c { s c with node_count := decW (s c).node_count }

/-- `j->header->node_count++` (second half). -/
def incCount (s : Heap) (c : Nat) : Heap :=
  wr s c { s c with node_count := incW (s c).node_count }

/-- `remove_lr(n)`: `n->left->right = n->right; n->right->left = n->left;`.
The second statement re-reads `n`'s fields from the updated heap, exactly as
the C sequence point demands. -/
def remove_lr (s : Heap) (n : Nat) : Heap :=
  let s1 := wRight s (s n).left (s n).right
  wLeft s1 (s1 n).right (s1 n).left

/-- `remove_ud(n)`: `n->up->down = n->down; n->down->up = n->up;`. -/
def remove_ud (s : Heap) (n : Nat) : Heap :=
  let s1 := wDown s (s n).up (s n).down
  wUp s1 (s1 n).down (s1 n).up

/-- `insert_lr(n)`: `n->left->right = n->right->left = n;`; the inner
assignment executes first. -/
def insert_lr (s : Heap) (n : Nat) : Heap :=
  let s1 := wLeft s (s n).right n
  wRight s1 (s1 n).left n

/-- `insert_ud(n)`: `n->up->down = n->down->up = n;`; the inner assignment
executes first. -/
def insert_ud (s : Heap) (n : Nat) : Heap :=
  let s1 := wUp s (s n).down n
  wDown s1 (s1 n).up n

/-- `is_removed_ud(n)`: `n->up->down != n`. -/
def is_removed_ud (s : Heap) (n : Nat) : Bool := (s (s n).up).down != n

/-- `append_node_to_column(n, c)`. -/
def append_node_to_column (s : Heap) (n c : Nat) : Heap :=
  let s1 := wr s n { s n with header := c, up := (s c).up, down := c }
  let s2 := insert_ud s1 n
  wr s2 c { s2 c with node_count := incW (s2 c).node_count }

/-- Inner loop of `cover(h)`:
`while ((j = j->right) != i) { remove_ud(j); j->header->node_count--; }`. -/
def coverInner (i : Nat) : Nat → Heap → Nat → Heap
  | 0, s, _ => s
  | fuel + 1, s, j =>
    let j1 := (s j).right
    if j1 = i then s
    else
      let s1 := remove_ud s j1
      let s2 := decCount s1 ((s1 j1).header)
      coverInner i fuel s2 j1

/-- Outer loop of `cover(h)`: `while ((i = i->down) != h) { ... }`. -/
def coverOuter (arena h : Nat) : Nat → Heap → Nat → Heap
  | 0, s, _ => s
  | fuel + 1, s, i =>
    let i1 := (s i).down
    if i1 = h then s
    else coverOuter arena h fuel (coverInner i1 (arena + 1) s i1) i1

/-- `cover(h)` over a heap of `arena` slots. -/
def coverH (arena : Nat) (s : Heap) (h : Nat) : Heap :=
  coverOuter arena h (arena + 1) (remove_lr s h) h

/-- Inner loop of `uncover(h)`:
`while ((j = j->left) != i) { j->header->node_count++; insert_ud(j); }`. -/
def uncoverInner (i : Nat) : Nat → Heap → Nat → Heap
  | 0, s, _ => s
  | fuel + 1, s, j =>
    let j1 := (s j).left
    if j1 = i then s
    else
      let s1 := incCount s ((s j1).header)
      let s2 := insert_ud s1 j1
      uncoverInner i fuel s2 j1

/-- Outer loop of `uncover(h)`: `while ((i = i->up) != h) { ... }`. -/
def uncoverOuter (arena h : Nat) : Nat → Heap → Nat → Heap
  | 0, s, _ => s
  | fuel + 1, s, i =>
    let i1 := (s i).up
    if i1 = h then s
    else uncoverOuter arena h fuel (uncoverInner i1 (arena + 1) s i1) i1

/-- `uncover(h)` over a heap of `arena` slots. -/
def uncoverH (arena : Nat) (s : Heap) (h : Nat) : Heap :=
  insert_lr (uncoverOuter arena h (arena + 1) s h) h

/-- Loop of `cover_other_columns(i)`:
`while ((j = j->right) != i) cover(j->header);`. -/
def cocAux (arena i : Nat) : Nat → Heap → Nat → Heap
  | 0, s, _ => s
  | fuel + 1, s, j =>
    let j1 := (s j).right
    if j1 = i then s
    else cocAux arena i fuel (coverH arena s ((s j1).header)) j1

/-- `cover_other_columns(i)`. -/
def cover_other_columns (arena : Nat) (s : Heap) (i : Nat) : Heap :=
  cocAux arena i (arena + 1) s i

/-- Loop of `uncover_other_columns(i)`:
`while ((j = j->left) != i) uncover(j->header);`. -/
def uocAux (arena i : Nat) : Nat → Heap → Nat → Heap
  | 0, s, _ => s
  | fuel + 1, s, j =>
    let j1 := (s j).left
    if j1 = i then s
    else uocAux arena i fuel (uncoverH arena s ((s j1).header)) j1

/-- `uncover_other_columns(i)`. -/
def uncover_other_columns (arena : Nat) (s : Heap) (i : Nat) : Heap :=
  uocAux arena i (arena + 1) s i

/-- Loop of `hnode_min_count(root)`. -/
def minCountAux (root : Nat) : Nat → Heap → Nat → Option Nat → Option Nat
  | 0, _, _, m => m
  | fuel + 1, s, h, m =>
    let h1 := (s h).right
    if h1 = root then m
    else
      let m1 := match m with
        | none => some h1
        | some mm => if (s h1).node_count < (s mm).node_count then some h1 else some mm
      minCountAux root fuel s h1 m1

/-- `hnode_min_count(root)`: `none` models the `NULL` return. -/
def hnode_min_count (arena : Nat) (s : Heap) (root : Nat) : Option Nat :=
  minCountAux root (arena + 1) s root none

/-- A DLX matrix state: the number of allocated node slots and the heap. -/
structure St where
  n : Nat
  heap : Heap

/-- `cover` on a matrix state. -/
def cover (s : St) (h : Nat) : St := { s with heap := coverH s.n s.heap h }

/-- `uncover` on a matrix state. -/
def uncover (s : St) (h : Nat) : St := { s with heap := uncoverH s.n s.heap h }

/-- `dlx_force_row(r)`; the `Int` is the C return value. -/
def dlx_force_row (s : St) (r : Nat) : St × Int :=
  if is_removed_ud s.heap r then (s, -1)
  else
    let s1 := coverH s.n s.heap ((s.heap r).header)
    ({ s with heap := cover_other_columns s.n s1 r }, 0)

/-- `dlx_unselect_row(r)`; the `Int` is the C return value. -/
def dlx_unselect_row (s : St) (r : Nat) : St × Int :=
  if !(is_removed_ud s.heap r) then (s, -1)
  else
    let s1 := uncover_other_columns s.n s.heap r
    ({ s with heap := uncoverH s.n s1 ((s1 r).header) }, 0)

/-- Middle loop of `dlx_make_header_row` (`for (i = 1; i < n - 1; i++)`),
running `k` iterations from index `i`. -/
def hdrMid (hdr : Nat → Nat) : Nat → Heap → Nat → Heap
  | 0, s, _ => s
  | k + 1, s, i =>
    hdrMid hdr k
      (wr s (hdr i)
        { s (hdr i) with
          left := hdr (i - 1)
          right := hdr (i + 1)
          up := hdr i
          down := hdr i
          header := hdr i
          node_count := 1 }) (i + 1)

/-- `dlx_make_header_row(root, headers, n)`; `hdr i` is the id of
`headers + i`.  `NULL` is modelled as `0`. -/
def dlx_make_header_row (s : Heap) (root : Nat) (hdr : Nat → Nat) (n : Nat) : Heap :=
  if n < 1 then
    wr s root
      { s root with
        left := root
        right := root
        up := 0
        down := 0
        header := 0
        node_count := 1 }
  else
    let s1 := wr s root
      { s root with
        left := hdr (n - 1)
        right := hdr 0
        up := 0
        down := 0
        header := 0
        node_count := 1 }
    if n = 1 then
      wr s1 (hdr 0)
        { s1 (hdr 0) with
          left := root
          right := root
          up := hdr 0
          down := hdr 0
          header := hdr 0
          node_count := 1 }
    else
      let s2 := wr s1 (hdr 0)
        { s1 (hdr 0) with
          left := root
          right := hdr 1
          up := hdr 0
          down := hdr 0
          header := hdr 0
          node_count := 1 }
      let s3 := hdrMid hdr (n - 2) s2 1
      wr s3 (hdr (n - 1))
        { s3 (hdr (n - 1)) with
          left := hdr (n - 2)
          right := root
          up := hdr (n - 1)
          down := hdr (n - 1)
          header := hdr (n - 1)
          node_count := 1 }

/-- Middle loop of `dlx_make_row`. -/
def rowMid (nd : Nat → Nat) (rid : Nat) : Nat → Heap → Nat → Heap
  | 0, s, _ => s
  | k + 1, s, i =>
    rowMid nd rid k
      (wr s (nd i)
        { s (nd i) with
          left := nd (i - 1)
          right := nd (i + 1)
          row_id := rid }) (i + 1)

/-- `dlx_make_row(nodes, row_id, n)`; `nd i` is the id of `nodes + i`. -/
def dlx_make_row (s : Heap) (nd : Nat → Nat) (rid : Nat) (n : Nat) : Heap :=
  if n < 1 then s
  else if n = 1 then
    wr s (nd 0) { s (nd 0) with left := nd 0, right := nd 0, row_id := rid }
  else
    let s1 := wr s (nd 0) { s (nd 0) with left := nd (n - 1), right := nd 1, row_id := rid }
    let s2 := rowMid nd rid (n - 2) s1 1
    wr s2 (nd (n - 1)) { s2 (nd (n - 1)) with left := nd (n - 2), right := nd 0, row_id := rid }

/-- Loop of `dlx_add_row`. -/
def addRowAux (nd hd : Nat → Nat) : Nat → Heap → Nat → Heap
  | 0, s, _ => s
  | k + 1, s, i => addRowAux nd hd k (append_node_to_column s (nd i) (hd i)) (i + 1)

/-- `dlx_add_row(nodes, headers, n)`. -/
def dlx_add_row (s : Heap) (nd : Nat → Nat) (hd : Nat → Nat) (n : Nat) : Heap :=
  addRowAux nd hd n s 0

/-- `struct dlx_srow`. -/
structure SRow where
  row_node : Nat
  id : Nat
  n_choices : Nat
deriving DecidableEq, Repr

instance : Inhabited SRow := ⟨⟨0, 0, 0⟩⟩

/-- Result of a `dlx_exact_cover` call: the returned size, the heap, the
solution array, and the value left in `*pnsol`. -/
structure EC where
  ret : Nat
  heap : Heap
  sol : Nat → SRow
  pnsol : Nat

/-- The row loop of `dlx_exact_cover`:
`while ((i = i->down) != col) { ... }`, returning the running `n` when the
loop ends or `*pnsol == 0` breaks out of it. -/
def ecRows (recur : Heap → (Nat → SRow) → Nat → EC) (arena col k : Nat) :
    Nat → Heap → (Nat → SRow) → Nat → Nat → Nat → EC
  | 0, s, sol, p, _, nPrev => ⟨nPrev, s, sol, p⟩
  | fuel + 1, s, sol, p, i, nPrev =>
    let i1 := (s i).down
    if i1 = col then ⟨nPrev, s, sol, p⟩
    else
      let s1 := cover_other_columns arena s i1
      let r := recur s1 sol p
      let s2 := uncover_other_columns arena r.heap i1
      let sol2 := if r.ret > 0 then
          Function.update r.sol k { r.sol k with row_node := i1 }
        else r.sol
      if r.pnsol = 0 then ⟨r.ret, s2, sol2, r.pnsol⟩
      else ecRows recur arena col k fuel s2 sol2 r.pnsol i1 r.ret

/-- `dlx_exact_cover(solution, root, k, pnsol)`, recursion fuel explicit. -/
def ecAux (arena root : Nat) : Nat → Heap → (Nat → SRow) → Nat → Nat → EC
  | 0, s, sol, _, p => ⟨0, s, sol, p⟩
  | fuel + 1, s, sol, k, p =>
    if (s root).right = root then ⟨k, s, sol, decW p⟩
    else
      match hnode_min_count arena s root with
      | none => ⟨0, s, sol, p⟩
      | some col =>
        let s1 := coverH arena s col
        let sol1 := Function.update sol k
          { sol k with id := (s1 col).id, n_choices := (s1 col).node_count }
        let r := ecRows (fun s2 sol2 p2 => ecAux arena root fuel s2 sol2 (k + 1) p2)
          arena col k (arena + 1) s1 sol1 p col 0
        ⟨r.ret, uncoverH arena r.heap col, r.sol, r.pnsol⟩

/-- Top-level `dlx_exact_cover` on a matrix state. -/
def dlx_exact_cover (sol : Nat → SRow) (s : St) (root k p : Nat) : EC :=
  ecAux s.n root (s.n + 1) s.heap sol k p

/-- `dlx_row_id(node)`. -/
def dlx_row_id (s : Heap) (node : Option Nat) : Option Nat :=
  match node with
  | none => none
  | some i => some ((s i).row_id)

/-- Walk `header.down` back to `header`, collecting the data nodes currently
live (not vertically excised) in the column — the walk prescribed by spec P3. -/
def colWalkAux (s : Heap) (c : Nat) : Nat → Nat → List Nat
  | 0, _ => []
  | fuel + 1, x =>
    let x1 := (s x).down
    if x1 = c then [] else x1 :: colWalkAux s c fuel x1

/-- The list of live data nodes of column `c`. -/
def colWalk (arena : Nat) (s : Heap) (c : Nat) : List Nat :=
  colWalkAux s c (arena + 1) c

/-- The all-default heap used as the pristine arena for concrete matrices. -/
def emptyHeap : Heap := fun _ => default

/-! ## The sparse-matrix loader (dlx_read.c)

Allocation calls consult the oracle `ok : Nat → Bool`, indexed by a running
counter of allocation calls (`malloc`, `calloc`, `realloc`) made so far. -/

/-- `struct size_t_darray`.  `sz_max`, `sz_cur`, `i_next` are the source's
fields; `cap` is the ghost allocated extent of `data` in bytes (what
`calloc`/`realloc` actually provided), and `data` maps element index to the
stored value. -/
structure DArr where
  sz_max : Nat
  sz_cur : Nat
  i_next : Nat
  cap : Nat
  data : Nat → Nat

instance : Inhabited DArr := ⟨⟨0, 0, 0, 0, fun _ => 0⟩⟩

/-- `size_t_darray_create(sz_initial)`: one `malloc` for the struct, one
`calloc(sz_initial, sizeof(size_t))` for the data. -/
def size_t_darray_create (ok : Nat → Bool) (t sz : Nat) : Option DArr × Nat :=
  if !(ok t) then (none, t + 1)
  else if !(ok (t + 1)) then (none, t + 2)
  else (some ⟨sz, 0, 0, 8 * sz, fun _ => 0⟩, t + 2)

/-- `size_t_darray_grow(array)`: computes `new_size` with the saturating
1.5× policy (`SIZE_MAX` is `W - 1`) and calls `realloc(array->data, new_size)`
— `new_size` counted in bytes. -/
def size_t_darray_grow (ok : Nat → Bool) (t : Nat) (a : DArr) : Option DArr × Nat :=
  let n0 := a.sz_max / 2
  let n1 := if n0 = 0 then n0 + 1 else n0
  let ns := if n1 > (W - 1) - a.sz_max then W - 1 else n1 + a.sz_max
  if ns ≤ a.sz_cur then (none, t)
  else if !(ok t) then (none, t + 1)
  else (some { a with sz_max := ns, cap := ns }, t + 1)

/-- `array->data[array->i_next++] = val; array->sz_cur += sizeof(val);`.
The `Bool` records whether the write landed inside the allocated extent. -/
def darrStore (a : DArr) (v : Nat) : DArr × Bool :=
  ({ a with
      data := Function.update a.data a.i_next v
      i_next := a.i_next + 1
      sz_cur := (a.sz_cur + 8) % W },
    decide (8 * a.i_next + 8 ≤ a.cap))

/-- `size_t_darray_append(array, val)`; `none` is the `-1` return. -/
def size_t_darray_append (ok : Nat → Bool) (t : Nat) (a : DArr) (v : Nat) :
    Option (DArr × Bool) × Nat :=
  if a.sz_cur > (a.sz_max + (W - 8)) % W then
    match size_t_darray_grow ok t a with
    | (none, t1) => (none, t1)
    | (some a1, t1) => (some (darrStore a1 v), t1)
  else (some (darrStore a v), t)

/-- `size_t_darray_trim(array)`: `realloc(array->data, array->sz_cur)`;
a `NULL` result is an error only when `sz_cur != 0`. -/
def size_t_darray_trim (ok : Nat → Bool) (t : Nat) (a : DArr) : Option DArr × Nat :=
  if ok t then (some { a with sz_max := a.sz_cur, cap := a.sz_cur }, t + 1)
  else if a.sz_cur ≠ 0 then (none, t + 1)
  else (some { a with sz_max := a.sz_cur, cap := 0 }, t + 1)

/-- `size_t_darray_export`: the first `i_next` stored elements. -/
def size_t_darray_export (a : DArr) : List Nat :=
  (List.range a.i_next).map a.data

/-- `size_t_darray_size(array)`. -/
def size_t_darray_size (a : DArr) : Nat := a.i_next

/-- Running state of `read_bcsr`'s character loop.  `dropped` is a ghost
counter of `size_t_darray_append` calls that failed while the source
discarded their return value. -/
structure RB where
  colA : DArr
  rowA : DArr
  col : Nat
  maxc : Nat
  fl : Bool
  t : Nat
  dropped : Nat

/-- An append to `col_ind` whose return value `read_bcsr` ignores. -/
def rbAppendCol (ok : Nat → Bool) (st : RB) (v : Nat) : RB :=
  match size_t_darray_append ok st.t st.colA v with
  | (none, t1) => { st with t := t1, dropped := st.dropped + 1 }
  | (some (a1, _), t1) => { st with colA := a1, t := t1 }

/-- An append to `row_ptr` whose return value `read_bcsr` ignores. -/
def rbAppendRow (ok : Nat → Bool) (st : RB) (v : Nat) : RB :=
  match size_t_darray_append ok st.t st.rowA v with
  | (none, t1) => { st with t := t1, dropped := st.dropped + 1 }
  | (some (a1, _), t1) => { st with rowA := a1, t := t1 }

/-- The `while ((c = getc(stream)) != EOF)` loop of `read_bcsr`; an invalid
character sets `ret = -DLXR_EDATAERR` and breaks. -/
def rbLoop (ok : Nat → Bool) : List Char → RB → Int × RB
  | [], st => (0, st)
  | c :: rest, st =>
    if c = '1' then
      let st1 := rbAppendCol ok st st.col
      rbLoop ok rest { st1 with col := st1.col + 1, fl := false }
    else if c = '0' then
      rbLoop ok rest { st with col := st.col + 1, fl := false }
    else if c = '\n' then
      let st1 := rbAppendRow ok st (size_t_darray_size st.colA)
      rbLoop ok rest
        { st1 with
          maxc := if st1.maxc < st1.col then st1.col else st1.maxc
          col := 0
          fl := true }
    else (-2, st)

/-- Result of `read_bcsr`: the return code, the exported CSR, the widest-row
count, and the ghost count of silently dropped appends. -/
structure BcsrRes where
  ret : Int
  col_ind : List Nat
  row_ptr : List Nat
  ncols : Nat
  dropped : Nat

/-- `read_bcsr(csr, n, stream)` on a pure character stream (no I/O errors, so
the `ferror` branch is unreachable and `feof` holds at end of input). -/
def read_bcsr (ok : Nat → Bool) (input : List Char) : BcsrRes :=
  match size_t_darray_create ok 0 512 with
  | (none, _) => ⟨-1, [], [], 0, 0⟩
  | (some colA, t1) =>
    match size_t_darray_create ok t1 256 with
    | (none, _) => ⟨-1, [], [], 0, 0⟩
    | (some rowA, t2) =>
      let st0 : RB := ⟨colA, rowA, 0, 0, true, t2, 0⟩
      let st1 := rbAppendRow ok st0 0
      let lr := rbLoop ok input st1
      let ret0 := lr.1
      let stL := lr.2
      let st2 :=
        if ret0 = 0 ∧ stL.fl = false then
          let stA := rbAppendRow ok stL (size_t_darray_size stL.colA)
          { stA with maxc := if stA.maxc < stA.col then stA.col else stA.maxc }
        else stL
      let tr :=
        if ret0 = 0 then
          match size_t_darray_trim ok st2.t st2.colA with
          | (none, t3) => ((-1 : Int), { st2 with t := t3 })
          | (some cA, t3) =>
            match size_t_darray_trim ok t3 st2.rowA with
            | (none, t4) => ((-1 : Int), { st2 with colA := cA, t := t4 })
            | (some rA, t4) => ((0 : Int), { st2 with colA := cA, rowA := rA, t := t4 })
        else (ret0, st2)
      if tr.1 = 0 then
        ⟨0, size_t_darray_export tr.2.colA, size_t_darray_export tr.2.rowA,
          tr.2.maxc, tr.2.dropped⟩
      else ⟨tr.1, [], [], 0, tr.2.dropped⟩

/-- The always-succeeding allocation oracle. -/
def okTrue : Nat → Bool := fun _ => true

/-! ## Concrete instances used to exercise the code -/

/-- The 1-column, 1-row matrix (input `"1\n"`): root at id 0, the column
header at id 1, the single data node at id 2, built with the library's own
construction functions. -/
def exHeap1 : Heap :=
  let s := dlx_make_header_row emptyHeap 0 (fun i => 1 + i) 1
  let s := dlx_make_row s (fun i => 2 + i) 0 1
  dlx_add_row s (fun i => 2 + i) (fun _ => 1) 1

/-- The 1-column, 1-row matrix as a state (3 node slots). -/
def exSt1 : St := ⟨3, exHeap1⟩

/-- Oracle for the loader run: allocation call number 4 (the `realloc`
inside the first `size_t_darray_grow`) fails, every other one succeeds. -/
def okC8 : Nat → Bool := fun i => !(i == 4)

/-- A darray freshly created with capacity 1. -/
def exDA0 : DArr := ((size_t_darray_create okTrue 0 1).1).getD default

/-- `exDA0` after one successful append. -/
def exDA1 : DArr := (((size_t_darray_append okTrue 2 exDA0 7).1).getD (default, true)).1

/-! ## Spec-side description of the text input (claim C7) -/

/-- The rows of the stream per the spec: each newline terminates a row; end
of stream terminates a trailing implicit row iff that row is nonempty. -/
def specRows : List Char → List Char → List (List Char)
  | [], cur => if cur.isEmpty then [] else [cur]
  | c :: rest, cur =>
    if c = '\n' then cur :: specRows rest [] else specRows rest (cur ++ [c])

/-- Rows completed by an explicit newline while consuming the stream. -/
def rowsDone : List Char → List Char → List (List Char)
  | [], _ => []
  | c :: rest, cur =>
    if c = '\n' then cur :: rowsDone rest [] else rowsDone rest (cur ++ [c])

/-- The trailing not-yet-terminated row after consuming the stream. -/
def trailing : List Char → List Char → List Char
  | [], cur => cur
  | c :: rest, cur => if c = '\n' then trailing rest [] else trailing rest (cur ++ [c])

/-- Positions of the `'1'` characters of a row, offset by `i`. -/
def onesOf : List Char → Nat → List Nat
  | [], _ => []
  | c :: rest, i => if c = '1' then i :: onesOf rest (i + 1) else onesOf rest (i + 1)

/-- Running totals of the per-row 1-counts, starting from `acc`. -/
def rowPtrSpec (acc : Nat) : List (List Char) → List Nat
  | [] => [acc]
  | r :: rows => acc :: rowPtrSpec (acc + (onesOf r 0).length) rows

/-- Width of the widest row. -/
def maxWidth : List (List Char) → Nat
  | [] => 0
  | r :: rows => max r.length (maxWidth rows)

/-- Size/layout invariant of a darray under which appends always succeed. -/
def GoodA (a : DArr) : Prop :=
  a.sz_cur = 8 * a.i_next ∧ a.sz_cur ≤ a.sz_max ∧ 16 ≤ a.sz_max ∧
    a.sz_max ≤ 4096 + 2 * a.sz_cur

def grown (a : DArr) : DArr :=
  { a with sz_max := a.sz_max / 2 + a.sz_max, cap := a.sz_max / 2 + a.sz_max }

/-- Total number of 1-entries of a row decomposition. -/
def onesTotal (rows : List (List Char)) : Nat :=
  (rows.flatMap (fun r => onesOf r 0)).length

/-- Invariant tying the loop state of `read_bcsr` to the rows completed so
far and the current partial row. -/
structure RBInv (st : RB) (rows : List (List Char)) (cur : List Char) : Prop where
  gc : GoodA st.colA
  gr : GoodA st.rowA
  colc : size_t_darray_export st.colA = rows.flatMap (fun r => onesOf r 0) ++ onesOf cur 0
  rowc : size_t_darray_export st.rowA = rowPtrSpec 0 rows
  colv : st.col = cur.length
  maxv : st.maxc = maxWidth rows
  flv : st.fl = cur.isEmpty


/-- A node is in its vertical list: both vertical neighbours point back. -/
def udLinked (s : Heap) (x : Nat) : Prop :=
  (s ((s x).up)).down = x ∧ (s ((s x).down)).up = x

/-- A node is in its horizontal list: both horizontal neighbours point back. -/
def lrLinked (s : Heap) (x : Nat) : Prop :=
  (s ((s x).left)).right = x ∧ (s ((s x).right)).left = x

/-- `remove_ud(j); j->header->node_count--;` as one step. -/
def coverStep (s : Heap) (j : Nat) : Heap :=
  decCount (remove_ud s j) ((remove_ud s j j).header)

/-- `j->header->node_count++; insert_ud(j);` as one step. -/
def unStep (s : Heap) (j : Nat) : Heap :=
  insert_ud (incCount s ((s j).header)) j

/-- Readiness of a list of nodes for removal: distinct, ud-linked, with
vertical neighbours outside the protected set `hc` and representable counts. -/
def RemReady (s : Heap) (hc : List Nat) (js : List Nat) : Prop :=
  js.Nodup ∧ ∀ j ∈ js, udLinked s j ∧ (s j).up ∉ hc ∧ (s j).down ∉ hc ∧
    (s ((s j).header)).node_count < W

/-- Following `down` from `a` visits exactly `l`, then reaches `b`. -/
def chainDown (s : Heap) : Nat → List Nat → Nat → Prop
  | a, [], b => (s a).down = b
  | a, x :: xs, b => (s a).down = x ∧ chainDown s x xs b

/-- Following `up` from `a` visits exactly `l`, then reaches `b`. -/
def chainUp (s : Heap) : Nat → List Nat → Nat → Prop
  | a, [], b => (s a).up = b
  | a, x :: xs, b => (s a).up = x ∧ chainUp s x xs b

/-- Following `right` from `a` visits exactly `l`, then reaches `b`. -/
def chainRight (s : Heap) : Nat → List Nat → Nat → Prop
  | a, [], b => (s a).right = b
  | a, x :: xs, b => (s a).right = x ∧ chainRight s x xs b

/-- Following `left` from `a` visits exactly `l`, then reaches `b`. -/
def chainLeft (s : Heap) : Nat → List Nat → Nat → Prop
  | a, [], b => (s a).left = b
  | a, x :: xs, b => (s a).left = x ∧ chainLeft s x xs b

/-- Everything `cover(h)` relies on around a live column header `h`:
`xs` is the column's down-chain of data nodes and `oth x` is the rest of
row `x` in rightward order; all nodes involved are distinct and doubly
linked, and no node of another column points back into column `h`. -/
structure CoverZone (s : Heap) (h : Nat) (xs : List Nat) (oth : Nat → List Nat) :
    Prop where
  hLR : lrLinked s h
  hSelfL : (s h).left ≠ h
  hSelfR : (s h).right ≠ h
  colDown : chainDown s h xs h
  colUp : chainUp s h xs.reverse h
  rowR : ∀ x ∈ xs, chainRight s x (oth x) x
  rowL : ∀ x ∈ xs, chainLeft s x (oth x).reverse x
  ndAll : (h :: (xs ++ xs.flatMap oth)).Nodup
  hlNot : (s h).left ∉ xs ++ xs.flatMap oth
  hrNot : (s h).right ∉ xs ++ xs.flatMap oth
  udl : ∀ j ∈ xs.flatMap oth, udLinked s j
  upNot : ∀ j ∈ xs.flatMap oth, (s j).up ∉ h :: xs ∧ (s j).down ∉ h :: xs
  hdrNot : ∀ j ∈ xs.flatMap oth, (s j).header ∉ h :: xs
  cnt : ∀ j ∈ xs.flatMap oth, (s ((s j).header)).node_count < W

/-- A concrete two-column matrix with one row covering both columns:
root 0, column headers 1 and 2, row nodes 3 (in column 1) and 4 (in column 2).
Node fields in order: row_id, left, right, up, down, header, node_count, id. -/
def czHeap : Heap := fun i =>
  match i with
  | 0 => ⟨0, 2, 1, 0, 0, 0, 0, 0⟩
  | 1 => ⟨0, 0, 2, 3, 3, 1, 1, 1⟩
  | 2 => ⟨0, 1, 0, 4, 4, 2, 1, 2⟩
  | 3 => ⟨7, 4, 4, 1, 1, 1, 0, 3⟩
  | 4 => ⟨7, 3, 3, 2, 2, 2, 0, 4⟩
  | _ => ⟨0, 0, 0, 0, 0, 0, 0, 0⟩

/-- The concrete matrix state over `czHeap` (5 node slots). -/
def czSt : St := ⟨5, czHeap⟩

/-- Backward vertical chain: each element of `l ++ [b]` has its `up` pointer
on its predecessor in `a :: l`. -/
def UpBack (s : Heap) : Nat → List Nat → Nat → Prop
  | a, [], b => (s b).up = a
  | a, x :: xs, b => (s x).up = a ∧ UpBack s x xs b

/-- Backward horizontal chain: each element of `l ++ [b]` has its `left`
pointer on its predecessor in `a :: l`. -/
def LeftBack (s : Heap) : Nat → List Nat → Nat → Prop
  | a, [], b => (s b).left = a
  | a, x :: xs, b => (s x).left = a ∧ LeftBack s x xs b

def chainDownDec (s : Heap) : (l : List Nat) → (a b : Nat) → Decidable (chainDown s a l b)
  | [], a, b => inferInstanceAs (Decidable ((s a).down = b))
  | x :: xs, a, b =>
    @instDecidableAnd _ _ (inferInstanceAs (Decidable ((s a).down = x))) (chainDownDec s xs x b)

instance (s : Heap) (a : Nat) (l : List Nat) (b : Nat) : Decidable (chainDown s a l b) :=
  chainDownDec s l a b

def chainUpDec (s : Heap) : (l : List Nat) → (a b : Nat) → Decidable (chainUp s a l b)
  | [], a, b => inferInstanceAs (Decidable ((s a).up = b))
  | x :: xs, a, b =>
    @instDecidableAnd _ _ (inferInstanceAs (Decidable ((s a).up = x))) (chainUpDec s xs x b)

instance (s : Heap) (a : Nat) (l : List Nat) (b : Nat) : Decidable (chainUp s a l b) :=
  chainUpDec s l a b

def chainRightDec (s : Heap) : (l : List Nat) → (a b : Nat) → Decidable (chainRight s a l b)
  | [], a, b => inferInstanceAs (Decidable ((s a).right = b))
  | x :: xs, a, b =>
    @instDecidableAnd _ _ (inferInstanceAs (Decidable ((s a).right = x))) (chainRightDec s xs x b)

instance (s : Heap) (a : Nat) (l : List Nat) (b : Nat) : Decidable (chainRight s a l b) :=
  chainRightDec s l a b

def chainLeftDec (s : Heap) : (l : List Nat) → (a b : Nat) → Decidable (chainLeft s a l b)
  | [], a, b => inferInstanceAs (Decidable ((s a).left = b))
  | x :: xs, a, b =>
    @instDecidableAnd _ _ (inferInstanceAs (Decidable ((s a).left = x))) (chainLeftDec s xs x b)

instance (s : Heap) (a : Nat) (l : List Nat) (b : Nat) : Decidable (chainLeft s a l b) :=
  chainLeftDec s l a b

def upBackDec (s : Heap) : (l : List Nat) → (a b : Nat) → Decidable (UpBack s a l b)
  | [], a, b => inferInstanceAs (Decidable ((s b).up = a))
  | x :: xs, a, b =>
    @instDecidableAnd _ _ (inferInstanceAs (Decidable ((s x).up = a))) (upBackDec s xs x b)

instance (s : Heap) (a : Nat) (l : List Nat) (b : Nat) : Decidable (UpBack s a l b) :=
  upBackDec s l a b

def leftBackDec (s : Heap) : (l : List Nat) → (a b : Nat) → Decidable (LeftBack s a l b)
  | [], a, b => inferInstanceAs (Decidable ((s b).left = a))
  | x :: xs, a, b =>
    @instDecidableAnd _ _ (inferInstanceAs (Decidable ((s x).left = a))) (leftBackDec s xs x b)

instance (s : Heap) (a : Nat) (l : List Nat) (b : Nat) : Decidable (LeftBack s a l b) :=
  leftBackDec s l a b

/-- A doubly linked vertical list from `a` down to `b`. -/
def Dbl (s : Heap) (a : Nat) (l : List Nat) (b : Nat) : Prop :=
  chainDown s a l b ∧ UpBack s a l b

/-- The static geometry of a built DLX matrix: root node, column headers in
header-row order, data rows (each listing its nodes in left-to-right build
order), and static per-node data: the containing row (`rowOf`), the column
header (`hdr`), and per column its data nodes in top-to-bottom order
(`colNodes`). -/
structure Geom where
  root : Nat
  hs : List Nat
  rows : List (List Nat)
  rowOf : Nat → List Nat
  hdr : Nat → Nat
  colNodes : Nat → List Nat

/-- All data nodes of the matrix. -/
def allN (g : Geom) : List Nat := g.rows.flatMap id

/-- Node `j`'s row is live: none of its columns is covered (in `K`). -/
def lv (g : Geom) (K : List Nat) (j : Nat) : Bool :=
  ((g.rowOf j).map g.hdr).all (fun d => !(K.contains d))

/-- The headers still linked in the header row. -/
def liveCols (g : Geom) (K : List Nat) : List Nat :=
  g.hs.filter (fun c => !(K.contains c))

/-- The data nodes still linked in column `c`. -/
def liveNodes (g : Geom) (K : List Nat) (c : Nat) : List Nat :=
  (g.colNodes c).filter (lv g K)

/-- The rest of the circular list `l` read from `x`. -/
def rotAt (l : List Nat) (x : Nat) : List Nat :=
  (l.dropWhile (fun z => z != x)).tail ++ l.takeWhile (fun z => z != x)

/-- The other nodes of `j`'s row, in rightward order from `j`. -/
def othFn (g : Geom) (j : Nat) : List Nat := rotAt (g.rowOf j) j

/-- A row's circular rightward chain. -/
def rowCircR (s : Heap) : List Nat → Prop
  | [] => True
  | j :: t => chainRight s j t j

/-- A row's circular backward (left) chain. -/
def rowCircL (s : Heap) : List Nat → Prop
  | [] => True
  | j :: t => LeftBack s j t j

instance rowCircRDec (s : Heap) : (l : List Nat) → Decidable (rowCircR s l)
  | [] => inferInstanceAs (Decidable True)
  | j :: t => inferInstanceAs (Decidable (chainRight s j t j))

instance rowCircLDec (s : Heap) : (l : List Nat) → Decidable (rowCircL s l)
  | [] => inferInstanceAs (Decidable True)
  | j :: t => inferInstanceAs (Decidable (LeftBack s j t j))

/-- The representation invariant tying a heap to a static geometry `g` with
covered-column stack `K`: the header row links exactly the uncovered
headers, each uncovered column links exactly its live data nodes (both
directions), rows keep their static circular horizontal links, `header`
fields are static, and all node ids are pairwise distinct. -/
structure Rep (arena : Nat) (g : Geom) (s : Heap) (K : List Nat) : Prop where
  nd : (g.root :: (g.hs ++ allN g)).Nodup
  rowsNE : ∀ l ∈ g.rows, l ≠ []
  rowsLen : ∀ l ∈ g.rows, l.length ≤ arena
  hsLen : g.hs.length ≤ arena
  colLen : ∀ c ∈ g.hs, (g.colNodes c).length ≤ arena
  colNd : ∀ c ∈ g.hs, (g.colNodes c).Nodup
  hdrEq : ∀ j ∈ allN g, (s j).header = g.hdr j
  hdrMem : ∀ j ∈ allN g, g.hdr j ∈ g.hs
  rowOfEq : ∀ l ∈ g.rows, ∀ j ∈ l, g.rowOf j = l
  rowColsNd : ∀ l ∈ g.rows, (l.map g.hdr).Nodup
  colSub : ∀ c ∈ g.hs, ∀ j ∈ g.colNodes c, j ∈ allN g ∧ g.hdr j = c
  colFull : ∀ j ∈ allN g, j ∈ g.colNodes (g.hdr j)
  rowR : ∀ l ∈ g.rows, rowCircR s l
  rowL : ∀ l ∈ g.rows, rowCircL s l
  ksub : ∀ c ∈ K, c ∈ g.hs
  knd : K.Nodup
  hdrR : chainRight s g.root (liveCols g K) g.root
  hdrL : LeftBack s g.root (liveCols g K) g.root
  colD : ∀ c ∈ liveCols g K, chainDown s c (liveNodes g K c) c
  colU : ∀ c ∈ liveCols g K, UpBack s c (liveNodes g K c) c
  cntW : ∀ c ∈ g.hs, (s c).node_count < W

/-- The current chain of column `d` after the nodes in `P` have been removed
(on top of the covered-column set `K`). -/
def chainAt (g : Geom) (K P : List Nat) (d : Nat) : List Nat :=
  (g.colNodes d).filter (fun j => lv g K j && !(P.contains j))

/-- The solution entries `k .. n-1` hold the row nodes of a partial cover
whose rows' column sets partition exactly the columns still live under `K`. -/
def SolGood (g : Geom) (K : List Nat) (sol : Nat → SRow) (k n : Nat) : Prop :=
  k ≤ n ∧ ∃ l : List Nat, l.length = n - k ∧
    (∀ t (ht : t < l.length), (sol (k + t)).row_node = l.get ⟨t, ht⟩) ∧
    (∀ j ∈ l, j ∈ allN g) ∧
    (l.flatMap (fun j => (g.rowOf j).map g.hdr)).Perm (liveCols g K)

/-- The static geometry of the `czHeap` matrix: two columns, one row
covering both. -/
def czGeom : Geom :=
  ⟨0, [1, 2], [[3, 4]], fun _ => [3, 4], fun j => (czHeap j).header,
    fun c => if c = 1 then [3] else if c = 2 then [4] else []⟩

/-- An all-zero solution array. -/
def czSol : Nat → SRow := fun _ => ⟨0, 0, 0⟩

end Dlx

namespace Dlx

/-! ## Claim theorems -/

theorem W_val : W = 18446744073709551616 := by norm_num [W]

theorem sub8_mod (m : Nat) (h8 : 8 ≤ m) (hm : m < W) : (m + (W - 8)) % W = m - 8 := by
  have hW := W_val
  have h1 : m + (W - 8) = (m - 8) + W := by omega
  rw [h1, Nat.add_mod_right, Nat.mod_eq_of_lt (by omega)]

theorem export_snoc (a1 a : DArr) (v : Nat)
    (hd : a1.data = Function.update a.data a.i_next v) (hi : a1.i_next = a.i_next + 1) :
    size_t_darray_export a1 = size_t_darray_export a ++ [v] := by
  simp only [size_t_darray_export, hi, hd, List.range_succ, List.map_append, List.map_cons,
    List.map_nil, Function.update_same]
  refine congrArg (fun l => l ++ [v]) ?_
  refine List.map_congr_left ?_
  intro x hx
  exact Function.update_noteq (Nat.ne_of_lt (List.mem_range.mp hx)) _ _

theorem grow_okTrue_spec (a : DArr) (t : Nat)
    (h3 : 16 ≤ a.sz_max) (hsmall : a.sz_max < 2 ^ 63) :
    size_t_darray_grow okTrue t a =
      (if a.sz_max / 2 + a.sz_max ≤ a.sz_cur then (none, t)
       else (some (grown a), t + 1)) := by
  have hW := W_val
  norm_num at hsmall
  simp only [size_t_darray_grow, okTrue, Bool.not_true, Bool.false_eq_true, if_false, grown]
  rw [if_neg (by omega : ¬ a.sz_max / 2 = 0), if_neg (by omega : ¬ a.sz_max / 2 > (W - 1) - a.sz_max)]

theorem append_okTrue_spec (a : DArr) (v t : Nat) (h : GoodA a)
    (hb : a.i_next ≤ 2 ^ 58 + 2) :
    ∃ a1 fl t1, size_t_darray_append okTrue t a v = (some (a1, fl), t1) ∧
      GoodA a1 ∧ a1.i_next = a.i_next + 1 ∧
      size_t_darray_export a1 = size_t_darray_export a ++ [v] := by
  obtain ⟨h1, h2, h3, h4⟩ := h
  have hW := W_val
  norm_num at hb
  have hmW : a.sz_max < 2 ^ 63 := by norm_num; omega
  have hguard : (a.sz_max + (W - 8)) % W = a.sz_max - 8 := sub8_mod _ (by omega) (by omega)
  have hm8 : (a.sz_cur + 8) % W = a.sz_cur + 8 := Nat.mod_eq_of_lt (by omega)
  by_cases hc : a.sz_cur > a.sz_max - 8
  · -- grow path
    have hns : ¬ (a.sz_max / 2 + a.sz_max ≤ a.sz_cur) := by omega
    have hgrow := grow_okTrue_spec a t h3 hmW
    rw [if_neg hns] at hgrow
    refine ⟨(darrStore (grown a) v).1, (darrStore (grown a) v).2, t + 1, ?_, ?_, ?_, ?_⟩
    · simp only [size_t_darray_append, hguard, if_pos hc, hgrow]
    · simp only [GoodA, darrStore, grown, hm8]
      refine ⟨by omega, by omega, by omega, by omega⟩
    · simp [darrStore, grown]
    · exact export_snoc _ _ _ (by simp [darrStore, grown]) (by simp [darrStore, grown])
  · -- direct store
    refine ⟨(darrStore a v).1, (darrStore a v).2, t, ?_, ?_, ?_, ?_⟩
    · simp only [size_t_darray_append, hguard, if_neg hc]
    · simp only [GoodA, darrStore, hm8]
      refine ⟨by omega, by omega, by omega, by omega⟩
    · simp [darrStore]
    · exact export_snoc _ _ _ (by simp [darrStore]) (by simp [darrStore])

theorem export_length (a : DArr) : (size_t_darray_export a).length = a.i_next := by
  simp [size_t_darray_export]

theorem onesOf_snoc (xs : List Char) (c : Char) :
    ∀ i, onesOf (xs ++ [c]) i =
      onesOf xs i ++ (if c = '1' then [i + xs.length] else []) := by
  induction xs with
  | nil => intro i; by_cases h : c = '1' <;> simp [onesOf, h]
  | cons x xs ih =>
    intro i
    have harr : i + (xs.length + 1) = i + 1 + xs.length := by omega
    by_cases h : x = '1' <;>
      simp [onesOf, h, ih (i + 1), harr]

theorem onesTotal_snoc (rows : List (List Char)) (r : List Char) :
    onesTotal (rows ++ [r]) = onesTotal rows + (onesOf r 0).length := by
  simp [onesTotal]

theorem rowPtrSpec_snoc (rows : List (List Char)) (r : List Char) :
    ∀ acc, rowPtrSpec acc (rows ++ [r]) =
      rowPtrSpec acc rows ++ [acc + onesTotal (rows ++ [r])] := by
  induction rows with
  | nil => intro acc; simp [rowPtrSpec, onesTotal]
  | cons r0 rows ih =>
    intro acc
    have hT : onesTotal (r0 :: (rows ++ [r])) = (onesOf r0 0).length + onesTotal (rows ++ [r]) := by
      simp [onesTotal]
    simp only [List.cons_append, rowPtrSpec, ih, hT, List.append_eq]
    simp [Nat.add_assoc]

theorem maxWidth_snoc (rows : List (List Char)) (r : List Char) :
    maxWidth (rows ++ [r]) = max (maxWidth rows) r.length := by
  induction rows with
  | nil => simp [maxWidth]
  | cons r0 rows ih =>
    simp only [List.cons_append, maxWidth, List.append_eq, ih]
    omega

theorem specRows_decomp (rest : List Char) :
    ∀ cur, specRows rest cur =
      rowsDone rest cur ++
        (if (trailing rest cur).isEmpty then [] else [trailing rest cur]) := by
  induction rest with
  | nil =>
    intro cur
    by_cases h : cur.isEmpty <;> simp [specRows, rowsDone, trailing, h]
  | cons c rest ih =>
    intro cur
    by_cases h : c = '\n' <;> simp [specRows, rowsDone, trailing, h, ih]

theorem rbAppendCol_spec (st : RB) (v : Nat) (h : GoodA st.colA)
    (hb : st.colA.i_next ≤ 2 ^ 58 + 2) :
    ∃ a1 t1, rbAppendCol okTrue st v = { st with colA := a1, t := t1 } ∧ GoodA a1 ∧
      a1.i_next = st.colA.i_next + 1 ∧
      size_t_darray_export a1 = size_t_darray_export st.colA ++ [v] := by
  obtain ⟨a1, fl, t1, he, hg, hi, hx⟩ := append_okTrue_spec st.colA v st.t h hb
  exact ⟨a1, t1, by simp [rbAppendCol, he], hg, hi, hx⟩

theorem rbAppendRow_spec (st : RB) (v : Nat) (h : GoodA st.rowA)
    (hb : st.rowA.i_next ≤ 2 ^ 58 + 2) :
    ∃ a1 t1, rbAppendRow okTrue st v = { st with rowA := a1, t := t1 } ∧ GoodA a1 ∧
      a1.i_next = st.rowA.i_next + 1 ∧
      size_t_darray_export a1 = size_t_darray_export st.rowA ++ [v] := by
  obtain ⟨a1, fl, t1, he, hg, hi, hx⟩ := append_okTrue_spec st.rowA v st.t h hb
  exact ⟨a1, t1, by simp [rbAppendRow, he], hg, hi, hx⟩

theorem rbLoop_okTrue_spec (rest : List Char) :
    ∀ st rows cur, RBInv st rows cur →
      (∀ c ∈ rest, c = '0' ∨ c = '1' ∨ c = '\n') →
      st.colA.i_next + rest.length ≤ 2 ^ 58 + 2 →
      st.rowA.i_next + rest.length ≤ 2 ^ 58 + 2 →
      ∃ st1, rbLoop okTrue rest st = (0, st1) ∧
        RBInv st1 (rows ++ rowsDone rest cur) (trailing rest cur) ∧
        st1.colA.i_next ≤ 2 ^ 58 + 2 ∧ st1.rowA.i_next ≤ 2 ^ 58 + 2 := by
  induction rest with
  | nil =>
    intro st rows cur hInv _ hbc hbr
    exact ⟨st, by simp [rbLoop], by simpa [rowsDone, trailing] using hInv, by omega, by omega⟩
  | cons c rest ih =>
    intro st rows cur hInv hchars hbc hbr
    simp only [List.length_cons] at hbc hbr
    obtain hc | hc | hc := hchars c (by simp)
    · -- c = '0'
      subst hc
      have hstep : rbLoop okTrue ('0' :: rest) st =
          rbLoop okTrue rest { st with col := st.col + 1, fl := false } := by
        have hne : ¬ (('0' : Char) = '1') := by decide
        simp [rbLoop, hne]
      obtain ⟨gc, gr, colc, rowc, colv, maxv, flv⟩ := hInv
      have hInv1 : RBInv { st with col := st.col + 1, fl := false } rows (cur ++ ['0']) := by
        refine ⟨gc, gr, ?_, rowc, ?_, maxv, ?_⟩
        · show size_t_darray_export st.colA = _
          rw [colc, onesOf_snoc]
          simp
        · show st.col + 1 = _
          simp [colv]
        · show false = _
          simp
      obtain ⟨st1, h1, h2, h3, h4⟩ :=
        ih _ rows (cur ++ ['0']) hInv1 (fun c hc => hchars c (by simp [hc]))
          (by show st.colA.i_next + rest.length ≤ _; omega)
          (by show st.rowA.i_next + rest.length ≤ _; omega)
      refine ⟨st1, by rw [hstep, h1], ?_, h3, h4⟩
      have e1 : rowsDone ('0' :: rest) cur = rowsDone rest (cur ++ ['0']) := by
        simp [rowsDone]
      have e2 : trailing ('0' :: rest) cur = trailing rest (cur ++ ['0']) := by
        simp [trailing]
      rw [e1, e2]
      exact h2
    · -- c = '1'
      subst hc
      obtain ⟨gc, gr, colc, rowc, colv, maxv, flv⟩ := hInv
      obtain ⟨a1, t1, he, hg, hi, hx⟩ := rbAppendCol_spec st st.col gc (by omega)
      have hstep : rbLoop okTrue ('1' :: rest) st =
          rbLoop okTrue rest { st with colA := a1, t := t1, col := st.col + 1, fl := false } := by
        simp [rbLoop, he]
      have hInv1 : RBInv { st with colA := a1, t := t1, col := st.col + 1, fl := false }
          rows (cur ++ ['1']) := by
        refine ⟨hg, gr, ?_, rowc, ?_, maxv, ?_⟩
        · show size_t_darray_export a1 = _
          rw [hx, colc, onesOf_snoc]
          simp [colv]
        · show st.col + 1 = _
          simp [colv]
        · show false = _
          simp
      obtain ⟨st1, h1, h2, h3, h4⟩ :=
        ih _ rows (cur ++ ['1']) hInv1 (fun c hc => hchars c (by simp [hc]))
          (by show a1.i_next + rest.length ≤ _; omega)
          (by show st.rowA.i_next + rest.length ≤ _; omega)
      refine ⟨st1, by rw [hstep, h1], ?_, h3, h4⟩
      have e1 : rowsDone ('1' :: rest) cur = rowsDone rest (cur ++ ['1']) := by
        simp [rowsDone]
      have e2 : trailing ('1' :: rest) cur = trailing rest (cur ++ ['1']) := by
        simp [trailing]
      rw [e1, e2]
      exact h2
    · -- c = newline
      subst hc
      obtain ⟨gc, gr, colc, rowc, colv, maxv, flv⟩ := hInv
      obtain ⟨a1, t1, he, hg, hi, hx⟩ := rbAppendRow_spec st st.colA.i_next gr (by omega)
      have hstep : rbLoop okTrue ('\n' :: rest) st =
          rbLoop okTrue rest
            { st with
              rowA := a1
              t := t1
              maxc := if st.maxc < st.col then st.col else st.maxc
              col := 0
              fl := true } := by
        have hne1 : ¬ (('\n' : Char) = '1') := by decide
        have hne0 : ¬ (('\n' : Char) = '0') := by decide
        simp [rbLoop, size_t_darray_size, hne1, hne0, he]
      have hlen : st.colA.i_next = onesTotal (rows ++ [cur]) := by
        rw [← export_length st.colA, colc, onesTotal_snoc]
        simp [onesTotal]
      have hInv1 : RBInv
          { st with
            rowA := a1
            t := t1
            maxc := if st.maxc < st.col then st.col else st.maxc
            col := 0
            fl := true }
          (rows ++ [cur]) [] := by
        refine ⟨gc, hg, ?_, ?_, ?_, ?_, ?_⟩
        · show size_t_darray_export st.colA = _
          rw [colc]
          simp [onesOf]
        · show size_t_darray_export a1 = _
          rw [hx, rowc, rowPtrSpec_snoc, hlen]
          simp
        · show (0 : Nat) = _
          simp
        · show (if st.maxc < st.col then st.col else st.maxc) = _
          rw [maxWidth_snoc, maxv, colv]
          split <;> omega
        · show true = _
          simp
      obtain ⟨st1, h1, h2, h3, h4⟩ :=
        ih _ (rows ++ [cur]) [] hInv1 (fun c hc => hchars c (by simp [hc]))
          (by show st.colA.i_next + rest.length ≤ _; omega)
          (by show a1.i_next + rest.length ≤ _; omega)
      refine ⟨st1, by rw [hstep, h1], ?_, h3, h4⟩
      have e1 : rowsDone ('\n' :: rest) cur = cur :: rowsDone rest [] := by
        simp [rowsDone]
      have e2 : trailing ('\n' :: rest) cur = trailing rest [] := by
        simp [trailing]
      rw [e1, e2]
      simpa using h2

theorem trim_okTrue (a : DArr) (t : Nat) :
    size_t_darray_trim okTrue t a =
      (some { a with sz_max := a.sz_cur, cap := a.sz_cur }, t + 1) := by
  simp [size_t_darray_trim, okTrue]

theorem export_set_szcap (a : DArr) (sm cp : Nat) :
    size_t_darray_export { a with sz_max := sm, cap := cp } = size_t_darray_export a := rfl

theorem export_eta (a : DArr) (sm sc cp : Nat) :
    size_t_darray_export ⟨sm, sc, a.i_next, cp, a.data⟩ = size_t_darray_export a := rfl

theorem read_bcsr_wf_spec (input : List Char)
    (hchars : ∀ c ∈ input, c = '0' ∨ c = '1' ∨ c = '\n')
    (hlen : input.length ≤ 2 ^ 58) :
    (read_bcsr okTrue input).ret = 0 ∧
    (read_bcsr okTrue input).col_ind = (specRows input []).flatMap (fun r => onesOf r 0) ∧
    (read_bcsr okTrue input).row_ptr = rowPtrSpec 0 (specRows input []) ∧
    (read_bcsr okTrue input).ncols = maxWidth (specRows input []) := by
  have hc1 : size_t_darray_create okTrue 0 512 = (some ⟨512, 0, 0, 4096, fun _ => 0⟩, 2) := by
    norm_num [size_t_darray_create, okTrue]
  have hc2 : size_t_darray_create okTrue 2 256 = (some ⟨256, 0, 0, 2048, fun _ => 0⟩, 4) := by
    norm_num [size_t_darray_create, okTrue]
  set A0 : DArr := ⟨512, 0, 0, 4096, fun _ => 0⟩ with hA0
  set B0 : DArr := ⟨256, 0, 0, 2048, fun _ => 0⟩ with hB0
  have hgA0 : GoodA A0 := by refine ⟨rfl, ?_, ?_, ?_⟩ <;> norm_num [hA0]
  have hgB0 : GoodA B0 := by refine ⟨rfl, ?_, ?_, ?_⟩ <;> norm_num [hB0]
  set st0 : RB := ⟨A0, B0, 0, 0, true, 4, 0⟩ with hst0
  obtain ⟨b1, tb1, heB, hgB1, hiB1, hxB1⟩ := rbAppendRow_spec st0 0 hgB0 (by norm_num [hB0])
  have hInv1 : RBInv { st0 with rowA := b1, t := tb1 } [] [] := by
    refine ⟨hgA0, hgB1, ?_, ?_, rfl, rfl, rfl⟩
    · simp [hA0, size_t_darray_export, onesOf]
    · rw [hxB1]
      simp [hB0, size_t_darray_export, rowPtrSpec]
  have hbudc : ({ st0 with rowA := b1, t := tb1 } : RB).colA.i_next + input.length ≤ 2 ^ 58 + 2 := by
    show A0.i_next + input.length ≤ _
    norm_num [hA0] at *
    omega
  have hbudr : ({ st0 with rowA := b1, t := tb1 } : RB).rowA.i_next + input.length ≤ 2 ^ 58 + 2 := by
    show b1.i_next + input.length ≤ _
    rw [hiB1]
    norm_num [hB0] at *
    omega
  obtain ⟨stL, hLoop, hInvL, hbc, hbr⟩ :=
    rbLoop_okTrue_spec input _ [] [] hInv1 hchars hbudc hbudr
  obtain ⟨gcL, grL, colcL, rowcL, colvL, maxvL, flvL⟩ := hInvL
  simp only [List.nil_append] at colcL rowcL maxvL
  have hdone := specRows_decomp input []
  by_cases hE : (trailing input []).isEmpty
  · -- end of stream right after a newline (or empty input): no extra row
    have htr : trailing input [] = [] := by
      cases h : trailing input [] with
      | nil => rfl
      | cons a l => rw [h] at hE; simp at hE
    have hrows : specRows input [] = rowsDone input [] := by
      rw [hdone, if_pos hE]
      simp
    have hfl : stL.fl = true := by rw [flvL, hE]
    simp only [read_bcsr, hc1, hc2]
    rw [show (⟨A0, B0, 0, 0, true, 4, 0⟩ : RB) = st0 from rfl]
    simp only [heB, hLoop, hfl, Bool.true_eq_false, and_false, if_false, ite_false, trim_okTrue]
    simp [export_eta, hrows, colcL, rowcL, maxvL, htr, onesOf]
  · -- unterminated final row: kept, and its width counts toward ncols
    have hfl : stL.fl = false := by
      rw [flvL]
      simp only [Bool.not_eq_true] at hE
      exact hE
    have hrows : specRows input [] = rowsDone input [] ++ [trailing input []] := by
      rw [hdone, if_neg hE]
    obtain ⟨bN, tbN, heBN, hgBN, hiBN, hxBN⟩ :=
      rbAppendRow_spec stL stL.colA.i_next grL (by omega)
    have hlenL : stL.colA.i_next = onesTotal (rowsDone input [] ++ [trailing input []]) := by
      rw [← export_length stL.colA, colcL, onesTotal_snoc]
      simp [onesTotal]
    simp only [read_bcsr, hc1, hc2]
    rw [show (⟨A0, B0, 0, 0, true, 4, 0⟩ : RB) = st0 from rfl]
    simp only [heB, hLoop, hfl, size_t_darray_size, heBN, trim_okTrue]
    simp [export_eta, hrows, colcL, rowcL, maxvL, colvL, hxBN, rowPtrSpec_snoc, ← hlenL,
      maxWidth_snoc]
    have hsup : maxWidth (rowsDone input []) ⊔ (trailing input []).length =
        max (maxWidth (rowsDone input [])) ((trailing input []).length) := rfl
    rw [hsup]
    split <;> omega



/-- Claim C7: for every well-formed input stream (characters limited to
'0', '1', newline; length within the size_t-representable budget) and a
non-failing allocator, `read_bcsr` succeeds and produces exactly the CSR of
the spec-side row decomposition `specRows`: an end of stream not preceded
by a newline terminates an implicit final row whose entries are kept and
whose width counts toward the column count; an end of stream right after a
newline (or the empty stream) adds no row; and the reported column count is
the width of the widest row encountered. -/
theorem read_bcsr_wellformed_rows_and_width (input : List Char)
    (hchars : ∀ c ∈ input, c = '0' ∨ c = '1' ∨ c = '\n')
    (hlen : input.length ≤ 2 ^ 58) :
    (read_bcsr okTrue input).ret = 0 ∧
    (read_bcsr okTrue input).col_ind = (specRows input []).flatMap (fun r => onesOf r 0) ∧
    (read_bcsr okTrue input).row_ptr = rowPtrSpec 0 (specRows input []) ∧
    (read_bcsr okTrue input).ncols = maxWidth (specRows input []) :=
  read_bcsr_wf_spec input hchars hlen

/-- Witness for C7 at the concrete stream `"10\n1"` (ragged, with an
unterminated final row). -/
theorem read_bcsr_wellformed_rows_and_width_witness :
    (read_bcsr okTrue ['1', '0', '\n', '1']).ret = 0 ∧
    (read_bcsr okTrue ['1', '0', '\n', '1']).col_ind =
      (specRows ['1', '0', '\n', '1'] []).flatMap (fun r => onesOf r 0) ∧
    (read_bcsr okTrue ['1', '0', '\n', '1']).row_ptr =
      rowPtrSpec 0 (specRows ['1', '0', '\n', '1'] []) ∧
    (read_bcsr okTrue ['1', '0', '\n', '1']).ncols =
      maxWidth (specRows ['1', '0', '\n', '1'] []) :=
  read_bcsr_wellformed_rows_and_width _ (by decide) (by decide)


/-- Claim C6: `dlx_force_row(r)` fails with `-1` exactly when `r` is
vertically excised (`r->up->down != r`) and otherwise covers `r`'s own
column, then the other columns of `r`'s row, and returns `0`;
`dlx_unselect_row(r)` fails with `-1` exactly when `r` is *not* vertically
excised; in every error case the matrix state is returned unchanged. -/
theorem force_row_unselect_row_guards (s : St) (r : Nat) :
    ((dlx_force_row s r).2 = -1 ↔ is_removed_ud s.heap r = true) ∧
    (is_removed_ud s.heap r = true → (dlx_force_row s r).1 = s) ∧
    (is_removed_ud s.heap r = false →
      dlx_force_row s r =
        ({ s with heap := cover_other_columns s.n (coverH s.n s.heap ((s.heap r).header)) r }, 0)) ∧
    ((dlx_unselect_row s r).2 = -1 ↔ is_removed_ud s.heap r = false) ∧
    (is_removed_ud s.heap r = false → (dlx_unselect_row s r).1 = s) := by
  cases h : is_removed_ud s.heap r <;>
    simp [dlx_force_row, dlx_unselect_row, h]

/-- Claim C3 (code bug): on the valid 1-column, 1-row matrix, whose search
tree has exactly one leaf success (witnessed by the run with `*pnsol = 3`
ending at `*pnsol = 2`), the call with `*pnsol = 2` must return 0 by the
claim, but the code returns 1 — the stale size of the last (only) solution
found while exhausting the tree. -/
theorem exact_cover_nonzero_despite_missing_solution :
    (dlx_exact_cover (fun _ => default) exSt1 0 0 3).pnsol = 2 ∧
    (dlx_exact_cover (fun _ => default) exSt1 0 0 2).ret = 1 ∧
    (dlx_exact_cover (fun _ => default) exSt1 0 0 2).pnsol = 1 := by
  decide

/-- Claim C2 (code bug): on the valid 1-column, 1-row matrix, the balanced
LIFO pair `dlx_force_row(r)` (succeeds, returns 0) followed by
`dlx_unselect_row(r)` fails with `-1` — the guard `!is_removed_ud(r)` fires
because covering `r`'s own column never vertically excises `r` itself — and
leaves the matrix modified: the root's `right` link still skips the covered
column (`root.right = root` instead of the original `root.right = 1`). -/
theorem force_row_unselect_row_pair_not_restored :
    (dlx_force_row exSt1 2).2 = 0 ∧
    (dlx_unselect_row (dlx_force_row exSt1 2).1 2).2 = -1 ∧
    ((dlx_unselect_row (dlx_force_row exSt1 2).1 2).1.heap 0).right = 0 ∧
    (exSt1.heap 0).right = 1 := by
  decide

/-- Claim C5 (code bug): after building the 1-column, 1-row matrix with
`dlx_make_header_row` / `dlx_make_row` / `dlx_add_row` (no engine operation
applied at all), the column header's `node_count` is 2 while the column
holds exactly one live data node (the walk `header.down → header` visits
only node 2): `dlx_make_header_row` initialises `node_count` to 1, although
its own comment says the initial node count is 0. -/
theorem node_count_off_by_one_after_build :
    (exHeap1 1).node_count = 2 ∧ colWalk 3 exHeap1 1 = [2] := by
  decide

set_option maxRecDepth 4000 in
/-- Claim C8 (code bug): on the 65-`'1'` input with the allocation oracle
that fails exactly the `realloc` of the first `size_t_darray_grow` (the one
triggered by the 65th `col_ind` append), `read_bcsr` returns 0 (success)
with the 65th column index silently dropped (`dropped = 1`,
`col_ind.length = 64`, yet `ncols = 65`), because every
`size_t_darray_append` return value inside `read_bcsr` is discarded. -/
theorem read_bcsr_success_despite_failed_append :
    (read_bcsr okC8 (List.replicate 65 '1')).ret = 0 ∧
    (read_bcsr okC8 (List.replicate 65 '1')).dropped = 1 ∧
    (read_bcsr okC8 (List.replicate 65 '1')).col_ind.length = 64 ∧
    (read_bcsr okC8 (List.replicate 65 '1')).ncols = 65 := by
  decide

/-- Claim C9 (code bug): with initial capacity 1 (allocation: 8 bytes, one
element) and an allocator that never fails, the first append stays in
bounds, but the second one writes element index 1 — bytes 8..16 of an
8-byte allocation — because `append` compares `sz_cur` (bytes) against
`sz_max - sizeof(val)` where `sz_max` was initialised in elements, and the
subtraction wraps for `sz_max < 8`, so no grow is attempted. -/
theorem size_t_darray_append_writes_out_of_bounds :
    (size_t_darray_append okTrue 2 exDA0 7).1.map (fun x => x.2) = some true ∧
    (size_t_darray_append okTrue 2 exDA1 7).1.map (fun x => x.2) = some false ∧
    exDA1.cap = 8 ∧ exDA1.i_next = 1 := by
  decide


/-! ## C4/C10 machinery: heap write characterizations -/

theorem wr_apply (s : Heap) (i : Nat) (v : Node) (x : Nat) :
    wr s i v x = if x = i then v else s x := by
  simp [wr, Function.update_apply]

theorem wLeft_apply (s : Heap) (i v x : Nat) :
    wLeft s i v x = if x = i then { s i with left := v } else s x := by
  simp [wLeft, wr_apply]

theorem wRight_apply (s : Heap) (i v x : Nat) :
    wRight s i v x = if x = i then { s i with right := v } else s x := by
  simp [wRight, wr_apply]

theorem wUp_apply (s : Heap) (i v x : Nat) :
    wUp s i v x = if x = i then { s i with up := v } else s x := by
  simp [wUp, wr_apply]

theorem wDown_apply (s : Heap) (i v x : Nat) :
    wDown s i v x = if x = i then { s i with down := v } else s x := by
  simp [wDown, wr_apply]

theorem decCount_apply (s : Heap) (c x : Nat) :
    decCount s c x = if x = c then { s c with node_count := decW (s c).node_count } else s x := by
  simp [decCount, wr_apply]

theorem incCount_apply (s : Heap) (c x : Nat) :
    incCount s c x = if x = c then { s c with node_count := incW (s c).node_count } else s x := by
  simp [incCount, wr_apply]

@[simp] theorem wUp_left (s : Heap) (i v x : Nat) : (wUp s i v x).left = (s x).left := by
  rw [wUp_apply]; split <;> simp_all
@[simp] theorem wUp_right (s : Heap) (i v x : Nat) : (wUp s i v x).right = (s x).right := by
  rw [wUp_apply]; split <;> simp_all
@[simp] theorem wUp_down (s : Heap) (i v x : Nat) : (wUp s i v x).down = (s x).down := by
  rw [wUp_apply]; split <;> simp_all
@[simp] theorem wUp_header (s : Heap) (i v x : Nat) : (wUp s i v x).header = (s x).header := by
  rw [wUp_apply]; split <;> simp_all
@[simp] theorem wUp_count (s : Heap) (i v x : Nat) : (wUp s i v x).node_count = (s x).node_count := by
  rw [wUp_apply]; split <;> simp_all
@[simp] theorem wUp_rid (s : Heap) (i v x : Nat) : (wUp s i v x).row_id = (s x).row_id := by
  rw [wUp_apply]; split <;> simp_all
@[simp] theorem wUp_id (s : Heap) (i v x : Nat) : (wUp s i v x).id = (s x).id := by
  rw [wUp_apply]; split <;> simp_all

@[simp] theorem wDown_left (s : Heap) (i v x : Nat) : (wDown s i v x).left = (s x).left := by
  rw [wDown_apply]; split <;> simp_all
@[simp] theorem wDown_right (s : Heap) (i v x : Nat) : (wDown s i v x).right = (s x).right := by
  rw [wDown_apply]; split <;> simp_all
@[simp] theorem wDown_up (s : Heap) (i v x : Nat) : (wDown s i v x).up = (s x).up := by
  rw [wDown_apply]; split <;> simp_all
@[simp] theorem wDown_header (s : Heap) (i v x : Nat) : (wDown s i v x).header = (s x).header := by
  rw [wDown_apply]; split <;> simp_all
@[simp] theorem wDown_count (s : Heap) (i v x : Nat) : (wDown s i v x).node_count = (s x).node_count := by
  rw [wDown_apply]; split <;> simp_all
@[simp] theorem wDown_rid (s : Heap) (i v x : Nat) : (wDown s i v x).row_id = (s x).row_id := by
  rw [wDown_apply]; split <;> simp_all
@[simp] theorem wDown_id (s : Heap) (i v x : Nat) : (wDown s i v x).id = (s x).id := by
  rw [wDown_apply]; split <;> simp_all

@[simp] theorem wLeft_right (s : Heap) (i v x : Nat) : (wLeft s i v x).right = (s x).right := by
  rw [wLeft_apply]; split <;> simp_all
@[simp] theorem wLeft_up (s : Heap) (i v x : Nat) : (wLeft s i v x).up = (s x).up := by
  rw [wLeft_apply]; split <;> simp_all
@[simp] theorem wLeft_down (s : Heap) (i v x : Nat) : (wLeft s i v x).down = (s x).down := by
  rw [wLeft_apply]; split <;> simp_all
@[simp] theorem wLeft_header (s : Heap) (i v x : Nat) : (wLeft s i v x).header = (s x).header := by
  rw [wLeft_apply]; split <;> simp_all
@[simp] theorem wLeft_count (s : Heap) (i v x : Nat) : (wLeft s i v x).node_count = (s x).node_count := by
  rw [wLeft_apply]; split <;> simp_all

@[simp] theorem wRight_left (s : Heap) (i v x : Nat) : (wRight s i v x).left = (s x).left := by
  rw [wRight_apply]; split <;> simp_all
@[simp] theorem wRight_up (s : Heap) (i v x : Nat) : (wRight s i v x).up = (s x).up := by
  rw [wRight_apply]; split <;> simp_all
@[simp] theorem wRight_down (s : Heap) (i v x : Nat) : (wRight s i v x).down = (s x).down := by
  rw [wRight_apply]; split <;> simp_all
@[simp] theorem wRight_header (s : Heap) (i v x : Nat) : (wRight s i v x).header = (s x).header := by
  rw [wRight_apply]; split <;> simp_all
@[simp] theorem wRight_count (s : Heap) (i v x : Nat) : (wRight s i v x).node_count = (s x).node_count := by
  rw [wRight_apply]; split <;> simp_all

@[simp] theorem decCount_left (s : Heap) (c x : Nat) : (decCount s c x).left = (s x).left := by
  rw [decCount_apply]; split <;> simp_all
@[simp] theorem decCount_right (s : Heap) (c x : Nat) : (decCount s c x).right = (s x).right := by
  rw [decCount_apply]; split <;> simp_all
@[simp] theorem decCount_up (s : Heap) (c x : Nat) : (decCount s c x).up = (s x).up := by
  rw [decCount_apply]; split <;> simp_all
@[simp] theorem decCount_down (s : Heap) (c x : Nat) : (decCount s c x).down = (s x).down := by
  rw [decCount_apply]; split <;> simp_all
@[simp] theorem decCount_header (s : Heap) (c x : Nat) : (decCount s c x).header = (s x).header := by
  rw [decCount_apply]; split <;> simp_all

@[simp] theorem incCount_left (s : Heap) (c x : Nat) : (incCount s c x).left = (s x).left := by
  rw [incCount_apply]; split <;> simp_all
@[simp] theorem incCount_right (s : Heap) (c x : Nat) : (incCount s c x).right = (s x).right := by
  rw [incCount_apply]; split <;> simp_all
@[simp] theorem incCount_up (s : Heap) (c x : Nat) : (incCount s c x).up = (s x).up := by
  rw [incCount_apply]; split <;> simp_all
@[simp] theorem incCount_down (s : Heap) (c x : Nat) : (incCount s c x).down = (s x).down := by
  rw [incCount_apply]; split <;> simp_all
@[simp] theorem incCount_header (s : Heap) (c x : Nat) : (incCount s c x).header = (s x).header := by
  rw [incCount_apply]; split <;> simp_all

@[simp] theorem wLeft_rid (s : Heap) (i v x : Nat) : (wLeft s i v x).row_id = (s x).row_id := by
  rw [wLeft_apply]; split <;> simp_all
@[simp] theorem wLeft_id (s : Heap) (i v x : Nat) : (wLeft s i v x).id = (s x).id := by
  rw [wLeft_apply]; split <;> simp_all
@[simp] theorem wRight_rid (s : Heap) (i v x : Nat) : (wRight s i v x).row_id = (s x).row_id := by
  rw [wRight_apply]; split <;> simp_all
@[simp] theorem wRight_id (s : Heap) (i v x : Nat) : (wRight s i v x).id = (s x).id := by
  rw [wRight_apply]; split <;> simp_all
@[simp] theorem decCount_rid (s : Heap) (c x : Nat) : (decCount s c x).row_id = (s x).row_id := by
  rw [decCount_apply]; split <;> simp_all
@[simp] theorem decCount_id (s : Heap) (c x : Nat) : (decCount s c x).id = (s x).id := by
  rw [decCount_apply]; split <;> simp_all
@[simp] theorem incCount_rid (s : Heap) (c x : Nat) : (incCount s c x).row_id = (s x).row_id := by
  rw [incCount_apply]; split <;> simp_all
@[simp] theorem incCount_id (s : Heap) (c x : Nat) : (incCount s c x).id = (s x).id := by
  rw [incCount_apply]; split <;> simp_all

/-! ## remove/insert normal forms and exact inverses -/

theorem node_ext {a b : Node} (h0 : a.row_id = b.row_id) (h1 : a.left = b.left)
    (h2 : a.right = b.right) (h3 : a.up = b.up) (h4 : a.down = b.down)
    (h5 : a.header = b.header) (h6 : a.node_count = b.node_count) (h7 : a.id = b.id) :
    a = b := by
  cases a; cases b; simp_all

theorem wDown_keep_self (s : Heap) (n : Nat) :
    wDown s ((s n).up) ((s n).down) n = s n := by
  rw [wDown_apply]
  split
  · next h => rw [← h]
  · rfl

theorem wRight_keep_self (s : Heap) (n : Nat) :
    wRight s ((s n).left) ((s n).right) n = s n := by
  rw [wRight_apply]
  split
  · next h => rw [← h]
  · rfl

theorem remove_ud_eq (s : Heap) (n : Nat) :
    remove_ud s n = wUp (wDown s ((s n).up) ((s n).down)) ((s n).down) ((s n).up) := by
  simp only [remove_ud, wDown_keep_self]

theorem remove_lr_eq (s : Heap) (n : Nat) :
    remove_lr s n = wLeft (wRight s ((s n).left) ((s n).right)) ((s n).right) ((s n).left) := by
  simp only [remove_lr, wRight_keep_self]

@[simp] theorem remove_ud_left (s : Heap) (n x : Nat) :
    (remove_ud s n x).left = (s x).left := by rw [remove_ud_eq]; simp
@[simp] theorem remove_ud_right (s : Heap) (n x : Nat) :
    (remove_ud s n x).right = (s x).right := by rw [remove_ud_eq]; simp
@[simp] theorem remove_ud_header (s : Heap) (n x : Nat) :
    (remove_ud s n x).header = (s x).header := by rw [remove_ud_eq]; simp
@[simp] theorem remove_ud_count (s : Heap) (n x : Nat) :
    (remove_ud s n x).node_count = (s x).node_count := by rw [remove_ud_eq]; simp
@[simp] theorem remove_ud_rid (s : Heap) (n x : Nat) :
    (remove_ud s n x).row_id = (s x).row_id := by rw [remove_ud_eq]; simp
@[simp] theorem remove_ud_id (s : Heap) (n x : Nat) :
    (remove_ud s n x).id = (s x).id := by rw [remove_ud_eq]; simp

theorem remove_ud_up (s : Heap) (n x : Nat) :
    (remove_ud s n x).up = if x = (s n).down then (s n).up else (s x).up := by
  rw [remove_ud_eq, wUp_apply]
  split <;> simp_all

theorem remove_ud_down (s : Heap) (n x : Nat) :
    (remove_ud s n x).down = if x = (s n).up then (s n).down else (s x).down := by
  rw [remove_ud_eq, wUp_down, wDown_apply]
  split <;> simp_all

theorem remove_ud_self (s : Heap) (n : Nat) : remove_ud s n n = s n := by
  refine node_ext ?_ ?_ ?_ ?_ ?_ ?_ ?_ ?_ <;>
    simp [remove_ud_up, remove_ud_down]

theorem insert_ud_remove_ud (s : Heap) (n : Nat)
    (h1 : (s ((s n).up)).down = n) (h2 : (s ((s n).down)).up = n) :
    insert_ud (remove_ud s n) n = s := by
  set σ := remove_ud s n with hσ
  have hσn : σ n = s n := remove_ud_self s n
  have hstep1 : insert_ud σ n = wDown (wUp σ ((s n).down) n) ((s n).up) n := by
    simp only [insert_ud, hσn]
    have hta : (wUp σ ((s n).down) n n).up = (s n).up := by
      rw [wUp_apply]
      by_cases hnb : n = (s n).down
      · rw [if_pos hnb]
        show n = (s n).up
        rw [← hnb] at h2
        exact h2.symm
      · rw [if_neg hnb, hσ, remove_ud_up, if_neg hnb]
    rw [hta]
  rw [hstep1]
  funext x
  have hup : (wDown (wUp σ ((s n).down) n) ((s n).up) n x).up = (s x).up := by
    rw [wDown_up, wUp_apply]
    by_cases hxb : x = (s n).down
    · rw [if_pos hxb]
      show n = (s x).up
      rw [hxb]
      exact h2.symm
    · rw [if_neg hxb, hσ, remove_ud_up, if_neg hxb]
  have hdown : (wDown (wUp σ ((s n).down) n) ((s n).up) n x).down = (s x).down := by
    rw [wDown_apply]
    by_cases hxa : x = (s n).up
    · rw [if_pos hxa]
      show n = (s x).down
      rw [hxa]
      exact h1.symm
    · rw [if_neg hxa, wUp_down, hσ, remove_ud_down, if_neg hxa]
  exact node_ext (by simp [hσ]) (by simp [hσ]) (by simp [hσ]) hup hdown
    (by simp [hσ]) (by simp [hσ]) (by simp [hσ])

@[simp] theorem remove_lr_up (s : Heap) (n x : Nat) :
    (remove_lr s n x).up = (s x).up := by rw [remove_lr_eq]; simp
@[simp] theorem remove_lr_down (s : Heap) (n x : Nat) :
    (remove_lr s n x).down = (s x).down := by rw [remove_lr_eq]; simp
@[simp] theorem remove_lr_header (s : Heap) (n x : Nat) :
    (remove_lr s n x).header = (s x).header := by rw [remove_lr_eq]; simp
@[simp] theorem remove_lr_count (s : Heap) (n x : Nat) :
    (remove_lr s n x).node_count = (s x).node_count := by rw [remove_lr_eq]; simp
@[simp] theorem remove_lr_rid (s : Heap) (n x : Nat) :
    (remove_lr s n x).row_id = (s x).row_id := by rw [remove_lr_eq]; simp
@[simp] theorem remove_lr_id (s : Heap) (n x : Nat) :
    (remove_lr s n x).id = (s x).id := by rw [remove_lr_eq]; simp

theorem remove_lr_left (s : Heap) (n x : Nat) :
    (remove_lr s n x).left = if x = (s n).right then (s n).left else (s x).left := by
  rw [remove_lr_eq, wLeft_apply]
  split <;> simp_all

theorem remove_lr_right (s : Heap) (n x : Nat) :
    (remove_lr s n x).right = if x = (s n).left then (s n).right else (s x).right := by
  rw [remove_lr_eq, wLeft_right, wRight_apply]
  split <;> simp_all

theorem remove_lr_self (s : Heap) (n : Nat) : remove_lr s n n = s n := by
  refine node_ext ?_ ?_ ?_ ?_ ?_ ?_ ?_ ?_ <;>
    simp [remove_lr_left, remove_lr_right]

theorem insert_lr_remove_lr (s : Heap) (n : Nat)
    (h1 : (s ((s n).left)).right = n) (h2 : (s ((s n).right)).left = n) :
    insert_lr (remove_lr s n) n = s := by
  set σ := remove_lr s n with hσ
  have hσn : σ n = s n := remove_lr_self s n
  have hstep1 : insert_lr σ n = wRight (wLeft σ ((s n).right) n) ((s n).left) n := by
    simp only [insert_lr, hσn]
    have hta : (wLeft σ ((s n).right) n n).left = (s n).left := by
      rw [wLeft_apply]
      by_cases hnb : n = (s n).right
      · rw [if_pos hnb]
        show n = (s n).left
        rw [← hnb] at h2
        exact h2.symm
      · rw [if_neg hnb, hσ, remove_lr_left, if_neg hnb]
    rw [hta]
  rw [hstep1]
  funext x
  have hleft : (wRight (wLeft σ ((s n).right) n) ((s n).left) n x).left = (s x).left := by
    rw [wRight_left, wLeft_apply]
    by_cases hxb : x = (s n).right
    · rw [if_pos hxb]
      show n = (s x).left
      rw [hxb]
      exact h2.symm
    · rw [if_neg hxb, hσ, remove_lr_left, if_neg hxb]
  have hright : (wRight (wLeft σ ((s n).right) n) ((s n).left) n x).right = (s x).right := by
    rw [wRight_apply]
    by_cases hxa : x = (s n).left
    · rw [if_pos hxa]
      show n = (s x).right
      rw [hxa]
      exact h1.symm
    · rw [if_neg hxa, wLeft_right, hσ, remove_lr_right, if_neg hxa]
  exact node_ext (by simp [hσ]) hleft hright (by simp [hσ]) (by simp [hσ])
    (by simp [hσ]) (by simp [hσ]) (by simp [hσ])

/-- Removing a ud-linked node keeps every other ud-linked node ud-linked. -/
theorem udLinked_remove_ud (s : Heap) (y z : Nat) (hy : udLinked s y)
    (hz : udLinked s z) (hne : z ≠ y) : udLinked (remove_ud s y) z := by
  obtain ⟨hy1, hy2⟩ := hy
  obtain ⟨hz1, hz2⟩ := hz
  constructor
  · rw [remove_ud_up]
    by_cases hzb : z = (s y).down
    · rw [if_pos hzb, remove_ud_down, if_pos rfl, ← hzb]
    · rw [if_neg hzb, remove_ud_down]
      by_cases hza : (s z).up = (s y).up
      · rw [hza] at hz1
        rw [hy1] at hz1
        exact absurd hz1.symm hne
      · rw [if_neg hza]
        exact hz1
  · rw [remove_ud_down]
    by_cases hza : z = (s y).up
    · rw [if_pos hza, remove_ud_up, if_pos rfl, ← hza]
    · rw [if_neg hza, remove_ud_up]
      by_cases hzb : (s z).down = (s y).down
      · rw [hzb] at hz2
        rw [hy2] at hz2
        exact absurd hz2.symm hne
      · rw [if_neg hzb]
        exact hz2

/-! ## One-node step of cover's and uncover's inner loops, and folds -/

theorem coverStep_eq (s : Heap) (j : Nat) :
    coverStep s j = decCount (remove_ud s j) ((s j).header) := by
  simp [coverStep]

@[simp] theorem insert_ud_left (s : Heap) (n x : Nat) :
    (insert_ud s n x).left = (s x).left := by simp [insert_ud]
@[simp] theorem insert_ud_right (s : Heap) (n x : Nat) :
    (insert_ud s n x).right = (s x).right := by simp [insert_ud]
@[simp] theorem insert_ud_header (s : Heap) (n x : Nat) :
    (insert_ud s n x).header = (s x).header := by simp [insert_ud]
@[simp] theorem insert_ud_count (s : Heap) (n x : Nat) :
    (insert_ud s n x).node_count = (s x).node_count := by simp [insert_ud]
@[simp] theorem insert_ud_rid (s : Heap) (n x : Nat) :
    (insert_ud s n x).row_id = (s x).row_id := by simp [insert_ud]
@[simp] theorem insert_ud_id (s : Heap) (n x : Nat) :
    (insert_ud s n x).id = (s x).id := by simp [insert_ud]

@[simp] theorem insert_lr_up (s : Heap) (n x : Nat) :
    (insert_lr s n x).up = (s x).up := by simp [insert_lr]
@[simp] theorem insert_lr_down (s : Heap) (n x : Nat) :
    (insert_lr s n x).down = (s x).down := by simp [insert_lr]
@[simp] theorem insert_lr_header (s : Heap) (n x : Nat) :
    (insert_lr s n x).header = (s x).header := by simp [insert_lr]
@[simp] theorem insert_lr_count (s : Heap) (n x : Nat) :
    (insert_lr s n x).node_count = (s x).node_count := by simp [insert_lr]
@[simp] theorem insert_lr_rid (s : Heap) (n x : Nat) :
    (insert_lr s n x).row_id = (s x).row_id := by simp [insert_lr]
@[simp] theorem insert_lr_id (s : Heap) (n x : Nat) :
    (insert_lr s n x).id = (s x).id := by simp [insert_lr]

@[simp] theorem coverStep_left (s : Heap) (j x : Nat) :
    (coverStep s j x).left = (s x).left := by simp [coverStep]
@[simp] theorem coverStep_right (s : Heap) (j x : Nat) :
    (coverStep s j x).right = (s x).right := by simp [coverStep]
@[simp] theorem coverStep_header (s : Heap) (j x : Nat) :
    (coverStep s j x).header = (s x).header := by simp [coverStep]
@[simp] theorem coverStep_rid (s : Heap) (j x : Nat) :
    (coverStep s j x).row_id = (s x).row_id := by simp [coverStep]
@[simp] theorem coverStep_id (s : Heap) (j x : Nat) :
    (coverStep s j x).id = (s x).id := by simp [coverStep]

theorem coverStep_up (s : Heap) (j x : Nat) :
    (coverStep s j x).up = if x = (s j).down then (s j).up else (s x).up := by
  rw [coverStep_eq]
  rw [show (decCount (remove_ud s j) ((s j).header) x).up = (remove_ud s j x).up from by simp]
  exact remove_ud_up s j x

theorem coverStep_down (s : Heap) (j x : Nat) :
    (coverStep s j x).down = if x = (s j).up then (s j).down else (s x).down := by
  rw [coverStep_eq]
  rw [show (decCount (remove_ud s j) ((s j).header) x).down = (remove_ud s j x).down from by simp]
  exact remove_ud_down s j x

theorem coverStep_count (s : Heap) (j x : Nat) :
    (coverStep s j x).node_count =
      if x = (s j).header then decW ((s x).node_count) else (s x).node_count := by
  rw [coverStep_eq, decCount_apply]
  split <;> simp_all

@[simp] theorem unStep_left (s : Heap) (j x : Nat) :
    (unStep s j x).left = (s x).left := by simp [unStep]
@[simp] theorem unStep_right (s : Heap) (j x : Nat) :
    (unStep s j x).right = (s x).right := by simp [unStep]
@[simp] theorem unStep_header (s : Heap) (j x : Nat) :
    (unStep s j x).header = (s x).header := by simp [unStep]
@[simp] theorem unStep_rid (s : Heap) (j x : Nat) :
    (unStep s j x).row_id = (s x).row_id := by simp [unStep]
@[simp] theorem unStep_id (s : Heap) (j x : Nat) :
    (unStep s j x).id = (s x).id := by simp [unStep]

theorem incW_decW (v : Nat) (h : v < W) : incW (decW v) = v := by
  have hW := W_val
  simp only [incW, decW, Nat.mod_add_mod]
  rw [show v + (W - 1) + 1 = v + W by omega, Nat.add_mod_right, Nat.mod_eq_of_lt h]

theorem decW_lt (v : Nat) : decW v < W := by
  have hW := W_val
  exact Nat.mod_lt _ (by omega)

theorem incCount_decCount (s : Heap) (c : Nat) (h : (s c).node_count < W) :
    incCount (decCount s c) c = s := by
  funext x
  rw [incCount_apply]
  split
  · next hx =>
    subst hx
    rw [decCount_apply, if_pos rfl]
    refine node_ext rfl rfl rfl rfl rfl rfl ?_ rfl
    show incW (decW ((s x).node_count)) = (s x).node_count
    exact incW_decW _ h
  · next hx =>
    rw [decCount_apply, if_neg hx]

/-- One un-step exactly undoes one cover step. -/
theorem unStep_coverStep (s : Heap) (j : Nat) (hj : udLinked s j)
    (hc : (s ((s j).header)).node_count < W) :
    unStep (coverStep s j) j = s := by
  obtain ⟨h1, h2⟩ := hj
  rw [coverStep_eq]
  have hh : (decCount (remove_ud s j) ((s j).header) j).header = (s j).header := by simp
  rw [unStep, hh]
  have hcnt : (remove_ud s j ((s j).header)).node_count = (s ((s j).header)).node_count := by simp
  rw [incCount_decCount _ _ (by rw [hcnt]; exact hc)]
  exact insert_ud_remove_ud s j h1 h2

/-- `udLinked` only depends on the `up`/`down` fields. -/
theorem udLinked_congr (s t : Heap) (z : Nat)
    (h : ∀ x, (t x).up = (s x).up ∧ (t x).down = (s x).down)
    (hz : udLinked s z) : udLinked t z := by
  obtain ⟨h1, h2⟩ := hz
  constructor
  · rw [(h z).1, (h _).2, h1]
  · rw [(h z).2, (h _).1, h2]

/-- Removing one node (with its count update) keeps other linked nodes linked. -/
theorem udLinked_coverStep (s : Heap) (y z : Nat) (hy : udLinked s y)
    (hz : udLinked s z) (hne : z ≠ y) : udLinked (coverStep s y) z := by
  refine udLinked_congr (remove_ud s y) (coverStep s y) z ?_
    (udLinked_remove_ud s y z hy hz hne)
  intro x
  constructor
  · rw [coverStep_up, remove_ud_up]
  · rw [coverStep_down, remove_ud_down]

theorem remReady_step (s : Heap) (hc : List Nat) (y : Nat) (js : List Nat)
    (h : RemReady s hc (y :: js)) : RemReady (coverStep s y) hc js := by
  obtain ⟨hnd, hall⟩ := h
  obtain ⟨hy, hyu, hyd, hyc⟩ := hall y (by simp)
  refine ⟨(List.nodup_cons.mp hnd).2, ?_⟩
  intro j hj
  obtain ⟨hjl, hju, hjd, hjc⟩ := hall j (by simp [hj])
  have hne : j ≠ y := by
    rintro rfl
    exact (List.nodup_cons.mp hnd).1 hj
  refine ⟨udLinked_coverStep s y j hy hjl hne, ?_, ?_, ?_⟩
  · rw [coverStep_up]
    split <;> assumption
  · rw [coverStep_down]
    split <;> assumption
  · rw [coverStep_header, coverStep_count]
    split
    · exact decW_lt _
    · exact hjc

theorem remReady_drop (s : Heap) (hc : List Nat) (as bs : List Nat)
    (h : RemReady s hc (as ++ bs)) : RemReady s hc as ∧ RemReady s hc bs := by
  obtain ⟨hnd, hall⟩ := h
  rw [List.nodup_append] at hnd
  exact ⟨⟨hnd.1, fun j hj => hall j (by simp [hj])⟩,
    ⟨hnd.2.1, fun j hj => hall j (by simp [hj])⟩⟩

theorem remReady_fold (s : Heap) (hc : List Nat) (as bs : List Nat)
    (h : RemReady s hc (as ++ bs)) : RemReady (as.foldl coverStep s) hc bs := by
  induction as generalizing s with
  | nil => simpa using h
  | cons y as ih =>
    rw [List.cons_append] at h
    exact ih _ (remReady_step s hc y (as ++ bs) h)

/-- Undoing a whole removal fold in reverse order restores the heap. -/
theorem fold_unfold (js : List Nat) : ∀ (s : Heap) (hc : List Nat),
    RemReady s hc js →
    (js.reverse.foldl unStep (js.foldl coverStep s)) = s := by
  induction js with
  | nil => intro s hc _; simp
  | cons y js ih =>
    intro s hc h
    have h1 := remReady_step s hc y js h
    have hy := h.2 y (by simp)
    simp only [List.reverse_cons, List.foldl_append, List.foldl_cons, List.foldl_nil]
    rw [ih (coverStep s y) hc h1]
    exact unStep_coverStep s y hy.1 hy.2.2.2

theorem fold_cover_right (js : List Nat) : ∀ (s : Heap) (x : Nat),
    ((js.foldl coverStep s) x).right = (s x).right := by
  induction js with
  | nil => intro s x; rfl
  | cons y js ih => intro s x; rw [List.foldl_cons, ih]; simp

theorem fold_cover_left (js : List Nat) : ∀ (s : Heap) (x : Nat),
    ((js.foldl coverStep s) x).left = (s x).left := by
  induction js with
  | nil => intro s x; rfl
  | cons y js ih => intro s x; rw [List.foldl_cons, ih]; simp

theorem fold_cover_header (js : List Nat) : ∀ (s : Heap) (x : Nat),
    ((js.foldl coverStep s) x).header = (s x).header := by
  induction js with
  | nil => intro s x; rfl
  | cons y js ih => intro s x; rw [List.foldl_cons, ih]; simp

/-- A removal fold does not touch the vertical links of protected nodes. -/
theorem fold_cover_protect (js : List Nat) : ∀ (s : Heap) (hc : List Nat),
    RemReady s hc js → ∀ z ∈ hc,
      ((js.foldl coverStep s) z).up = (s z).up ∧
      ((js.foldl coverStep s) z).down = (s z).down := by
  induction js with
  | nil => intro s hc _ z _; exact ⟨rfl, rfl⟩
  | cons y js ih =>
    intro s hc h z hz
    obtain ⟨hy, hyu, hyd, _⟩ := h.2 y (by simp)
    have h1 := remReady_step s hc y js h
    rw [List.foldl_cons]
    obtain ⟨e1, e2⟩ := ih (coverStep s y) hc h1 z hz
    refine ⟨?_, ?_⟩
    · rw [e1, coverStep_up, if_neg ?_]
      rintro rfl
      exact hyd hz
    · rw [e2, coverStep_down, if_neg ?_]
      rintro rfl
      exact hyu hz

/-- A removal fold does not touch the counts of nodes that are nobody's header. -/
theorem fold_cover_count (js : List Nat) : ∀ (s : Heap) (z : Nat),
    (∀ j ∈ js, (s j).header ≠ z) →
      ((js.foldl coverStep s) z).node_count = (s z).node_count := by
  induction js with
  | nil => intro s z _; rfl
  | cons y js ih =>
    intro s z h
    rw [List.foldl_cons, ih _ _ (fun j hj => by
      rw [show (coverStep s y j).header = (s j).header from by simp]
      exact h j (by simp [hj]))]
    rw [coverStep_count, if_neg ?_]
    rintro rfl
    exact h y (by simp) rfl

/-! ## Pointer chains and loop traversal specifications -/

theorem chainRight_congr (s t : Heap) (h : ∀ x, (t x).right = (s x).right) :
    ∀ (l : List Nat) (a b : Nat), chainRight s a l b → chainRight t a l b := by
  intro l
  induction l with
  | nil => intro a b hc; exact (h a).trans hc
  | cons x xs ih => intro a b hc; exact ⟨(h a).trans hc.1, ih x b hc.2⟩

theorem chainLeft_congr (s t : Heap) (h : ∀ x, (t x).left = (s x).left) :
    ∀ (l : List Nat) (a b : Nat), chainLeft s a l b → chainLeft t a l b := by
  intro l
  induction l with
  | nil => intro a b hc; exact (h a).trans hc
  | cons x xs ih => intro a b hc; exact ⟨(h a).trans hc.1, ih x b hc.2⟩

theorem chainDown_congr_mem (s t : Heap) :
    ∀ (l : List Nat) (a b : Nat), (∀ x ∈ a :: l, (t x).down = (s x).down) →
      chainDown s a l b → chainDown t a l b := by
  intro l
  induction l with
  | nil => intro a b h hc; exact (h a (by simp)).trans hc
  | cons x xs ih =>
    intro a b h hc
    exact ⟨(h a (by simp)).trans hc.1,
      ih x b (fun z hz => h z (List.mem_cons.mpr (Or.inr hz))) hc.2⟩

theorem chainUp_congr_mem (s t : Heap) :
    ∀ (l : List Nat) (a b : Nat), (∀ x ∈ a :: l, (t x).up = (s x).up) →
      chainUp s a l b → chainUp t a l b := by
  intro l
  induction l with
  | nil => intro a b h hc; exact (h a (by simp)).trans hc
  | cons x xs ih =>
    intro a b h hc
    exact ⟨(h a (by simp)).trans hc.1,
      ih x b (fun z hz => h z (List.mem_cons.mpr (Or.inr hz))) hc.2⟩

/-- The inner loop of `cover` walks the right-chain of the row and performs
exactly one `coverStep` per visited node. -/
theorem coverInner_spec : ∀ (l : List Nat) (fuel : Nat) (σ : Heap) (x j : Nat),
    chainRight σ j l x → x ∉ l → l.length < fuel →
    coverInner x fuel σ j = l.foldl coverStep σ := by
  intro l
  induction l with
  | nil =>
    intro fuel σ x j hc _ hf
    obtain ⟨f, rfl⟩ := Nat.exists_eq_succ_of_ne_zero (Nat.pos_iff_ne_zero.mp hf)
    have hc1 : (σ j).right = x := hc
    simp [coverInner, hc1]
  | cons y ys ih =>
    intro fuel σ x j hc hx hf
    obtain ⟨f, rfl⟩ := Nat.exists_eq_succ_of_ne_zero (by omega : fuel ≠ 0)
    obtain ⟨h1, h2⟩ := hc
    have hyx : y ≠ x := fun h => hx (h ▸ List.mem_cons_self y ys)
    simp only [coverInner, h1, if_neg hyx, List.foldl_cons]
    exact ih f (coverStep σ y) x y
      (chainRight_congr σ (coverStep σ y) (fun z => by simp) ys y x h2)
      (fun h => hx (List.mem_cons.mpr (Or.inr h))) (by simpa using hf)

/-- The inner loop of `uncover` walks the left-chain of the row and performs
exactly one `unStep` per visited node. -/
theorem uncoverInner_spec : ∀ (l : List Nat) (fuel : Nat) (σ : Heap) (x j : Nat),
    chainLeft σ j l x → x ∉ l → l.length < fuel →
    uncoverInner x fuel σ j = l.foldl unStep σ := by
  intro l
  induction l with
  | nil =>
    intro fuel σ x j hc _ hf
    obtain ⟨f, rfl⟩ := Nat.exists_eq_succ_of_ne_zero (Nat.pos_iff_ne_zero.mp hf)
    have hc1 : (σ j).left = x := hc
    simp [uncoverInner, hc1]
  | cons y ys ih =>
    intro fuel σ x j hc hx hf
    obtain ⟨f, rfl⟩ := Nat.exists_eq_succ_of_ne_zero (by omega : fuel ≠ 0)
    obtain ⟨h1, h2⟩ := hc
    have hyx : y ≠ x := fun h => hx (h ▸ List.mem_cons_self y ys)
    simp only [uncoverInner, h1, if_neg hyx, List.foldl_cons]
    exact ih f (unStep σ y) x y
      (chainLeft_congr σ (unStep σ y) (fun z => by simp) ys y x h2)
      (fun h => hx (List.mem_cons.mpr (Or.inr h))) (by simpa using hf)

theorem chainRight_congr_mem (s t : Heap) :
    ∀ (l : List Nat) (a b : Nat), (∀ x ∈ a :: l, (t x).right = (s x).right) →
      chainRight s a l b → chainRight t a l b := by
  intro l
  induction l with
  | nil => intro a b h hc; exact (h a (by simp)).trans hc
  | cons x xs ih =>
    intro a b h hc
    exact ⟨(h a (by simp)).trans hc.1,
      ih x b (fun z hz => h z (List.mem_cons.mpr (Or.inr hz))) hc.2⟩

theorem chainLeft_congr_mem (s t : Heap) :
    ∀ (l : List Nat) (a b : Nat), (∀ x ∈ a :: l, (t x).left = (s x).left) →
      chainLeft s a l b → chainLeft t a l b := by
  intro l
  induction l with
  | nil => intro a b h hc; exact (h a (by simp)).trans hc
  | cons x xs ih =>
    intro a b h hc
    exact ⟨(h a (by simp)).trans hc.1,
      ih x b (fun z hz => h z (List.mem_cons.mpr (Or.inr hz))) hc.2⟩

/-- The outer loop of `cover` walks the column's down-chain and runs the
inner loop (one `coverStep` per row-mate) for each row. -/
theorem coverOuter_spec (arena h : Nat) (oth : Nat → List Nat) (hcF : List Nat) :
    ∀ (xs : List Nat) (fuel : Nat) (σ : Heap) (i : Nat),
      chainDown σ i xs h →
      h ∉ xs →
      (∀ x ∈ i :: xs, x ∈ hcF) →
      (∀ x ∈ xs, chainRight σ x (oth x) x ∧ x ∉ oth x ∧ (oth x).length < arena + 1) →
      RemReady σ hcF (xs.flatMap oth) →
      xs.length < fuel →
      coverOuter arena h fuel σ i = (xs.flatMap oth).foldl coverStep σ := by
  intro xs
  induction xs with
  | nil =>
    intro fuel σ i hc _ _ _ _ hf
    obtain ⟨f, rfl⟩ := Nat.exists_eq_succ_of_ne_zero (Nat.pos_iff_ne_zero.mp hf)
    have hc1 : (σ i).down = h := hc
    simp [coverOuter, hc1]
  | cons x rest ih =>
    intro fuel σ i hc hh hsub hrow hrr hf
    obtain ⟨f, rfl⟩ := Nat.exists_eq_succ_of_ne_zero (by omega : fuel ≠ 0)
    obtain ⟨h1, h2⟩ := hc
    have hxh : x ≠ h := fun he => hh (he ▸ List.mem_cons_self x rest)
    obtain ⟨hrx, hnx, hlx⟩ := hrow x (by simp)
    have hsplit : (x :: rest).flatMap oth = oth x ++ rest.flatMap oth := by
      simp [List.flatMap_cons]
    have hinner : coverInner x (arena + 1) σ x = (oth x).foldl coverStep σ :=
      coverInner_spec (oth x) (arena + 1) σ x x hrx hnx hlx
    have hrr1 : RemReady σ hcF (oth x) := (remReady_drop σ hcF _ _ (hsplit ▸ hrr)).1
    have hrr2 : RemReady ((oth x).foldl coverStep σ) hcF (rest.flatMap oth) :=
      remReady_fold σ hcF _ _ (hsplit ▸ hrr)
    have hprot := fold_cover_protect (oth x) σ hcF hrr1
    simp only [coverOuter, h1, if_neg hxh, hinner]
    rw [ih f ((oth x).foldl coverStep σ) x
      (chainDown_congr_mem σ _ rest x h
        (fun z hz => (hprot z (hsub z (List.mem_cons.mpr (Or.inr hz)))).2) h2)
      (fun he => hh (List.mem_cons.mpr (Or.inr he)))
      (fun z hz => hsub z (List.mem_cons.mpr (Or.inr hz)))
      (fun z hz => by
        obtain ⟨ha, hb, hc⟩ := hrow z (List.mem_cons.mpr (Or.inr hz))
        exact ⟨chainRight_congr σ _ (fun w => fold_cover_right (oth x) σ w) (oth z) z z ha,
          hb, hc⟩)
      hrr2 (by simpa using hf)]
    rw [hsplit, List.foldl_append]

/-- The outer loop of `uncover`, run from the state left by the removal fold,
undoes it row by row and lands back on the pre-fold state. -/
theorem uncoverOuter_run (arena h : Nat) (oth : Nat → List Nat) (hcF : List Nat) (s0 : Heap) :
    ∀ (pre : List Nat) (cur : Nat) (fuel : Nat),
      chainUp s0 cur pre.reverse h →
      h ∉ pre →
      cur ∈ hcF →
      (∀ x ∈ pre, x ∈ hcF) →
      (∀ x ∈ pre, chainLeft s0 x (oth x).reverse x ∧ x ∉ (oth x).reverse ∧
        (oth x).length < arena + 1) →
      RemReady s0 hcF (pre.flatMap oth) →
      pre.length < fuel →
      uncoverOuter arena h fuel ((pre.flatMap oth).foldl coverStep s0) cur = s0 := by
  intro pre
  induction pre using List.reverseRecOn with
  | nil =>
    intro cur fuel hc _ _ _ _ _ hf
    obtain ⟨f, rfl⟩ := Nat.exists_eq_succ_of_ne_zero (Nat.pos_iff_ne_zero.mp hf)
    have hc1 : (s0 cur).up = h := by simpa [chainUp] using hc
    simp [uncoverOuter, hc1]
  | append_singleton as x ih =>
    intro cur fuel hc hh hcur hsub hrow hrr hf
    obtain ⟨f, rfl⟩ := Nat.exists_eq_succ_of_ne_zero (by omega : fuel ≠ 0)
    rw [List.reverse_append, List.reverse_singleton, List.singleton_append] at hc
    obtain ⟨h1, h2⟩ := hc
    have hsplit : (as ++ [x]).flatMap oth = as.flatMap oth ++ oth x := by
      simp
    have hxh : x ≠ h := fun he => hh (by simp [he])
    obtain ⟨hlx, hnx, hll⟩ := hrow x (by simp)
    have hrrs : RemReady s0 hcF (as.flatMap oth ++ oth x) := hsplit ▸ hrr
    have hrr1 : RemReady ((as.flatMap oth).foldl coverStep s0) hcF (oth x) :=
      remReady_fold s0 hcF _ _ hrrs
    have hτ : ((as ++ [x]).flatMap oth).foldl coverStep s0 =
        (oth x).foldl coverStep ((as.flatMap oth).foldl coverStep s0) := by
      rw [hsplit, List.foldl_append]
    have hup : ((((as ++ [x]).flatMap oth).foldl coverStep s0) cur).up = (s0 cur).up := by
      exact (fold_cover_protect _ s0 hcF hrr cur hcur).1
    have hleft : ∀ w, ((((as ++ [x]).flatMap oth).foldl coverStep s0) w).left =
        (s0 w).left := fun w => fold_cover_left _ s0 w
    have hinner : uncoverInner x (arena + 1) (((as ++ [x]).flatMap oth).foldl coverStep s0) x =
        (as.flatMap oth).foldl coverStep s0 := by
      rw [uncoverInner_spec (oth x).reverse (arena + 1) _ x x
        (chainLeft_congr s0 _ hleft (oth x).reverse x x hlx) hnx (by simpa using hll)]
      rw [hτ]
      exact fold_unfold (oth x) ((as.flatMap oth).foldl coverStep s0) hcF hrr1
    simp only [uncoverOuter, hup, h1, if_neg hxh, hinner]
    exact ih x f h2 (fun he => hh (by simp [he])) (hsub x (by simp))
      (fun z hz => hsub z (by simp [hz]))
      (fun z hz => hrow z (by simp [hz]))
      (remReady_drop s0 hcF _ _ hrrs).1
      (by simp at hf; omega)

theorem fold_cover_rid (js : List Nat) : ∀ (s : Heap) (x : Nat),
    ((js.foldl coverStep s) x).row_id = (s x).row_id := by
  induction js with
  | nil => intro s x; rfl
  | cons y js ih => intro s x; rw [List.foldl_cons, ih]; simp

theorem fold_cover_id (js : List Nat) : ∀ (s : Heap) (x : Nat),
    ((js.foldl coverStep s) x).id = (s x).id := by
  induction js with
  | nil => intro s x; rfl
  | cons y js ih => intro s x; rw [List.foldl_cons, ih]; simp

theorem cz_remReady (s : Heap) (h : Nat) (xs : List Nat) (oth : Nat → List Nat)
    (hz : CoverZone s h xs oth) :
    RemReady (remove_lr s h) (h :: xs) (xs.flatMap oth) := by
  have hnd := hz.ndAll
  rw [List.nodup_cons, List.nodup_append] at hnd
  refine ⟨hnd.2.2.1, fun j hj => ?_⟩
  refine ⟨udLinked_congr s _ j (fun x => by simp) (hz.udl j hj), ?_, ?_, ?_⟩
  · simpa using (hz.upNot j hj).1
  · simpa using (hz.upNot j hj).2
  · simpa using hz.cnt j hj

theorem cz_memUnion (xs : List Nat) (oth : Nat → List Nat) (x : Nat) (hx : x ∈ xs) :
    ∀ z ∈ x :: oth x, z ∈ xs ++ xs.flatMap oth := by
  intro z hzm
  rcases List.mem_cons.mp hzm with h1 | h1
  · exact List.mem_append.mpr (Or.inl (h1 ▸ hx))
  · exact List.mem_append.mpr (Or.inr (List.mem_flatMap.mpr ⟨x, hx, h1⟩))

/-- `cover(h)` is the horizontal unlink of `h` followed by one `coverStep`
per node of the covered rows, in column-major then row order. -/
theorem cover_run (arena : Nat) (s : Heap) (h : Nat) (xs : List Nat)
    (oth : Nat → List Nat) (hz : CoverZone s h xs oth) (hlen : xs.length ≤ arena)
    (holen : ∀ x ∈ xs, (oth x).length ≤ arena) :
    coverH arena s h = (xs.flatMap oth).foldl coverStep (remove_lr s h) := by
  have hnd := hz.ndAll
  rw [List.nodup_cons, List.nodup_append] at hnd
  obtain ⟨hhn, hxnd, hfnd, hdisj⟩ := hnd
  have hhx : h ∉ xs := fun hm => hhn (List.mem_append.mpr (Or.inl hm))
  have hrr0 := cz_remReady s h xs oth hz
  unfold coverH
  rw [coverOuter_spec arena h oth (h :: xs) xs (arena + 1) (remove_lr s h) h
    (chainDown_congr_mem s _ xs h h (fun z _ => by simp) hz.colDown)
    hhx (fun z hz1 => hz1)
    (fun x hx => by
      refine ⟨?_, ?_, by have := holen x hx; omega⟩
      · refine chainRight_congr_mem s _ (oth x) x x ?_ (hz.rowR x hx)
        intro z hzm
        rw [remove_lr_right, if_neg]
        intro he
        exact hz.hlNot (he ▸ cz_memUnion xs oth x hx z hzm)
      · intro hmm
        exact hdisj hx (List.mem_flatMap.mpr ⟨x, hx, hmm⟩))
    hrr0 (by omega)]

/-- `uncover(h)` run immediately after `cover(h)` restores the heap exactly. -/
theorem uncover_cover_heap (arena : Nat) (s : Heap) (h : Nat) (xs : List Nat)
    (oth : Nat → List Nat) (hz : CoverZone s h xs oth) (hlen : xs.length ≤ arena)
    (holen : ∀ x ∈ xs, (oth x).length ≤ arena) :
    uncoverH arena (coverH arena s h) h = s := by
  have hnd := hz.ndAll
  rw [List.nodup_cons, List.nodup_append] at hnd
  obtain ⟨hhn, hxnd, hfnd, hdisj⟩ := hnd
  have hhx : h ∉ xs := fun hm => hhn (List.mem_append.mpr (Or.inl hm))
  have hrr0 := cz_remReady s h xs oth hz
  rw [cover_run arena s h xs oth hz hlen holen]
  unfold uncoverH
  rw [uncoverOuter_run arena h oth (h :: xs) (remove_lr s h) xs h (arena + 1)
    (chainUp_congr_mem s _ xs.reverse h h (fun z _ => by simp) hz.colUp)
    hhx (by simp) (fun z hz1 => List.mem_cons.mpr (Or.inr hz1))
    (fun x hx => by
      refine ⟨?_, ?_, by have := holen x hx; omega⟩
      · refine chainLeft_congr_mem s _ (oth x).reverse x x ?_ (hz.rowL x hx)
        intro z hzm
        rw [remove_lr_left, if_neg]
        intro he
        refine hz.hrNot (he ▸ cz_memUnion xs oth x hx z ?_)
        rcases List.mem_cons.mp hzm with h1 | h1
        · exact List.mem_cons.mpr (Or.inl h1)
        · exact List.mem_cons.mpr (Or.inr (List.mem_reverse.mp h1))
      · intro hmm
        exact hdisj hx (List.mem_flatMap.mpr ⟨x, hx, List.mem_reverse.mp hmm⟩))
    hrr0 (by omega)]
  exact insert_lr_remove_lr s h hz.hLR.1 hz.hLR.2

/-- After `cover(h)`, node `h` keeps its whole record and the column data
nodes keep their vertical links, so the down-chain from `h` still lists them. -/
theorem cover_frame_heap (arena : Nat) (s : Heap) (h : Nat) (xs : List Nat)
    (oth : Nat → List Nat) (hz : CoverZone s h xs oth) (hlen : xs.length ≤ arena)
    (holen : ∀ x ∈ xs, (oth x).length ≤ arena) :
    coverH arena s h h = s h ∧
    (∀ x ∈ xs, (coverH arena s h x).up = (s x).up ∧
      (coverH arena s h x).down = (s x).down) ∧
    chainDown (coverH arena s h) h xs h := by
  have hrr0 := cz_remReady s h xs oth hz
  have hprot := fold_cover_protect (xs.flatMap oth) (remove_lr s h) (h :: xs) hrr0
  have hpd : ∀ z ∈ h :: xs, (coverH arena s h z).up = (s z).up ∧
      (coverH arena s h z).down = (s z).down := by
    intro z hzm
    rw [cover_run arena s h xs oth hz hlen holen]
    obtain ⟨h1, h2⟩ := hprot z hzm
    rw [h1, h2]
    simp
  refine ⟨?_, fun x hx => hpd x (List.mem_cons.mpr (Or.inr hx)), ?_⟩
  · have hph := hpd h (by simp)
    rw [cover_run arena s h xs oth hz hlen holen] at hph ⊢
    apply node_ext
    · rw [fold_cover_rid]; simp
    · rw [fold_cover_left, remove_lr_left, if_neg (fun he => hz.hSelfR he.symm)]
    · rw [fold_cover_right, remove_lr_right, if_neg (fun he => hz.hSelfL he.symm)]
    · exact hph.1
    · exact hph.2
    · rw [fold_cover_header]; simp
    · rw [fold_cover_count, remove_lr_count]
      intro j hj
      have := hz.hdrNot j hj
      simp only [remove_lr_header]
      intro he
      exact this (he ▸ List.mem_cons_self h xs)
    · rw [fold_cover_id]; simp
  · exact chainDown_congr_mem s _ xs h h (fun z hzm => (hpd z hzm).2) hz.colDown

/-- C4: for a live column header `h` of a valid matrix state (column chain
`xs`, row remainders `oth`), `uncover(h)` right after `cover(h)` restores
the entire state: every left/right/up/down link and every node_count. -/
theorem uncover_cover_exact_inverse (st : St) (h : Nat) (xs : List Nat)
    (oth : Nat → List Nat) (hz : CoverZone st.heap h xs oth)
    (hlen : xs.length ≤ st.n) (holen : ∀ x ∈ xs, (oth x).length ≤ st.n) :
    uncover (cover st h) h = st := by
  have hh : uncoverH st.n (coverH st.n st.heap h) h = st.heap :=
    uncover_cover_heap st.n st.heap h xs oth hz hlen holen
  show ({ st with heap := uncoverH st.n (coverH st.n st.heap h) h } : St) = st
  rw [hh]

theorem uncover_cover_exact_inverse_witness :
    uncover (cover czSt 1) 1 = czSt :=
  uncover_cover_exact_inverse czSt 1 [3] (fun _ => [4])
    ⟨⟨rfl, rfl⟩, by decide, by decide, ⟨rfl, rfl⟩, ⟨rfl, rfl⟩,
     fun x hx => by rw [List.mem_singleton] at hx; subst hx; exact ⟨rfl, rfl⟩,
     fun x hx => by rw [List.mem_singleton] at hx; subst hx; exact ⟨rfl, rfl⟩,
     by decide, by decide, by decide,
     fun j hj => by simp at hj; subst hj; exact ⟨rfl, rfl⟩,
     by decide, by decide, by decide⟩
    (by decide) (by decide)

/-- C10: `cover(h)` leaves `h`'s own record (left, right, up, down, header,
node_count) unchanged and keeps the vertical links of the column's data
nodes, so `h`'s down-chain still enumerates the rows live at cover time. -/
theorem cover_preserves_own_column (st : St) (h : Nat) (xs : List Nat)
    (oth : Nat → List Nat) (hz : CoverZone st.heap h xs oth)
    (hlen : xs.length ≤ st.n) (holen : ∀ x ∈ xs, (oth x).length ≤ st.n) :
    (cover st h).heap h = st.heap h ∧
    (∀ x ∈ xs, ((cover st h).heap x).up = (st.heap x).up ∧
      ((cover st h).heap x).down = (st.heap x).down) ∧
    chainDown (cover st h).heap h xs h :=
  cover_frame_heap st.n st.heap h xs oth hz hlen holen

theorem cover_preserves_own_column_witness :
    (cover czSt 1).heap 1 = czSt.heap 1 ∧ chainDown (cover czSt 1).heap 1 [3] 1 := by
  obtain ⟨h1, h2, h3⟩ := cover_preserves_own_column czSt 1 [3] (fun _ => [4])
    ⟨⟨rfl, rfl⟩, by decide, by decide, ⟨rfl, rfl⟩, ⟨rfl, rfl⟩,
     fun x hx => by rw [List.mem_singleton] at hx; subst hx; exact ⟨rfl, rfl⟩,
     fun x hx => by rw [List.mem_singleton] at hx; subst hx; exact ⟨rfl, rfl⟩,
     by decide, by decide, by decide,
     fun j hj => by simp at hj; subst hj; exact ⟨rfl, rfl⟩,
     by decide, by decide, by decide⟩
    (by decide) (by decide)
  exact ⟨h1, h3⟩

theorem insert_lr_eq (s : Heap) (n : Nat) (hne : (s n).right ≠ n) :
    insert_lr s n = wRight (wLeft s ((s n).right) n) ((s n).left) n := by
  unfold insert_lr
  simp only []
  rw [wLeft_apply, if_neg (fun he => hne he.symm)]

theorem insert_lr_left_eq (s : Heap) (n x : Nat) (hne : (s n).right ≠ n) :
    (insert_lr s n x).left = if x = (s n).right then n else (s x).left := by
  rw [insert_lr_eq s n hne, wRight_apply]
  split <;> rw [wLeft_apply] <;> split <;> simp_all

theorem insert_lr_right_eq (s : Heap) (n x : Nat) (hne : (s n).right ≠ n) :
    (insert_lr s n x).right = if x = (s n).left then n else (s x).right := by
  rw [insert_lr_eq s n hne, wRight_apply]
  split <;> rw [wLeft_apply] <;> split <;> simp_all

theorem coverInner_keep (i : Nat) : ∀ (fuel : Nat) (s : Heap) (j y : Nat),
    (coverInner i fuel s j y).left = (s y).left ∧
    (coverInner i fuel s j y).right = (s y).right ∧
    (coverInner i fuel s j y).header = (s y).header ∧
    (coverInner i fuel s j y).row_id = (s y).row_id ∧
    (coverInner i fuel s j y).id = (s y).id := by
  intro fuel
  induction fuel with
  | zero => intro s j y; exact ⟨rfl, rfl, rfl, rfl, rfl⟩
  | succ f ih =>
    intro s j y
    simp only [coverInner]
    split
    · exact ⟨rfl, rfl, rfl, rfl, rfl⟩
    · obtain ⟨h1, h2, h3, h4, h5⟩ := ih
        (decCount (remove_ud s ((s j).right))
          ((remove_ud s ((s j).right) ((s j).right)).header)) ((s j).right) y
      refine ⟨?_, ?_, ?_, ?_, ?_⟩
      · rw [h1]; simp
      · rw [h2]; simp
      · rw [h3]; simp
      · rw [h4]; simp
      · rw [h5]; simp

theorem coverOuter_keep (arena h : Nat) : ∀ (fuel : Nat) (s : Heap) (i y : Nat),
    (coverOuter arena h fuel s i y).left = (s y).left ∧
    (coverOuter arena h fuel s i y).right = (s y).right ∧
    (coverOuter arena h fuel s i y).header = (s y).header ∧
    (coverOuter arena h fuel s i y).row_id = (s y).row_id ∧
    (coverOuter arena h fuel s i y).id = (s y).id := by
  intro fuel
  induction fuel with
  | zero => intro s i y; exact ⟨rfl, rfl, rfl, rfl, rfl⟩
  | succ f ih =>
    intro s i y
    simp only [coverOuter]
    split
    · exact ⟨rfl, rfl, rfl, rfl, rfl⟩
    · obtain ⟨h1, h2, h3, h4, h5⟩ := ih (coverInner ((s i).down) (arena + 1) s ((s i).down)) ((s i).down) y
      obtain ⟨g1, g2, g3, g4, g5⟩ := coverInner_keep ((s i).down) (arena + 1) s ((s i).down) y
      exact ⟨h1.trans g1, h2.trans g2, h3.trans g3, h4.trans g4, h5.trans g5⟩

theorem coverH_left_eq (arena : Nat) (s : Heap) (h x : Nat) :
    (coverH arena s h x).left = if x = (s h).right then (s h).left else (s x).left := by
  unfold coverH
  rw [(coverOuter_keep arena h (arena + 1) (remove_lr s h) h x).1, remove_lr_left]

theorem coverH_right_eq (arena : Nat) (s : Heap) (h x : Nat) :
    (coverH arena s h x).right = if x = (s h).left then (s h).right else (s x).right := by
  unfold coverH
  rw [(coverOuter_keep arena h (arena + 1) (remove_lr s h) h x).2.1, remove_lr_right]

theorem coverH_header (arena : Nat) (s : Heap) (h x : Nat) :
    (coverH arena s h x).header = (s x).header := by
  unfold coverH
  rw [(coverOuter_keep arena h (arena + 1) (remove_lr s h) h x).2.2.1]
  simp

theorem coverH_rid (arena : Nat) (s : Heap) (h x : Nat) :
    (coverH arena s h x).row_id = (s x).row_id := by
  unfold coverH
  rw [(coverOuter_keep arena h (arena + 1) (remove_lr s h) h x).2.2.2.1]
  simp

theorem coverH_id (arena : Nat) (s : Heap) (h x : Nat) :
    (coverH arena s h x).id = (s x).id := by
  unfold coverH
  rw [(coverOuter_keep arena h (arena + 1) (remove_lr s h) h x).2.2.2.2]
  simp

theorem uncoverInner_keep (i : Nat) : ∀ (fuel : Nat) (s : Heap) (j y : Nat),
    (uncoverInner i fuel s j y).left = (s y).left ∧
    (uncoverInner i fuel s j y).right = (s y).right ∧
    (uncoverInner i fuel s j y).header = (s y).header ∧
    (uncoverInner i fuel s j y).row_id = (s y).row_id ∧
    (uncoverInner i fuel s j y).id = (s y).id := by
  intro fuel
  induction fuel with
  | zero => intro s j y; exact ⟨rfl, rfl, rfl, rfl, rfl⟩
  | succ f ih =>
    intro s j y
    simp only [uncoverInner]
    split
    · exact ⟨rfl, rfl, rfl, rfl, rfl⟩
    · obtain ⟨h1, h2, h3, h4, h5⟩ := ih
        (insert_ud (incCount s ((s ((s j).left)).header)) ((s j).left)) ((s j).left) y
      refine ⟨?_, ?_, ?_, ?_, ?_⟩
      · rw [h1]; simp
      · rw [h2]; simp
      · rw [h3]; simp
      · rw [h4]; simp
      · rw [h5]; simp

theorem uncoverOuter_keep (arena h : Nat) : ∀ (fuel : Nat) (s : Heap) (i y : Nat),
    (uncoverOuter arena h fuel s i y).left = (s y).left ∧
    (uncoverOuter arena h fuel s i y).right = (s y).right ∧
    (uncoverOuter arena h fuel s i y).header = (s y).header ∧
    (uncoverOuter arena h fuel s i y).row_id = (s y).row_id ∧
    (uncoverOuter arena h fuel s i y).id = (s y).id := by
  intro fuel
  induction fuel with
  | zero => intro s i y; exact ⟨rfl, rfl, rfl, rfl, rfl⟩
  | succ f ih =>
    intro s i y
    simp only [uncoverOuter]
    split
    · exact ⟨rfl, rfl, rfl, rfl, rfl⟩
    · obtain ⟨h1, h2, h3, h4, h5⟩ := ih (uncoverInner ((s i).up) (arena + 1) s ((s i).up)) ((s i).up) y
      obtain ⟨g1, g2, g3, g4, g5⟩ := uncoverInner_keep ((s i).up) (arena + 1) s ((s i).up) y
      exact ⟨h1.trans g1, h2.trans g2, h3.trans g3, h4.trans g4, h5.trans g5⟩

theorem uncoverH_left_eq (arena : Nat) (s : Heap) (h x : Nat) (hne : (s h).right ≠ h) :
    (uncoverH arena s h x).left = if x = (s h).right then h else (s x).left := by
  unfold uncoverH
  have hk := uncoverOuter_keep arena h (arena + 1) s h
  rw [insert_lr_left_eq _ h x (by rw [(hk h).2.1]; exact hne), (hk h).2.1, (hk x).1]

theorem uncoverH_right_eq (arena : Nat) (s : Heap) (h x : Nat) (hne : (s h).right ≠ h) :
    (uncoverH arena s h x).right = if x = (s h).left then h else (s x).right := by
  unfold uncoverH
  have hk := uncoverOuter_keep arena h (arena + 1) s h
  rw [insert_lr_right_eq _ h x (by rw [(hk h).2.1]; exact hne), (hk h).1, (hk x).2.1]

theorem uncoverH_header (arena : Nat) (s : Heap) (h x : Nat) :
    (uncoverH arena s h x).header = (s x).header := by
  unfold uncoverH
  rw [show ((insert_lr (uncoverOuter arena h (arena + 1) s h) h) x).header =
    ((uncoverOuter arena h (arena + 1) s h) x).header by simp]
  exact (uncoverOuter_keep arena h (arena + 1) s h x).2.2.1

theorem uncoverH_rid (arena : Nat) (s : Heap) (h x : Nat) :
    (uncoverH arena s h x).row_id = (s x).row_id := by
  unfold uncoverH
  rw [show ((insert_lr (uncoverOuter arena h (arena + 1) s h) h) x).row_id =
    ((uncoverOuter arena h (arena + 1) s h) x).row_id by simp]
  exact (uncoverOuter_keep arena h (arena + 1) s h x).2.2.2.1

theorem uncoverH_id (arena : Nat) (s : Heap) (h x : Nat) :
    (uncoverH arena s h x).id = (s x).id := by
  unfold uncoverH
  rw [show ((insert_lr (uncoverOuter arena h (arena + 1) s h) h) x).id =
    ((uncoverOuter arena h (arena + 1) s h) x).id by simp]
  exact (uncoverOuter_keep arena h (arena + 1) s h x).2.2.2.2

theorem chainDown_append (s : Heap) : ∀ (u : List Nat) (a c : Nat) (v : List Nat) (b : Nat),
    chainDown s a (u ++ c :: v) b ↔ chainDown s a u c ∧ chainDown s c v b := by
  intro u
  induction u with
  | nil => intro a c v b; exact Iff.rfl
  | cons x xs ih =>
    intro a c v b
    constructor
    · rintro ⟨h1, h2⟩
      obtain ⟨g1, g2⟩ := (ih x c v b).mp h2
      exact ⟨⟨h1, g1⟩, g2⟩
    · rintro ⟨⟨h1, g1⟩, g2⟩
      exact ⟨h1, (ih x c v b).mpr ⟨g1, g2⟩⟩

theorem chainRight_append (s : Heap) : ∀ (u : List Nat) (a c : Nat) (v : List Nat) (b : Nat),
    chainRight s a (u ++ c :: v) b ↔ chainRight s a u c ∧ chainRight s c v b := by
  intro u
  induction u with
  | nil => intro a c v b; exact Iff.rfl
  | cons x xs ih =>
    intro a c v b
    constructor
    · rintro ⟨h1, h2⟩
      obtain ⟨g1, g2⟩ := (ih x c v b).mp h2
      exact ⟨⟨h1, g1⟩, g2⟩
    · rintro ⟨⟨h1, g1⟩, g2⟩
      exact ⟨h1, (ih x c v b).mpr ⟨g1, g2⟩⟩

theorem upBack_append (s : Heap) : ∀ (u : List Nat) (a c : Nat) (v : List Nat) (b : Nat),
    UpBack s a (u ++ c :: v) b ↔ UpBack s a u c ∧ UpBack s c v b := by
  intro u
  induction u with
  | nil => intro a c v b; exact Iff.rfl
  | cons x xs ih =>
    intro a c v b
    constructor
    · rintro ⟨h1, h2⟩
      obtain ⟨g1, g2⟩ := (ih x c v b).mp h2
      exact ⟨⟨h1, g1⟩, g2⟩
    · rintro ⟨⟨h1, g1⟩, g2⟩
      exact ⟨h1, (ih x c v b).mpr ⟨g1, g2⟩⟩

theorem leftBack_append (s : Heap) : ∀ (u : List Nat) (a c : Nat) (v : List Nat) (b : Nat),
    LeftBack s a (u ++ c :: v) b ↔ LeftBack s a u c ∧ LeftBack s c v b := by
  intro u
  induction u with
  | nil => intro a c v b; exact Iff.rfl
  | cons x xs ih =>
    intro a c v b
    constructor
    · rintro ⟨h1, h2⟩
      obtain ⟨g1, g2⟩ := (ih x c v b).mp h2
      exact ⟨⟨h1, g1⟩, g2⟩
    · rintro ⟨⟨h1, g1⟩, g2⟩
      exact ⟨h1, (ih x c v b).mpr ⟨g1, g2⟩⟩

theorem chainUp_snoc (s : Heap) : ∀ (m : List Nat) (a x b : Nat),
    chainUp s a (m ++ [x]) b ↔ chainUp s a m x ∧ (s x).up = b := by
  intro m
  induction m with
  | nil => intro a x b; exact Iff.rfl
  | cons y ys ih =>
    intro a x b
    constructor
    · rintro ⟨h1, h2⟩
      obtain ⟨g1, g2⟩ := (ih y x b).mp h2
      exact ⟨⟨h1, g1⟩, g2⟩
    · rintro ⟨⟨h1, g1⟩, g2⟩
      exact ⟨h1, (ih y x b).mpr ⟨g1, g2⟩⟩

theorem chainLeft_snoc (s : Heap) : ∀ (m : List Nat) (a x b : Nat),
    chainLeft s a (m ++ [x]) b ↔ chainLeft s a m x ∧ (s x).left = b := by
  intro m
  induction m with
  | nil => intro a x b; exact Iff.rfl
  | cons y ys ih =>
    intro a x b
    constructor
    · rintro ⟨h1, h2⟩
      obtain ⟨g1, g2⟩ := (ih y x b).mp h2
      exact ⟨⟨h1, g1⟩, g2⟩
    · rintro ⟨⟨h1, g1⟩, g2⟩
      exact ⟨h1, (ih y x b).mpr ⟨g1, g2⟩⟩

theorem upBack_iff_chainUp (s : Heap) : ∀ (l : List Nat) (a b : Nat),
    UpBack s a l b ↔ chainUp s b l.reverse a := by
  intro l
  induction l with
  | nil => intro a b; exact Iff.rfl
  | cons x xs ih =>
    intro a b
    rw [List.reverse_cons, chainUp_snoc]
    constructor
    · rintro ⟨h1, h2⟩; exact ⟨(ih x b).mp h2, h1⟩
    · rintro ⟨h1, h2⟩; exact ⟨h2, (ih x b).mpr h1⟩

theorem leftBack_iff_chainLeft (s : Heap) : ∀ (l : List Nat) (a b : Nat),
    LeftBack s a l b ↔ chainLeft s b l.reverse a := by
  intro l
  induction l with
  | nil => intro a b; exact Iff.rfl
  | cons x xs ih =>
    intro a b
    rw [List.reverse_cons, chainLeft_snoc]
    constructor
    · rintro ⟨h1, h2⟩; exact ⟨(ih x b).mp h2, h1⟩
    · rintro ⟨h1, h2⟩; exact ⟨h2, (ih x b).mpr h1⟩

theorem chainRight_rot (s : Heap) (a : Nat) (u v : List Nat) (x : Nat)
    (h : chainRight s a (u ++ x :: v) a) : chainRight s x (v ++ a :: u) x := by
  obtain ⟨h1, h2⟩ := (chainRight_append s u a x v a).mp h
  exact (chainRight_append s v x a u x).mpr ⟨h2, h1⟩

theorem leftBack_rot (s : Heap) (a : Nat) (u v : List Nat) (x : Nat)
    (h : LeftBack s a (u ++ x :: v) a) : LeftBack s x (v ++ a :: u) x := by
  obtain ⟨h1, h2⟩ := (leftBack_append s u a x v a).mp h
  exact (leftBack_append s v x a u x).mpr ⟨h2, h1⟩

theorem chainDown_head (s : Heap) (a : Nat) (l : List Nat) (b : Nat)
    (h : chainDown s a l b) : (s a).down = l.headD b := by
  cases l with
  | nil => exact h
  | cons x xs => exact h.1

theorem chainRight_head (s : Heap) (a : Nat) (l : List Nat) (b : Nat)
    (h : chainRight s a l b) : (s a).right = l.headD b := by
  cases l with
  | nil => exact h
  | cons x xs => exact h.1

theorem upBack_head (s : Heap) (a : Nat) (l : List Nat) (b : Nat)
    (h : UpBack s a l b) : (s (l.headD b)).up = a := by
  cases l with
  | nil => exact h
  | cons x xs => exact h.1

theorem leftBack_head (s : Heap) (a : Nat) (l : List Nat) (b : Nat)
    (h : LeftBack s a l b) : (s (l.headD b)).left = a := by
  cases l with
  | nil => exact h
  | cons x xs => exact h.1

theorem chainDown_last (s : Heap) : ∀ (l : List Nat) (a b : Nat), chainDown s a l b →
    (s ((a :: l).getLast (List.cons_ne_nil a l))).down = b := by
  intro l
  induction l with
  | nil => intro a b h; exact h
  | cons x xs ih =>
    intro a b h
    rw [List.getLast_cons (List.cons_ne_nil x xs)]
    exact ih x b h.2

theorem chainRight_last (s : Heap) : ∀ (l : List Nat) (a b : Nat), chainRight s a l b →
    (s ((a :: l).getLast (List.cons_ne_nil a l))).right = b := by
  intro l
  induction l with
  | nil => intro a b h; exact h
  | cons x xs ih =>
    intro a b h
    rw [List.getLast_cons (List.cons_ne_nil x xs)]
    exact ih x b h.2

theorem upBack_last (s : Heap) : ∀ (l : List Nat) (a b : Nat), UpBack s a l b →
    (s b).up = (a :: l).getLast (List.cons_ne_nil a l) := by
  intro l
  induction l with
  | nil => intro a b h; exact h
  | cons x xs ih =>
    intro a b h
    rw [List.getLast_cons (List.cons_ne_nil x xs)]
    exact ih x b h.2

theorem leftBack_last (s : Heap) : ∀ (l : List Nat) (a b : Nat), LeftBack s a l b →
    (s b).left = (a :: l).getLast (List.cons_ne_nil a l) := by
  intro l
  induction l with
  | nil => intro a b h; exact h
  | cons x xs ih =>
    intro a b h
    rw [List.getLast_cons (List.cons_ne_nil x xs)]
    exact ih x b h.2

theorem dbl_udLinked (s : Heap) (c : Nat) (l : List Nat) (hd : Dbl s c l c) :
    ∀ j ∈ c :: l, udLinked s j := by
  intro j hj
  rcases List.mem_cons.mp hj with rfl | hj
  · refine ⟨?_, ?_⟩
    · rw [upBack_last s l j j hd.2]
      exact chainDown_last s l j j hd.1
    · rw [chainDown_head s j l j hd.1]
      exact upBack_head s j l j hd.2
  · obtain ⟨u, v, rfl⟩ := List.append_of_mem hj
    obtain ⟨hd1, hd2⟩ := (chainDown_append s u c j v c).mp hd.1
    obtain ⟨hu1, hu2⟩ := (upBack_append s u c j v c).mp hd.2
    refine ⟨?_, ?_⟩
    · rw [upBack_last s u c j hu1]
      exact chainDown_last s u c j hd1
    · rw [chainDown_head s j v c hd2]
      exact upBack_head s j v c hu2

theorem dbl_up_mem (s : Heap) (c : Nat) (l : List Nat) (hd : Dbl s c l c) :
    ∀ j ∈ c :: l, (s j).up ∈ c :: l := by
  intro j hj
  rcases List.mem_cons.mp hj with rfl | hj
  · rw [upBack_last s l j j hd.2]
    exact List.getLast_mem _
  · obtain ⟨u, v, rfl⟩ := List.append_of_mem hj
    obtain ⟨hu1, _⟩ := (upBack_append s u c j v c).mp hd.2
    rw [upBack_last s u c j hu1]
    have hmem := List.getLast_mem (List.cons_ne_nil c u)
    rcases List.mem_cons.mp hmem with he | he
    · rw [he]; exact List.mem_cons_self c _
    · exact List.mem_cons.mpr (Or.inr (List.mem_append.mpr (Or.inl he)))

theorem dbl_down_mem (s : Heap) (c : Nat) (l : List Nat) (hd : Dbl s c l c) :
    ∀ j ∈ c :: l, (s j).down ∈ c :: l := by
  intro j hj
  rcases List.mem_cons.mp hj with rfl | hj
  · rw [chainDown_head s j l j hd.1]
    cases l with
    | nil => exact List.mem_cons_self j _
    | cons x xs => exact List.mem_cons.mpr (Or.inr (by simp))
  · obtain ⟨u, v, rfl⟩ := List.append_of_mem hj
    obtain ⟨_, hd2⟩ := (chainDown_append s u c j v c).mp hd.1
    rw [chainDown_head s j v c hd2]
    cases v with
    | nil => exact List.mem_cons_self c _
    | cons x xs => exact List.mem_cons.mpr (Or.inr (by simp))

theorem upBack_congr_mem (s t : Heap) : ∀ (l : List Nat) (a b : Nat),
    (∀ x ∈ l, (t x).up = (s x).up) → (t b).up = (s b).up →
    UpBack s a l b → UpBack t a l b := by
  intro l
  induction l with
  | nil => intro a b _ hb h; exact hb.trans h
  | cons x xs ih =>
    intro a b h hb hc
    exact ⟨(h x (by simp)).trans hc.1,
      ih x b (fun z hz => h z (List.mem_cons.mpr (Or.inr hz))) hb hc.2⟩

theorem leftBack_congr_mem (s t : Heap) : ∀ (l : List Nat) (a b : Nat),
    (∀ x ∈ l, (t x).left = (s x).left) → (t b).left = (s b).left →
    LeftBack s a l b → LeftBack t a l b := by
  intro l
  induction l with
  | nil => intro a b _ hb h; exact hb.trans h
  | cons x xs ih =>
    intro a b h hb hc
    exact ⟨(h x (by simp)).trans hc.1,
      ih x b (fun z hz => h z (List.mem_cons.mpr (Or.inr hz))) hb hc.2⟩

/-- Removing the middle node of a down-chain: the single rewired `down`
pointer (at the removed node's predecessor `P`) jumps to its successor. -/
theorem chainDown_surgery (s σ : Heap) (P n2 : Nat)
    (hW : ∀ z, (σ z).down = if z = P then n2 else (s z).down) :
    ∀ (u : List Nat) (a c : Nat) (v : List Nat) (b : Nat),
      chainDown s a u c → chainDown s c v b →
      (a :: u).getLast (List.cons_ne_nil a u) = P →
      (a :: u).Nodup → (∀ z ∈ a :: u, z ∉ v) → P ∉ v →
      n2 = v.headD b →
      chainDown σ a (u ++ v) b := by
  intro u
  induction u with
  | nil =>
    intro a c v b hu hv hlast hnd hdisj hPv hn2
    have ha : a = P := hlast
    cases v with
    | nil =>
      show (σ a).down = b
      rw [hW a, if_pos ha, hn2]
      rfl
    | cons x v2 =>
      refine ⟨?_, ?_⟩
      · show (σ a).down = x
        rw [hW a, if_pos ha, hn2]
        rfl
      · exact chainDown_congr_mem s σ v2 x b
          (fun z hz => by
            rw [hW z, if_neg]
            intro he
            exact hPv (he ▸ hz)) hv.2
  | cons w u2 ih =>
    intro a c v b hu hv hlast hnd hdisj hPv hn2
    rw [List.getLast_cons (List.cons_ne_nil w u2)] at hlast
    have haP : a ≠ P := by
      intro he
      have : P ∈ w :: u2 := hlast ▸ List.getLast_mem (List.cons_ne_nil w u2)
      exact (List.nodup_cons.mp hnd).1 (he ▸ this)
    refine ⟨?_, ?_⟩
    · show (σ a).down = w
      rw [hW a, if_neg haP]
      exact hu.1
    · exact ih w c v b hu.2 hv hlast (List.nodup_cons.mp hnd).2
        (fun z hz => hdisj z (List.mem_cons.mpr (Or.inr hz))) hPv hn2

theorem chainRight_surgery (s σ : Heap) (P n2 : Nat)
    (hW : ∀ z, (σ z).right = if z = P then n2 else (s z).right) :
    ∀ (u : List Nat) (a c : Nat) (v : List Nat) (b : Nat),
      chainRight s a u c → chainRight s c v b →
      (a :: u).getLast (List.cons_ne_nil a u) = P →
      (a :: u).Nodup → (∀ z ∈ a :: u, z ∉ v) → P ∉ v →
      n2 = v.headD b →
      chainRight σ a (u ++ v) b := by
  intro u
  induction u with
  | nil =>
    intro a c v b hu hv hlast hnd hdisj hPv hn2
    have ha : a = P := hlast
    cases v with
    | nil =>
      show (σ a).right = b
      rw [hW a, if_pos ha, hn2]
      rfl
    | cons x v2 =>
      refine ⟨?_, ?_⟩
      · show (σ a).right = x
        rw [hW a, if_pos ha, hn2]
        rfl
      · exact chainRight_congr_mem s σ v2 x b
          (fun z hz => by
            rw [hW z, if_neg]
            intro he
            exact hPv (he ▸ hz)) hv.2
  | cons w u2 ih =>
    intro a c v b hu hv hlast hnd hdisj hPv hn2
    rw [List.getLast_cons (List.cons_ne_nil w u2)] at hlast
    have haP : a ≠ P := by
      intro he
      have : P ∈ w :: u2 := hlast ▸ List.getLast_mem (List.cons_ne_nil w u2)
      exact (List.nodup_cons.mp hnd).1 (he ▸ this)
    refine ⟨?_, ?_⟩
    · show (σ a).right = w
      rw [hW a, if_neg haP]
      exact hu.1
    · exact ih w c v b hu.2 hv hlast (List.nodup_cons.mp hnd).2
        (fun z hz => hdisj z (List.mem_cons.mpr (Or.inr hz))) hPv hn2

/-- Removing the middle node of a backward up-chain: the single rewired `up`
pointer (at the removed node's successor `Q`) jumps back to its predecessor. -/
theorem upBack_surgery (s σ : Heap) (Q n2 : Nat)
    (hW : ∀ z, (σ z).up = if z = Q then n2 else (s z).up) :
    ∀ (u : List Nat) (a c : Nat) (v : List Nat) (b : Nat),
      UpBack s a u c → UpBack s c v b →
      v.headD b = Q → v.Nodup → b ∉ v →
      (∀ z ∈ u, z ∉ v ∧ z ≠ b) →
      n2 = (a :: u).getLast (List.cons_ne_nil a u) →
      UpBack σ a (u ++ v) b := by
  intro u
  induction u with
  | nil =>
    intro a c v b hu hv hQ hvnd hbv hdisj hn2
    cases v with
    | nil =>
      rw [List.headD_nil] at hQ
      show (σ b).up = a
      rw [hW b, if_pos hQ, hn2]
      simp
    | cons x v2 =>
      rw [List.headD_cons] at hQ
      refine ⟨?_, ?_⟩
      · show (σ x).up = a
        rw [hW x, if_pos hQ, hn2]
        simp
      · exact upBack_congr_mem s σ v2 x b
          (fun z hz => by
            rw [hW z, if_neg]
            intro he
            rw [← hQ] at he
            exact (List.nodup_cons.mp hvnd).1 (he ▸ hz))
          (by
            rw [hW b, if_neg]
            intro he
            rw [← hQ] at he
            exact hbv (he ▸ List.mem_cons_self x v2)) hv.2
  | cons w u2 ih =>
    intro a c v b hu hv hQ hvnd hbv hdisj hn2
    rw [List.getLast_cons (List.cons_ne_nil w u2)] at hn2
    refine ⟨?_, ?_⟩
    · show (σ w).up = a
      rw [hW w, if_neg]
      · exact hu.1
      · intro he
        rw [← hQ] at he
        cases v with
        | nil =>
          rw [List.headD_nil] at he
          exact (hdisj w (by simp)).2 he
        | cons x v2 =>
          rw [List.headD_cons] at he
          exact (hdisj w (by simp)).1 (he ▸ List.mem_cons_self x v2)
    · exact ih w c v b hu.2 hv hQ hvnd hbv
        (fun z hz => hdisj z (List.mem_cons.mpr (Or.inr hz))) hn2

theorem leftBack_surgery (s σ : Heap) (Q n2 : Nat)
    (hW : ∀ z, (σ z).left = if z = Q then n2 else (s z).left) :
    ∀ (u : List Nat) (a c : Nat) (v : List Nat) (b : Nat),
      LeftBack s a u c → LeftBack s c v b →
      v.headD b = Q → v.Nodup → b ∉ v →
      (∀ z ∈ u, z ∉ v ∧ z ≠ b) →
      n2 = (a :: u).getLast (List.cons_ne_nil a u) →
      LeftBack σ a (u ++ v) b := by
  intro u
  induction u with
  | nil =>
    intro a c v b hu hv hQ hvnd hbv hdisj hn2
    cases v with
    | nil =>
      rw [List.headD_nil] at hQ
      show (σ b).left = a
      rw [hW b, if_pos hQ, hn2]
      simp
    | cons x v2 =>
      rw [List.headD_cons] at hQ
      refine ⟨?_, ?_⟩
      · show (σ x).left = a
        rw [hW x, if_pos hQ, hn2]
        simp
      · exact leftBack_congr_mem s σ v2 x b
          (fun z hz => by
            rw [hW z, if_neg]
            intro he
            rw [← hQ] at he
            exact (List.nodup_cons.mp hvnd).1 (he ▸ hz))
          (by
            rw [hW b, if_neg]
            intro he
            rw [← hQ] at he
            exact hbv (he ▸ List.mem_cons_self x v2)) hv.2
  | cons w u2 ih =>
    intro a c v b hu hv hQ hvnd hbv hdisj hn2
    rw [List.getLast_cons (List.cons_ne_nil w u2)] at hn2
    refine ⟨?_, ?_⟩
    · show (σ w).left = a
      rw [hW w, if_neg]
      · exact hu.1
      · intro he
        rw [← hQ] at he
        cases v with
        | nil =>
          rw [List.headD_nil] at he
          exact (hdisj w (by simp)).2 he
        | cons x v2 =>
          rw [List.headD_cons] at he
          exact (hdisj w (by simp)).1 (he ▸ List.mem_cons_self x v2)
    · exact ih w c v b hu.2 hv hQ hvnd hbv
        (fun z hz => hdisj z (List.mem_cons.mpr (Or.inr hz))) hn2

theorem takeWhile_ne : ∀ (p : List Nat) (x : Nat) (q : List Nat), x ∉ p →
    (p ++ x :: q).takeWhile (fun z => z != x) = p := by
  intro p
  induction p with
  | nil => intro x q _; simp [List.takeWhile_cons]
  | cons w p2 ih =>
    intro x q h
    have hwx : (w != x) = true := by
      simp only [bne_iff_ne]
      exact fun he => h (by simp [he])
    simp only [List.cons_append, List.takeWhile_cons, hwx]
    rw [ih x q (fun hm => h (List.mem_cons.mpr (Or.inr hm)))]
    simp

theorem dropWhile_ne : ∀ (p : List Nat) (x : Nat) (q : List Nat), x ∉ p →
    (p ++ x :: q).dropWhile (fun z => z != x) = x :: q := by
  intro p
  induction p with
  | nil => intro x q _; simp [List.dropWhile_cons]
  | cons w p2 ih =>
    intro x q h
    have hwx : (w != x) = true := by
      simp only [bne_iff_ne]
      exact fun he => h (by simp [he])
    simp only [List.cons_append, List.dropWhile_cons, hwx]
    exact ih x q (fun hm => h (List.mem_cons.mpr (Or.inr hm)))

theorem rotAt_eq (p : List Nat) (x : Nat) (q : List Nat) (h : x ∉ p) :
    rotAt (p ++ x :: q) x = q ++ p := by
  unfold rotAt
  rw [takeWhile_ne p x q h, dropWhile_ne p x q h]
  rfl

theorem nodup_split_not_mem {l p q : List Nat} {x : Nat} (hnd : l.Nodup)
    (he : l = p ++ x :: q) : x ∉ p ∧ x ∉ q := by
  subst he
  rw [List.nodup_append, List.nodup_cons] at hnd
  constructor
  · intro hm
    exact hnd.2.2 hm (List.mem_cons_self x q)
  · exact hnd.2.1.1

theorem rotAt_perm (l : List Nat) (x : Nat) (hnd : l.Nodup) (hx : x ∈ l) :
    l.Perm (x :: rotAt l x) ∧ x ∉ rotAt l x := by
  obtain ⟨p, q, rfl⟩ := List.append_of_mem hx
  obtain ⟨hxp, hxq⟩ := nodup_split_not_mem hnd rfl
  rw [rotAt_eq p x q hxp]
  constructor
  · exact List.perm_middle.trans (List.Perm.cons x (List.perm_append_comm))
  · intro hm
    rcases List.mem_append.mp hm with h1 | h1
    · exact hxq h1
    · exact hxp h1

theorem rotAt_chainR (s : Heap) (l : List Nat) (hnd : l.Nodup) (hr : rowCircR s l)
    (x : Nat) (hx : x ∈ l) : chainRight s x (rotAt l x) x := by
  cases l with
  | nil => cases hx
  | cons j0 t =>
    rcases List.mem_cons.mp hx with rfl | hx2
    · have hxt : x ∉ t := (List.nodup_cons.mp hnd).1
      have : rotAt (([] : List Nat) ++ x :: t) x = t ++ [] := rotAt_eq [] x t (by simp)
      simp only [List.nil_append, List.append_nil] at this
      rw [this]
      exact hr
    · obtain ⟨u, v, rfl⟩ := List.append_of_mem hx2
      have hsplit : j0 :: (u ++ x :: v) = (j0 :: u) ++ x :: v := rfl
      obtain ⟨hxp, _⟩ := nodup_split_not_mem hnd hsplit
      rw [hsplit, rotAt_eq (j0 :: u) x v hxp]
      exact chainRight_rot s j0 u v x hr

theorem rotAt_chainL (s : Heap) (l : List Nat) (hnd : l.Nodup) (hr : rowCircL s l)
    (x : Nat) (hx : x ∈ l) : LeftBack s x (rotAt l x) x := by
  cases l with
  | nil => cases hx
  | cons j0 t =>
    rcases List.mem_cons.mp hx with rfl | hx2
    · have : rotAt (([] : List Nat) ++ x :: t) x = t ++ [] := rotAt_eq [] x t (by simp)
      simp only [List.nil_append, List.append_nil] at this
      rw [this]
      exact hr
    · obtain ⟨u, v, rfl⟩ := List.append_of_mem hx2
      have hsplit : j0 :: (u ++ x :: v) = (j0 :: u) ++ x :: v := rfl
      obtain ⟨hxp, _⟩ := nodup_split_not_mem hnd hsplit
      rw [hsplit, rotAt_eq (j0 :: u) x v hxp]
      exact leftBack_rot s j0 u v x hr

theorem mem_allN (g : Geom) {l : List Nat} {j : Nat} (hl : l ∈ g.rows) (hj : j ∈ l) :
    j ∈ allN g :=
  List.mem_flatMap.mpr ⟨l, hl, hj⟩

theorem exists_row (g : Geom) {j : Nat} (hj : j ∈ allN g) : ∃ l ∈ g.rows, j ∈ l :=
  List.mem_flatMap.mp hj

theorem rep_hs_nd {arena : Nat} {g : Geom} {s : Heap} {K : List Nat}
    (h : Rep arena g s K) : g.hs.Nodup := by
  have := h.nd
  rw [List.nodup_cons, List.nodup_append] at this
  exact this.2.1

theorem rep_allN_nd {arena : Nat} {g : Geom} {s : Heap} {K : List Nat}
    (h : Rep arena g s K) : (allN g).Nodup := by
  have := h.nd
  rw [List.nodup_cons, List.nodup_append] at this
  exact this.2.2.1

theorem rep_root_not_hs {arena : Nat} {g : Geom} {s : Heap} {K : List Nat}
    (h : Rep arena g s K) : g.root ∉ g.hs := by
  have := h.nd
  rw [List.nodup_cons] at this
  exact fun hm => this.1 (List.mem_append.mpr (Or.inl hm))

theorem rep_root_not_allN {arena : Nat} {g : Geom} {s : Heap} {K : List Nat}
    (h : Rep arena g s K) : g.root ∉ allN g := by
  have := h.nd
  rw [List.nodup_cons] at this
  exact fun hm => this.1 (List.mem_append.mpr (Or.inr hm))

theorem rep_hs_allN_disj {arena : Nat} {g : Geom} {s : Heap} {K : List Nat}
    (h : Rep arena g s K) : ∀ c ∈ g.hs, c ∉ allN g := by
  have := h.nd
  rw [List.nodup_cons, List.nodup_append] at this
  exact fun c hc hm => this.2.2.2 hc hm

theorem nodup_flatMap_each : ∀ (rs : List (List Nat)), (rs.flatMap id).Nodup →
    ∀ l ∈ rs, l.Nodup := by
  intro rs
  induction rs with
  | nil => intro _ l hl; cases hl
  | cons r rs2 ih =>
    intro hnd l hl
    rw [List.flatMap_cons, List.nodup_append] at hnd
    rcases List.mem_cons.mp hl with rfl | hl2
    · exact hnd.1
    · exact ih hnd.2.1 l hl2

theorem rep_row_nd {arena : Nat} {g : Geom} {s : Heap} {K : List Nat}
    (h : Rep arena g s K) : ∀ l ∈ g.rows, l.Nodup :=
  nodup_flatMap_each g.rows (rep_allN_nd h)

theorem rep_rowOf_mem {arena : Nat} {g : Geom} {s : Heap} {K : List Nat}
    (h : Rep arena g s K) {j : Nat} (hj : j ∈ allN g) :
    g.rowOf j ∈ g.rows ∧ j ∈ g.rowOf j := by
  obtain ⟨l, hl, hjl⟩ := exists_row g hj
  rw [h.rowOfEq l hl j hjl]
  exact ⟨hl, hjl⟩

theorem lv_iff (g : Geom) (K : List Nat) (j : Nat) :
    lv g K j = true ↔ ∀ d ∈ (g.rowOf j).map g.hdr, d ∉ K := by
  simp [lv]

theorem rep_same_row_rowOf {arena : Nat} {g : Geom} {s : Heap} {K : List Nat}
    (h : Rep arena g s K) {j j' : Nat} (hj : j ∈ allN g) (hj' : j' ∈ g.rowOf j) :
    g.rowOf j' = g.rowOf j := by
  obtain ⟨hl, _⟩ := rep_rowOf_mem h hj
  exact h.rowOfEq (g.rowOf j) hl j' hj'

theorem rep_row_hdr_inj {arena : Nat} {g : Geom} {s : Heap} {K : List Nat}
    (h : Rep arena g s K) {l : List Nat} (hl : l ∈ g.rows) {j j' : Nat}
    (hj : j ∈ l) (hj' : j' ∈ l) (he : g.hdr j = g.hdr j') : j = j' :=
  List.inj_on_of_nodup_map (h.rowColsNd l hl) hj hj' he

theorem mem_liveCols (g : Geom) (K : List Nat) (c : Nat) :
    c ∈ liveCols g K ↔ c ∈ g.hs ∧ c ∉ K := by
  simp [liveCols]

theorem mem_liveNodes (g : Geom) (K : List Nat) (c j : Nat) :
    j ∈ liveNodes g K c ↔ j ∈ g.colNodes c ∧ lv g K j = true := by
  simp [liveNodes, List.mem_filter]

theorem rep_live_col_live {arena : Nat} {g : Geom} {s : Heap} {K : List Nat}
    (h : Rep arena g s K) {j : Nat} (hj : j ∈ allN g) (hlv : lv g K j = true) :
    g.hdr j ∈ liveCols g K := by
  rw [mem_liveCols]
  refine ⟨h.hdrMem j hj, ?_⟩
  exact (lv_iff g K j).mp hlv (g.hdr j)
    (List.mem_map.mpr ⟨j, (rep_rowOf_mem h hj).2, rfl⟩)

theorem rep_liveNodes_nd {arena : Nat} {g : Geom} {s : Heap} {K : List Nat}
    (h : Rep arena g s K) {c : Nat} (hc : c ∈ g.hs) : (liveNodes g K c).Nodup :=
  (h.colNd c hc).filter _

theorem rep_liveCols_nd {arena : Nat} {g : Geom} {s : Heap} {K : List Nat}
    (h : Rep arena g s K) : (liveCols g K).Nodup :=
  (rep_hs_nd h).filter _

theorem rep_othFn_mem {arena : Nat} {g : Geom} {s : Heap} {K : List Nat}
    (h : Rep arena g s K) {x : Nat} (hx : x ∈ allN g) (j : Nat) :
    j ∈ othFn g x ↔ (j ∈ g.rowOf x ∧ j ≠ x) := by
  obtain ⟨hl, hxl⟩ := rep_rowOf_mem h hx
  have hnd : (g.rowOf x).Nodup := rep_row_nd h _ hl
  obtain ⟨hperm, hnot⟩ := rotAt_perm (g.rowOf x) x hnd hxl
  constructor
  · intro hm
    refine ⟨hperm.symm.subset (List.mem_cons.mpr (Or.inr hm)), ?_⟩
    intro he
    exact hnot (he ▸ hm)
  · intro ⟨hm, hne⟩
    rcases List.mem_cons.mp (hperm.subset hm) with he | hm2
    · exact absurd he hne
    · exact hm2

theorem rep_othFn_perm {arena : Nat} {g : Geom} {s : Heap} {K : List Nat}
    (h : Rep arena g s K) {x : Nat} (hx : x ∈ allN g) :
    (g.rowOf x).Perm (x :: othFn g x) := by
  obtain ⟨hl, hxl⟩ := rep_rowOf_mem h hx
  exact (rotAt_perm (g.rowOf x) x (rep_row_nd h _ hl) hxl).1

theorem rep_othFn_nd {arena : Nat} {g : Geom} {s : Heap} {K : List Nat}
    (h : Rep arena g s K) {x : Nat} (hx : x ∈ allN g) : (othFn g x).Nodup := by
  have := (rep_othFn_perm h hx).nodup_iff.mp ?_
  · exact (List.nodup_cons.mp this).2
  · obtain ⟨hl, _⟩ := rep_rowOf_mem h hx
    exact rep_row_nd h _ hl

theorem lv_congr (g : Geom) (K : List Nat) {j j' : Nat}
    (he : g.rowOf j = g.rowOf j') : lv g K j = lv g K j' := by
  simp [lv, he]

theorem nodup_flatMap_of_disj : ∀ (xs : List Nat) (f : Nat → List Nat),
    xs.Nodup → (∀ x ∈ xs, (f x).Nodup) →
    (∀ x ∈ xs, ∀ y ∈ xs, x ≠ y → ∀ j ∈ f x, j ∉ f y) →
    (xs.flatMap f).Nodup := by
  intro xs f
  induction xs with
  | nil => intro _ _ _; simp
  | cons x xs2 ih =>
    intro hnd hfn hdisj
    rw [List.flatMap_cons, List.nodup_append]
    obtain ⟨hx, hnd2⟩ := List.nodup_cons.mp hnd
    refine ⟨hfn x (by simp), ?_, ?_⟩
    · exact ih hnd2 (fun z hz => hfn z (List.mem_cons.mpr (Or.inr hz)))
        (fun z hz y hy => hdisj z (List.mem_cons.mpr (Or.inr hz)) y
          (List.mem_cons.mpr (Or.inr hy)))
    · intro j hj hj2
      obtain ⟨y, hy, hjy⟩ := List.mem_flatMap.mp hj2
      exact hdisj x (by simp) y (List.mem_cons.mpr (Or.inr hy))
        (fun he => hx (he ▸ hy)) j hj hjy

theorem rep_liveNodes_allN {arena : Nat} {g : Geom} {s : Heap} {K : List Nat}
    (h : Rep arena g s K) {c : Nat} (hc : c ∈ g.hs) {j : Nat}
    (hj : j ∈ liveNodes g K c) : j ∈ allN g ∧ g.hdr j = c ∧ lv g K j = true := by
  obtain ⟨h1, h2⟩ := (mem_liveNodes g K c j).mp hj
  obtain ⟨h3, h4⟩ := h.colSub c hc j h1
  exact ⟨h3, h4, h2⟩

theorem rep_mem_rem {arena : Nat} {g : Geom} {s : Heap} {K : List Nat}
    (h : Rep arena g s K) {h0 : Nat} (hh : h0 ∈ g.hs) (j : Nat) :
    j ∈ (liveNodes g K h0).flatMap (othFn g) ↔
      (j ∈ allN g ∧ lv g K j = true ∧ g.hdr j ≠ h0 ∧ h0 ∈ (g.rowOf j).map g.hdr) := by
  constructor
  · intro hj
    obtain ⟨x, hx, hjx⟩ := List.mem_flatMap.mp hj
    obtain ⟨hxN, hxh, hxlv⟩ := rep_liveNodes_allN h hh hx
    obtain ⟨hjr, hjne⟩ := (rep_othFn_mem h hxN j).mp hjx
    have hrr : g.rowOf j = g.rowOf x := rep_same_row_rowOf h hxN hjr
    have hjN : j ∈ allN g := mem_allN g (rep_rowOf_mem h hxN).1 hjr
    refine ⟨hjN, (lv_congr g K hrr).trans hxlv, ?_, ?_⟩
    · intro he
      exact hjne (rep_row_hdr_inj h (rep_rowOf_mem h hxN).1 hjr
        (rep_rowOf_mem h hxN).2 (he.trans hxh.symm))
    · rw [hrr]
      exact List.mem_map.mpr ⟨x, (rep_rowOf_mem h hxN).2, hxh⟩
  · intro ⟨hjN, hjlv, hjh, hjmem⟩
    obtain ⟨x, hxr, hxh⟩ := List.mem_map.mp hjmem
    have hxN : x ∈ allN g := mem_allN g (rep_rowOf_mem h hjN).1 hxr
    have hrr : g.rowOf x = g.rowOf j := rep_same_row_rowOf h hjN hxr
    refine List.mem_flatMap.mpr ⟨x, ?_, ?_⟩
    · rw [mem_liveNodes]
      exact ⟨hxh ▸ h.colFull x hxN, (lv_congr g K hrr).trans hjlv⟩
    · rw [rep_othFn_mem h hxN]
      refine ⟨hrr.symm ▸ (rep_rowOf_mem h hjN).2, ?_⟩
      intro he
      exact hjh (he ▸ hxh)

theorem rep_rem_nd {arena : Nat} {g : Geom} {s : Heap} {K : List Nat}
    (h : Rep arena g s K) {h0 : Nat} (hh : h0 ∈ g.hs) :
    ((liveNodes g K h0).flatMap (othFn g)).Nodup := by
  refine nodup_flatMap_of_disj _ _ (rep_liveNodes_nd h hh) ?_ ?_
  · intro x hx
    exact rep_othFn_nd h (rep_liveNodes_allN h hh hx).1
  · intro x hx y hy hne j hjx hjy
    obtain ⟨hxN, hxh, _⟩ := rep_liveNodes_allN h hh hx
    obtain ⟨hyN, hyh, _⟩ := rep_liveNodes_allN h hh hy
    obtain ⟨hjrx, _⟩ := (rep_othFn_mem h hxN j).mp hjx
    obtain ⟨hjry, _⟩ := (rep_othFn_mem h hyN j).mp hjy
    have hjN : j ∈ allN g := mem_allN g (rep_rowOf_mem h hxN).1 hjrx
    have h1 : g.rowOf j = g.rowOf x := rep_same_row_rowOf h hxN hjrx
    have h2 : g.rowOf j = g.rowOf y := rep_same_row_rowOf h hyN hjry
    have hxy : x ∈ g.rowOf y := h2 ▸ h1.symm ▸ (rep_rowOf_mem h hxN).2
    exact hne (rep_row_hdr_inj h (rep_rowOf_mem h hyN).1 hxy (rep_rowOf_mem h hyN).2
      (hxh.trans hyh.symm))

theorem rep_data_not_col {arena : Nat} {g : Geom} {s : Heap} {K : List Nat}
    (h : Rep arena g s K) {j c : Nat} (hj : j ∈ allN g) (hc : c ∈ g.root :: g.hs) :
    j ≠ c := by
  intro he
  subst he
  rcases List.mem_cons.mp hc with he2 | hc2
  · exact rep_root_not_allN h (he2 ▸ hj)
  · exact rep_hs_allN_disj h j hc2 hj

/-- Every `Rep` state provides a full `CoverZone` for each live column. -/
theorem rep_coverZone {arena : Nat} {g : Geom} {s : Heap} {K : List Nat}
    (h : Rep arena g s K) {h0 : Nat} (hh : h0 ∈ liveCols g K) :
    CoverZone s h0 (liveNodes g K h0) (othFn g) := by
  have hhs : h0 ∈ g.hs := (mem_liveCols g K h0).mp hh |>.1
  obtain ⟨u, v, hsplit⟩ := List.append_of_mem hh
  have hLnd : (liveCols g K).Nodup := rep_liveCols_nd h
  obtain ⟨hh0u, hh0v⟩ := nodup_split_not_mem hLnd hsplit
  have hLsub : ∀ c ∈ liveCols g K, c ∈ g.hs := fun c hc => ((mem_liveCols g K c).mp hc).1
  have husub : ∀ c ∈ u, c ∈ g.hs := fun c hc => hLsub c (hsplit ▸ List.mem_append.mpr (Or.inl hc))
  have hvsub : ∀ c ∈ v, c ∈ g.hs :=
    fun c hc => hLsub c (hsplit ▸ List.mem_append.mpr (Or.inr (List.mem_cons.mpr (Or.inr hc))))
  have hrooth : g.root ≠ h0 := fun he => rep_root_not_hs h (he ▸ hhs)
  obtain ⟨hcr1, hcr2⟩ := (chainRight_append s u g.root h0 v g.root).mp (hsplit ▸ h.hdrR)
  obtain ⟨hcl1, hcl2⟩ := (leftBack_append s u g.root h0 v g.root).mp (hsplit ▸ h.hdrL)
  have hleft : (s h0).left = (g.root :: u).getLast (List.cons_ne_nil _ _) :=
    leftBack_last s u g.root h0 hcl1
  have hright : (s h0).right = v.headD g.root := chainRight_head s h0 v g.root hcr2
  have hleft_mem : (s h0).left ∈ g.root :: u := hleft ▸ List.getLast_mem _
  have hright_mem : (s h0).right ∈ g.root :: v := by
    rw [hright]
    cases v with
    | nil => simp
    | cons x v2 => simp
  have hleft_rh : (s h0).left ∈ g.root :: g.hs := by
    rcases List.mem_cons.mp hleft_mem with he | he
    · exact he ▸ List.mem_cons_self _ _
    · exact List.mem_cons.mpr (Or.inr (husub _ he))
  have hright_rh : (s h0).right ∈ g.root :: g.hs := by
    rcases List.mem_cons.mp hright_mem with he | he
    · exact he ▸ List.mem_cons_self _ _
    · exact List.mem_cons.mpr (Or.inr (hvsub _ he))
  have hremN : ∀ j ∈ (liveNodes g K h0).flatMap (othFn g),
      j ∈ allN g ∧ lv g K j = true ∧ g.hdr j ≠ h0 ∧ h0 ∈ (g.rowOf j).map g.hdr :=
    fun j hj => (rep_mem_rem h hhs j).mp hj
  have hxsN : ∀ x ∈ liveNodes g K h0, x ∈ allN g ∧ g.hdr x = h0 ∧ lv g K x = true :=
    fun x hx => rep_liveNodes_allN h hhs hx
  refine ⟨?_, ?_, ?_, ?_, ?_, ?_, ?_, ?_, ?_, ?_, ?_, ?_, ?_, ?_⟩
  · constructor
    · rw [hleft]
      exact chainRight_last s u g.root h0 hcr1
    · rw [hright]
      exact leftBack_head s h0 v g.root hcl2
  · intro he
    rcases List.mem_cons.mp (he ▸ hleft_mem) with he2 | he2
    · exact hrooth he2.symm
    · exact hh0u he2
  · intro he
    rw [hright] at he
    cases v with
    | nil => exact hrooth he
    | cons x v2 =>
      rw [List.headD_cons] at he
      exact hh0v (he ▸ List.mem_cons_self x v2)
  · exact h.colD h0 hh
  · exact (upBack_iff_chainUp s (liveNodes g K h0) h0 h0).mp (h.colU h0 hh)
  · intro x hx
    obtain ⟨hxN, _, _⟩ := hxsN x hx
    exact rotAt_chainR s (g.rowOf x) (rep_row_nd h _ (rep_rowOf_mem h hxN).1)
      (h.rowR _ (rep_rowOf_mem h hxN).1) x (rep_rowOf_mem h hxN).2
  · intro x hx
    obtain ⟨hxN, _, _⟩ := hxsN x hx
    exact (leftBack_iff_chainLeft s (othFn g x) x x).mp
      (rotAt_chainL s (g.rowOf x) (rep_row_nd h _ (rep_rowOf_mem h hxN).1)
        (h.rowL _ (rep_rowOf_mem h hxN).1) x (rep_rowOf_mem h hxN).2)
  · rw [List.nodup_cons, List.nodup_append]
    refine ⟨?_, rep_liveNodes_nd h hhs, rep_rem_nd h hhs, ?_⟩
    · intro hm
      rcases List.mem_append.mp hm with hm2 | hm2
      · exact rep_data_not_col h (hxsN h0 hm2).1 (List.mem_cons.mpr (Or.inr hhs)) rfl
      · exact rep_data_not_col h (hremN h0 hm2).1 (List.mem_cons.mpr (Or.inr hhs)) rfl
    · intro x hx hm
      exact (hremN x hm).2.2.1 ((hxsN x hx).2.1)
  · intro hm
    rcases List.mem_append.mp hm with hm2 | hm2
    · exact rep_data_not_col h (hxsN _ hm2).1 hleft_rh rfl
    · exact rep_data_not_col h (hremN _ hm2).1 hleft_rh rfl
  · intro hm
    rcases List.mem_append.mp hm with hm2 | hm2
    · exact rep_data_not_col h (hxsN _ hm2).1 hright_rh rfl
    · exact rep_data_not_col h (hremN _ hm2).1 hright_rh rfl
  · intro j hj
    obtain ⟨hjN, hjlv, hjh, _⟩ := hremN j hj
    have hcl : g.hdr j ∈ liveCols g K := rep_live_col_live h hjN hjlv
    have hjc : j ∈ g.hdr j :: liveNodes g K (g.hdr j) :=
      List.mem_cons.mpr (Or.inr ((mem_liveNodes g K _ j).mpr ⟨h.colFull j hjN, hjlv⟩))
    exact dbl_udLinked s (g.hdr j) (liveNodes g K (g.hdr j))
      ⟨h.colD _ hcl, h.colU _ hcl⟩ j hjc
  · intro j hj
    obtain ⟨hjN, hjlv, hjh, _⟩ := hremN j hj
    have hcl : g.hdr j ∈ liveCols g K := rep_live_col_live h hjN hjlv
    have hjc : j ∈ g.hdr j :: liveNodes g K (g.hdr j) :=
      List.mem_cons.mpr (Or.inr ((mem_liveNodes g K _ j).mpr ⟨h.colFull j hjN, hjlv⟩))
    have hdj : g.hdr j ∈ g.hs := h.hdrMem j hjN
    have hmem2 : ∀ z ∈ g.hdr j :: liveNodes g K (g.hdr j), z ∉ h0 :: liveNodes g K h0 := by
      intro z hz hz2
      rcases List.mem_cons.mp hz with rfl | hz3
      · rcases List.mem_cons.mp hz2 with he | hz4
        · exact hjh he
        · exact rep_data_not_col h (hxsN _ hz4).1 (List.mem_cons.mpr (Or.inr hdj)) rfl
      · rcases List.mem_cons.mp hz2 with he | hz4
        · exact rep_data_not_col h (rep_liveNodes_allN h hdj hz3).1
            (List.mem_cons.mpr (Or.inr hhs)) he
        · exact hjh ((rep_liveNodes_allN h hdj hz3).2.1.symm.trans ((hxsN z hz4).2.1))
    constructor
    · exact hmem2 _ (dbl_up_mem s (g.hdr j) (liveNodes g K (g.hdr j))
        ⟨h.colD _ hcl, h.colU _ hcl⟩ j hjc)
    · exact hmem2 _ (dbl_down_mem s (g.hdr j) (liveNodes g K (g.hdr j))
        ⟨h.colD _ hcl, h.colU _ hcl⟩ j hjc)
  · intro j hj
    obtain ⟨hjN, hjlv, hjh, _⟩ := hremN j hj
    rw [h.hdrEq j hjN]
    intro hm
    rcases List.mem_cons.mp hm with he | hm2
    · exact hjh he
    · exact rep_data_not_col h (hxsN _ hm2).1
        (List.mem_cons.mpr (Or.inr (h.hdrMem j hjN))) rfl
  · intro j hj
    obtain ⟨hjN, _, _, _⟩ := hremN j hj
    rw [h.hdrEq j hjN]
    exact h.cntW _ (h.hdrMem j hjN)

theorem chainAt_nil (g : Geom) (K : List Nat) (d : Nat) :
    chainAt g K [] d = liveNodes g K d := by
  unfold chainAt liveNodes
  apply List.filter_congr
  intro z _
  simp

theorem filter_split_ne {mu mv : List Nat} {j : Nat} (hnd : (mu ++ j :: mv).Nodup) :
    (mu ++ j :: mv).filter (fun z => !(z == j)) = mu ++ mv := by
  obtain ⟨hjmu, hjmv⟩ := nodup_split_not_mem hnd rfl
  rw [List.filter_append]
  have h1 : mu.filter (fun z => !(z == j)) = mu :=
    List.filter_eq_self.mpr (fun z hz => by
      simp only [Bool.not_eq_true', beq_eq_false_iff_ne]
      exact fun he => hjmu (he ▸ hz))
  have h2 : (j :: mv).filter (fun z => !(z == j)) = mv := by
    rw [List.filter_cons]
    have h3 : mv.filter (fun z => !(z == j)) = mv :=
      List.filter_eq_self.mpr (fun z hz => by
        simp only [Bool.not_eq_true', beq_eq_false_iff_ne]
        exact fun he => hjmv (he ▸ hz))
    simp [h3]
  rw [h1, h2]

theorem chainAt_snoc (g : Geom) (K P : List Nat) (j d : Nat) :
    chainAt g K (P ++ [j]) d = (chainAt g K P d).filter (fun z => !(z == j)) := by
  unfold chainAt
  rw [List.filter_filter]
  apply List.filter_congr
  intro z _
  by_cases hzj : z = j <;> by_cases hzp : z ∈ P <;>
    simp [hzj, hzp, Bool.and_comm, Bool.and_assoc]

theorem chainAt_snoc_other (g : Geom) (K P : List Nat) (j d : Nat)
    (hj : j ∉ g.colNodes d) : chainAt g K (P ++ [j]) d = chainAt g K P d := by
  unfold chainAt
  apply List.filter_congr
  intro z hz
  have hzj : z ≠ j := fun he => hj (he ▸ hz)
  by_cases hzp : z ∈ P <;> simp [hzj, hzp]

theorem fold_count_lt (hs2 : List Nat) : ∀ (js : List Nat) (σ : Heap),
    (∀ c ∈ hs2, (σ c).node_count < W) →
    ∀ c ∈ hs2, ((js.foldl coverStep σ) c).node_count < W := by
  intro js
  induction js with
  | nil => intro σ h; exact h
  | cons j js2 ih =>
    intro σ h
    rw [List.foldl_cons]
    apply ih
    intro c hc
    rw [coverStep_count]
    split
    · exact decW_lt _
    · exact h c hc

/-- Removing the row nodes in `rem2` one at a time keeps every untouched
column's chain equal to its filtered node list. -/
theorem fold_chain_surgery (g : Geom) (K : List Nat) (h0 : Nat)
    (hColNd : ∀ d ∈ g.hs, (g.colNodes d).Nodup)
    (hColSub : ∀ d ∈ g.hs, ∀ j ∈ g.colNodes d, j ∈ allN g ∧ g.hdr j = d)
    (hDisj : ∀ c ∈ g.hs, c ∉ allN g) :
    ∀ (rem2 P : List Nat) (σ : Heap),
      (∀ j ∈ rem2, g.hdr j ∈ g.hs ∧ g.hdr j ≠ h0 ∧ g.hdr j ∉ K ∧ lv g K j = true ∧
        j ∈ g.colNodes (g.hdr j) ∧ j ∉ P) →
      rem2.Nodup →
      (∀ d ∈ g.hs, d ≠ h0 → d ∉ K →
        chainDown σ d (chainAt g K P d) d ∧ UpBack σ d (chainAt g K P d) d) →
      ∀ d ∈ g.hs, d ≠ h0 → d ∉ K →
        chainDown (rem2.foldl coverStep σ) d (chainAt g K (P ++ rem2) d) d ∧
        UpBack (rem2.foldl coverStep σ) d (chainAt g K (P ++ rem2) d) d := by
  intro rem2
  induction rem2 with
  | nil =>
    intro P σ _ _ hinv d hd hdh hdK
    simpa using hinv d hd hdh hdK
  | cons j rem2 ih =>
    intro P σ hrem hnd hinv
    obtain ⟨hd0hs, hd0h, hd0K, hjlv, hjcol, hjP⟩ := hrem j (by simp)
    have hmnd : (chainAt g K P (g.hdr j)).Nodup := (hColNd _ hd0hs).filter _
    have hmsub : ∀ z ∈ chainAt g K P (g.hdr j), z ∈ g.colNodes (g.hdr j) :=
      fun z hz => List.mem_filter.mp hz |>.1
    have hjm : j ∈ chainAt g K P (g.hdr j) := by
      rw [chainAt, List.mem_filter]
      refine ⟨hjcol, ?_⟩
      simp [hjlv, hjP]
    have hd0m : g.hdr j ∉ chainAt g K P (g.hdr j) := by
      intro hm
      exact hDisj _ hd0hs (hColSub _ hd0hs _ (hmsub _ hm)).1
    obtain ⟨mu, mv, hmsplit⟩ := List.append_of_mem hjm
    obtain ⟨hjmu, hjmv⟩ := nodup_split_not_mem hmnd hmsplit
    obtain ⟨hdbl1, hdbl2⟩ := hinv (g.hdr j) hd0hs hd0h hd0K
    rw [hmsplit] at hdbl1 hdbl2
    obtain ⟨hdownu, hdownv⟩ := (chainDown_append σ mu (g.hdr j) j mv (g.hdr j)).mp hdbl1
    obtain ⟨hupu, hupv⟩ := (upBack_append σ mu (g.hdr j) j mv (g.hdr j)).mp hdbl2
    have hkup : (σ j).up = (g.hdr j :: mu).getLast (List.cons_ne_nil _ _) :=
      upBack_last σ mu (g.hdr j) j hupu
    have hkdn : (σ j).down = mv.headD (g.hdr j) := chainDown_head σ j mv (g.hdr j) hdownv
    have hmnd2 := hmsplit ▸ hmnd
    rw [List.nodup_append, List.nodup_cons] at hmnd2
    have hmunodup : mu.Nodup := hmnd2.1
    have hmvnodup : mv.Nodup := hmnd2.2.1.2
    have hmumv : ∀ z ∈ mu, z ∉ mv :=
      fun z hz hz2 => hmnd2.2.2 hz (List.mem_cons.mpr (Or.inr hz2))
    have hd0mu : g.hdr j ∉ mu := fun hm => hd0m (hmsplit ▸ List.mem_append.mpr (Or.inl hm))
    have hd0mv : g.hdr j ∉ mv :=
      fun hm => hd0m (hmsplit ▸ List.mem_append.mpr (Or.inr (List.mem_cons.mpr (Or.inr hm))))
    have hdisj1 : ∀ z ∈ g.hdr j :: mu, z ∉ mv := by
      intro z hz
      rcases List.mem_cons.mp hz with rfl | hz2
      · exact hd0mv
      · exact hmumv z hz2
    have hnewD : chainDown (coverStep σ j) (g.hdr j) (mu ++ mv) (g.hdr j) := by
      refine chainDown_surgery σ (coverStep σ j) ((σ j).up) ((σ j).down)
        (fun z => coverStep_down σ j z) mu (g.hdr j) j mv (g.hdr j)
        hdownu hdownv hkup.symm (List.nodup_cons.mpr ⟨hd0mu, hmunodup⟩)
        hdisj1 ?_ hkdn
      rw [hkup]
      exact hdisj1 _ (List.getLast_mem _)
    have hnewU : UpBack (coverStep σ j) (g.hdr j) (mu ++ mv) (g.hdr j) := by
      exact upBack_surgery σ (coverStep σ j) ((σ j).down) ((σ j).up)
        (fun z => coverStep_up σ j z) mu (g.hdr j) j mv (g.hdr j)
        hupu hupv hkdn.symm hmvnodup hd0mv
        (fun z hz => ⟨hmumv z hz, fun he => hd0mu (he ▸ hz)⟩) hkup
    have hdblD : chainDown σ (g.hdr j) (chainAt g K P (g.hdr j)) (g.hdr j) := by
      rw [hmsplit]
      exact hdbl1
    have hdblU : UpBack σ (g.hdr j) (chainAt g K P (g.hdr j)) (g.hdr j) := by
      rw [hmsplit]
      exact hdbl2
    have hupmem : (σ j).up ∈ g.hdr j :: chainAt g K P (g.hdr j) :=
      dbl_up_mem σ (g.hdr j) _ ⟨hdblD, hdblU⟩ j (List.mem_cons.mpr (Or.inr hjm))
    have hdnmem : (σ j).down ∈ g.hdr j :: chainAt g K P (g.hdr j) :=
      dbl_down_mem σ (g.hdr j) _ ⟨hdblD, hdblU⟩ j (List.mem_cons.mpr (Or.inr hjm))
    have hinv2 : ∀ d ∈ g.hs, d ≠ h0 → d ∉ K →
        chainDown (coverStep σ j) d (chainAt g K (P ++ [j]) d) d ∧
        UpBack (coverStep σ j) d (chainAt g K (P ++ [j]) d) d := by
      intro d hd hdh hdK
      by_cases hdd : d = g.hdr j
      · have he1 : chainAt g K (P ++ [j]) d = mu ++ mv := by
          rw [hdd, chainAt_snoc, hmsplit, filter_split_ne (hmsplit ▸ hmnd)]
        rw [he1, hdd]
        exact ⟨hnewD, hnewU⟩
      · have he1 : chainAt g K (P ++ [j]) d = chainAt g K P d := by
          apply chainAt_snoc_other
          intro hm
          exact hdd (hColSub d hd j hm).2.symm
        have hdsub : ∀ z ∈ chainAt g K P d, z ∈ g.colNodes d :=
          fun z hz => (List.mem_filter.mp hz).1
        have hdmem : ∀ z ∈ d :: chainAt g K P d,
            z ∉ g.hdr j :: chainAt g K P (g.hdr j) := by
          intro z hz hz2
          rcases List.mem_cons.mp hz with rfl | hz3
          · rcases List.mem_cons.mp hz2 with he | hz4
            · exact hdd he
            · exact hDisj z hd (hColSub _ hd0hs _ (hmsub _ hz4)).1
          · rcases List.mem_cons.mp hz2 with he | hz4
            · exact hDisj (g.hdr j) hd0hs (he ▸ (hColSub d hd z (hdsub _ hz3)).1)
            · exact hdd ((hColSub d hd z (hdsub _ hz3)).2.symm.trans
                (hColSub _ hd0hs z (hmsub _ hz4)).2)
        obtain ⟨hD, hU⟩ := hinv d hd hdh hdK
        rw [he1]
        constructor
        · refine chainDown_congr_mem σ _ (chainAt g K P d) d d ?_ hD
          intro z hz
          rw [coverStep_down, if_neg]
          intro he
          exact hdmem z hz (he ▸ hupmem)
        · refine upBack_congr_mem σ _ (chainAt g K P d) d d ?_ ?_ hU
          · intro z hz
            rw [coverStep_up, if_neg]
            intro he
            exact hdmem z (List.mem_cons.mpr (Or.inr hz)) (he ▸ hdnmem)
          · rw [coverStep_up, if_neg]
            intro he
            exact hdmem d (by simp) (he ▸ hdnmem)
    have hePP : P ++ j :: rem2 = (P ++ [j]) ++ rem2 := by simp
    rw [hePP, List.foldl_cons]
    exact ih (P ++ [j]) (coverStep σ j)
      (fun j2 hj2 => by
        obtain ⟨a1, a2, a3, a4, a5, a6⟩ := hrem j2 (List.mem_cons.mpr (Or.inr hj2))
        refine ⟨a1, a2, a3, a4, a5, ?_⟩
        intro hm
        rcases List.mem_append.mp hm with hm2 | hm2
        · exact a6 hm2
        · rw [List.mem_singleton] at hm2
          exact (List.nodup_cons.mp hnd).1 (hm2 ▸ hj2))
      (List.nodup_cons.mp hnd).2 hinv2

theorem rowCircR_congr (s t : Heap) (l : List Nat)
    (h : ∀ x ∈ l, (t x).right = (s x).right) (hr : rowCircR s l) : rowCircR t l := by
  cases l with
  | nil => trivial
  | cons j0 tl =>
    exact chainRight_congr_mem s t tl j0 j0 h hr

theorem rowCircL_congr (s t : Heap) (l : List Nat)
    (h : ∀ x ∈ l, (t x).left = (s x).left) (hr : rowCircL s l) : rowCircL t l := by
  cases l with
  | nil => trivial
  | cons j0 tl =>
    exact leftBack_congr_mem s t tl j0 j0
      (fun z hz => h z (List.mem_cons.mpr (Or.inr hz))) (h j0 (by simp)) hr

theorem lv_cons_iff (g : Geom) (K : List Nat) (c j : Nat) :
    lv g (c :: K) j = true ↔ (lv g K j = true ∧ c ∉ (g.rowOf j).map g.hdr) := by
  rw [lv_iff, lv_iff]
  constructor
  · intro h
    refine ⟨fun d hd hK => h d hd (List.mem_cons.mpr (Or.inr hK)), fun hcm => ?_⟩
    exact h c hcm (List.mem_cons_self c K)
  · intro ⟨h1, h2⟩ d hd hm
    rcases List.mem_cons.mp hm with rfl | hK
    · exact h2 hd
    · exact h1 d hd hK

theorem liveCols_cons (g : Geom) (K : List Nat) (c : Nat) :
    liveCols g (c :: K) = (liveCols g K).filter (fun z => !(z == c)) := by
  unfold liveCols
  rw [List.filter_filter]
  apply List.filter_congr
  intro z _
  by_cases h1 : z = c <;> by_cases h2 : z ∈ K <;> simp [h1, h2]

theorem chainAt_rem_eq {arena : Nat} {g : Geom} {s : Heap} {K : List Nat}
    (h : Rep arena g s K) {c : Nat} (hchs : c ∈ g.hs) {d : Nat} (hd : d ∈ g.hs)
    (hdc : d ≠ c) :
    chainAt g K ((liveNodes g K c).flatMap (othFn g)) d = liveNodes g (c :: K) d := by
  have hrhs : liveNodes g (c :: K) d = (g.colNodes d).filter (lv g (c :: K)) := rfl
  rw [hrhs]
  unfold chainAt
  apply List.filter_congr
  intro j hj
  have hdrj : g.hdr j = d := (h.colSub d hd j hj).2
  have hjN : j ∈ allN g := (h.colSub d hd j hj).1
  have hchar := rep_mem_rem h hchs j
  have hL : (lv g K j && !(((liveNodes g K c).flatMap (othFn g)).contains j)) = true ↔
      (lv g K j = true ∧ j ∉ (liveNodes g K c).flatMap (othFn g)) := by
    simp
  have hR := lv_cons_iff g K c j
  rw [Bool.eq_iff_iff, hL, hR]
  constructor
  · intro ⟨h1, h2⟩
    refine ⟨h1, fun hcm => ?_⟩
    exact h2 (hchar.mpr ⟨hjN, h1, fun he => hdc (he ▸ hdrj).symm, hcm⟩)
  · intro ⟨h1, h2⟩
    refine ⟨h1, fun hm => ?_⟩
    exact h2 (hchar.mp hm).2.2.2

/-- Covering a live column preserves the representation invariant, pushing
the column onto the covered stack. -/
theorem rep_cover_step {arena : Nat} {g : Geom} {s : Heap} {K : List Nat}
    (h : Rep arena g s K) {c : Nat} (hc : c ∈ liveCols g K) :
    Rep arena g (coverH arena s c) (c :: K) := by
  obtain ⟨hchs, hcK⟩ := (mem_liveCols g K c).mp hc
  have hzone := rep_coverZone h hc
  have hlen : (liveNodes g K c).length ≤ arena :=
    le_trans (List.length_filter_le _ _) (h.colLen c hchs)
  have holen : ∀ x ∈ liveNodes g K c, (othFn g x).length ≤ arena := by
    intro x hx
    obtain ⟨hxN, _, _⟩ := rep_liveNodes_allN h hchs hx
    have hperm := rep_othFn_perm h hxN
    have h1 : (g.rowOf x).length = (othFn g x).length + 1 := by
      rw [hperm.length_eq]
      rfl
    have h2 : (g.rowOf x).length ≤ arena := h.rowsLen _ (rep_rowOf_mem h hxN).1
    omega
  have hrun := cover_run arena s c (liveNodes g K c) (othFn g) hzone hlen holen
  obtain ⟨u, v, hsplit⟩ := List.append_of_mem hc
  have hLnd : (liveCols g K).Nodup := rep_liveCols_nd h
  obtain ⟨hcu, hcv⟩ := nodup_split_not_mem hLnd hsplit
  have hLsub : ∀ z ∈ liveCols g K, z ∈ g.hs := fun z hz => ((mem_liveCols g K z).mp hz).1
  have husub : ∀ z ∈ u, z ∈ g.hs :=
    fun z hz => hLsub z (hsplit ▸ List.mem_append.mpr (Or.inl hz))
  have hvsub : ∀ z ∈ v, z ∈ g.hs :=
    fun z hz => hLsub z (hsplit ▸ List.mem_append.mpr (Or.inr (List.mem_cons.mpr (Or.inr hz))))
  obtain ⟨hcr1, hcr2⟩ := (chainRight_append s u g.root c v g.root).mp (hsplit ▸ h.hdrR)
  obtain ⟨hcl1, hcl2⟩ := (leftBack_append s u g.root c v g.root).mp (hsplit ▸ h.hdrL)
  have hleftc : (s c).left = (g.root :: u).getLast (List.cons_ne_nil _ _) :=
    leftBack_last s u g.root c hcl1
  have hrightc : (s c).right = v.headD g.root := chainRight_head s c v g.root hcr2
  have hleft_rh : (s c).left ∈ g.root :: g.hs := by
    rw [hleftc]
    have hmem := List.getLast_mem (List.cons_ne_nil g.root u)
    rcases List.mem_cons.mp hmem with he | he
    · rw [he]; exact List.mem_cons_self _ _
    · exact List.mem_cons.mpr (Or.inr (husub _ he))
  have hright_rh : (s c).right ∈ g.root :: g.hs := by
    rw [hrightc]
    cases v with
    | nil => simp
    | cons x v2 => exact List.mem_cons.mpr (Or.inr (hvsub x (by simp)))
  have hundup : (g.root :: u).Nodup := by
    rw [List.nodup_cons]
    have hnd2 := hsplit ▸ hLnd
    rw [List.nodup_append] at hnd2
    refine ⟨fun hm => rep_root_not_hs h (husub _ hm), hnd2.1⟩
  have hvnodup : v.Nodup := by
    have hnd2 := hsplit ▸ hLnd
    rw [List.nodup_append, List.nodup_cons] at hnd2
    exact hnd2.2.1.2
  have hdisjuv : ∀ z ∈ g.root :: u, z ∉ v := by
    intro z hz hzv
    rcases List.mem_cons.mp hz with rfl | hz2
    · exact rep_root_not_hs h (hvsub _ hzv)
    · have hnd2 := hsplit ▸ hLnd
      rw [List.nodup_append] at hnd2
      exact hnd2.2.2 hz2 (List.mem_cons.mpr (Or.inr hzv))
  have hrootv : g.root ∉ v := fun hm => rep_root_not_hs h (hvsub _ hm)
  have hLcons : liveCols g (c :: K) = u ++ v := by
    rw [liveCols_cons, hsplit, filter_split_ne (hsplit ▸ hLnd)]
  have hinv0 : ∀ d ∈ g.hs, d ≠ c → d ∉ K →
      chainDown (remove_lr s c) d (chainAt g K [] d) d ∧
      UpBack (remove_lr s c) d (chainAt g K [] d) d := by
    intro d hd hdc hdK
    have hdl : d ∈ liveCols g K := (mem_liveCols g K d).mpr ⟨hd, hdK⟩
    rw [chainAt_nil]
    constructor
    · exact chainDown_congr_mem s _ _ d d (fun z _ => by simp) (h.colD d hdl)
    · exact upBack_congr_mem s _ _ d d (fun z _ => by simp) (by simp) (h.colU d hdl)
  have hremfacts : ∀ j ∈ (liveNodes g K c).flatMap (othFn g),
      g.hdr j ∈ g.hs ∧ g.hdr j ≠ c ∧ g.hdr j ∉ K ∧ lv g K j = true ∧
      j ∈ g.colNodes (g.hdr j) ∧ j ∉ ([] : List Nat) := by
    intro j hj
    obtain ⟨hjN, hjlv, hjc, _⟩ := (rep_mem_rem h hchs j).mp hj
    have hlive := rep_live_col_live h hjN hjlv
    obtain ⟨hh1, hh2⟩ := (mem_liveCols g K _).mp hlive
    exact ⟨hh1, hjc, hh2, hjlv, h.colFull j hjN, by simp⟩
  have hsurg := fold_chain_surgery g K c h.colNd h.colSub (rep_hs_allN_disj h)
    ((liveNodes g K c).flatMap (othFn g)) [] (remove_lr s c) hremfacts
    (rep_rem_nd h hchs) hinv0
  refine ⟨h.nd, h.rowsNE, h.rowsLen, h.hsLen, h.colLen, h.colNd, ?_, h.hdrMem,
    h.rowOfEq, h.rowColsNd, h.colSub, h.colFull, ?_, ?_, ?_, ?_, ?_, ?_, ?_, ?_, ?_⟩
  · intro j hj
    rw [coverH_header]
    exact h.hdrEq j hj
  · intro l hl
    refine rowCircR_congr s _ l ?_ (h.rowR l hl)
    intro x hx
    rw [coverH_right_eq, if_neg (rep_data_not_col h (mem_allN g hl hx) hleft_rh)]
  · intro l hl
    refine rowCircL_congr s _ l ?_ (h.rowL l hl)
    intro x hx
    rw [coverH_left_eq, if_neg (rep_data_not_col h (mem_allN g hl hx) hright_rh)]
  · intro z hz
    rcases List.mem_cons.mp hz with rfl | hz2
    · exact hchs
    · exact h.ksub z hz2
  · exact List.nodup_cons.mpr ⟨hcK, h.knd⟩
  · rw [hLcons]
    refine chainRight_surgery s _ ((s c).left) ((s c).right)
      (fun z => coverH_right_eq arena s c z) u g.root c v g.root
      hcr1 hcr2 hleftc.symm hundup hdisjuv ?_ hrightc
    rw [hleftc]
    exact hdisjuv _ (List.getLast_mem _)
  · rw [hLcons]
    exact leftBack_surgery s _ ((s c).right) ((s c).left)
      (fun z => coverH_left_eq arena s c z) u g.root c v g.root
      hcl1 hcl2 hrightc.symm hvnodup hrootv
      (fun z hz => ⟨fun hm => hdisjuv z (List.mem_cons.mpr (Or.inr hz)) hm,
        fun he => (List.nodup_cons.mp hundup).1 (he ▸ hz)⟩) hleftc
  · intro d hd
    obtain ⟨hdhs, hdcK⟩ := (mem_liveCols g (c :: K) d).mp hd
    have hdc : d ≠ c := fun he => hdcK (he ▸ List.mem_cons_self c K)
    have hdK : d ∉ K := fun hm => hdcK (List.mem_cons.mpr (Or.inr hm))
    have hgot := (hsurg d hdhs hdc hdK).1
    rw [List.nil_append] at hgot
    rw [hrun, ← chainAt_rem_eq h hchs hdhs hdc]
    exact hgot
  · intro d hd
    obtain ⟨hdhs, hdcK⟩ := (mem_liveCols g (c :: K) d).mp hd
    have hdc : d ≠ c := fun he => hdcK (he ▸ List.mem_cons_self c K)
    have hdK : d ∉ K := fun hm => hdcK (List.mem_cons.mpr (Or.inr hm))
    have hgot := (hsurg d hdhs hdc hdK).2
    rw [List.nil_append] at hgot
    rw [hrun, ← chainAt_rem_eq h hchs hdhs hdc]
    exact hgot
  · intro c2 hc2
    rw [hrun]
    refine fold_count_lt g.hs _ (remove_lr s c) ?_ c2 hc2
    intro c3 hc3
    have := h.cntW c3 hc3
    simpa using this

theorem rep_col_neighbors {arena : Nat} {g : Geom} {s : Heap} {K : List Nat}
    (h : Rep arena g s K) {c : Nat} (hc : c ∈ liveCols g K) :
    (s c).left ∈ g.root :: g.hs ∧ (s c).right ∈ g.root :: g.hs := by
  obtain ⟨u, v, hsplit⟩ := List.append_of_mem hc
  have hLsub : ∀ z ∈ liveCols g K, z ∈ g.hs := fun z hz => ((mem_liveCols g K z).mp hz).1
  have husub : ∀ z ∈ u, z ∈ g.hs :=
    fun z hz => hLsub z (hsplit ▸ List.mem_append.mpr (Or.inl hz))
  have hvsub : ∀ z ∈ v, z ∈ g.hs :=
    fun z hz => hLsub z (hsplit ▸ List.mem_append.mpr (Or.inr (List.mem_cons.mpr (Or.inr hz))))
  obtain ⟨hcr1, hcr2⟩ := (chainRight_append s u g.root c v g.root).mp (hsplit ▸ h.hdrR)
  obtain ⟨hcl1, hcl2⟩ := (leftBack_append s u g.root c v g.root).mp (hsplit ▸ h.hdrL)
  constructor
  · rw [leftBack_last s u g.root c hcl1]
    have hmem := List.getLast_mem (List.cons_ne_nil g.root u)
    rcases List.mem_cons.mp hmem with he | he
    · rw [he]; exact List.mem_cons_self _ _
    · exact List.mem_cons.mpr (Or.inr (husub _ he))
  · rw [chainRight_head s c v g.root hcr2]
    cases v with
    | nil => simp
    | cons x v2 => exact List.mem_cons.mpr (Or.inr (hvsub x (by simp)))

theorem rep_coverH_data_lr {arena : Nat} {g : Geom} {s : Heap} {K : List Nat}
    (h : Rep arena g s K) {c : Nat} (hc : c ∈ liveCols g K) {j : Nat} (hj : j ∈ allN g) :
    (coverH arena s c j).left = (s j).left ∧
    (coverH arena s c j).right = (s j).right := by
  obtain ⟨hl, hr⟩ := rep_col_neighbors h hc
  constructor
  · rw [coverH_left_eq, if_neg (rep_data_not_col h hj hr)]
  · rw [coverH_right_eq, if_neg (rep_data_not_col h hj hl)]

/-- Covering a list of pairwise distinct live columns in order preserves `Rep`,
stacking the covers. -/
theorem foldl_cover_rep {arena : Nat} {g : Geom} :
    ∀ (cs : List Nat) (σ : Heap) (K0 : List Nat),
      Rep arena g σ K0 → cs.Nodup → (∀ c ∈ cs, c ∈ g.hs ∧ c ∉ K0) →
      Rep arena g (cs.foldl (coverH arena) σ) (cs.reverse ++ K0) := by
  intro cs
  induction cs with
  | nil => intro σ K0 h _ _; simpa using h
  | cons c cs2 ih =>
    intro σ K0 h hnd hcs
    rw [List.foldl_cons, List.reverse_cons, List.append_assoc]
    have h1 : Rep arena g (coverH arena σ c) (c :: K0) :=
      rep_cover_step h ((mem_liveCols g K0 c).mpr (hcs c (by simp)))
    exact ih (coverH arena σ c) (c :: K0) h1 (List.nodup_cons.mp hnd).2
      (fun c2 hc2 => ⟨(hcs c2 (List.mem_cons.mpr (Or.inr hc2))).1, fun hm => by
        rcases List.mem_cons.mp hm with he | hm2
        · exact (List.nodup_cons.mp hnd).1 (he ▸ hc2)
        · exact (hcs c2 (List.mem_cons.mpr (Or.inr hc2))).2 hm2⟩)

/-- Data nodes keep their horizontal links through any such cover sequence. -/
theorem foldl_cover_data_lr {arena : Nat} {g : Geom} :
    ∀ (cs : List Nat) (σ : Heap) (K0 : List Nat),
      Rep arena g σ K0 → cs.Nodup → (∀ c ∈ cs, c ∈ g.hs ∧ c ∉ K0) →
      ∀ j ∈ allN g, ((cs.foldl (coverH arena) σ) j).left = (σ j).left ∧
        ((cs.foldl (coverH arena) σ) j).right = (σ j).right := by
  intro cs
  induction cs with
  | nil => intro σ K0 _ _ _ j _; exact ⟨rfl, rfl⟩
  | cons c cs2 ih =>
    intro σ K0 h hnd hcs j hj
    rw [List.foldl_cons]
    have hc : c ∈ liveCols g K0 := (mem_liveCols g K0 c).mpr (hcs c (by simp))
    have h1 : Rep arena g (coverH arena σ c) (c :: K0) := rep_cover_step h hc
    have h2 := ih (coverH arena σ c) (c :: K0) h1 (List.nodup_cons.mp hnd).2
      (fun c2 hc2 => ⟨(hcs c2 (List.mem_cons.mpr (Or.inr hc2))).1, fun hm => by
        rcases List.mem_cons.mp hm with he | hm2
        · exact (List.nodup_cons.mp hnd).1 (he ▸ hc2)
        · exact (hcs c2 (List.mem_cons.mpr (Or.inr hc2))).2 hm2⟩) j hj
    obtain ⟨g1, g2⟩ := rep_coverH_data_lr h hc hj
    exact ⟨h2.1.trans g1, h2.2.trans g2⟩

/-- The loop of `cover_other_columns` covers exactly the headers of the
remaining row nodes, in order, and keeps the invariant. -/
theorem cocAux_run (arena : Nat) (g : Geom) (x : Nat) :
    ∀ (suffix : List Nat) (fuel : Nat) (σ : Heap) (K2 : List Nat) (j : Nat),
      Rep arena g σ K2 →
      chainRight σ j suffix x →
      (∀ z ∈ suffix, z ∈ allN g ∧ g.hdr z ∉ K2 ∧ z ≠ x) →
      (suffix.map g.hdr).Nodup →
      suffix.length < fuel →
      cocAux arena x fuel σ j = (suffix.map g.hdr).foldl (coverH arena) σ ∧
      Rep arena g (cocAux arena x fuel σ j) ((suffix.map g.hdr).reverse ++ K2) := by
  intro suffix
  induction suffix with
  | nil =>
    intro fuel σ K2 j h hchain _ _ hf
    obtain ⟨f, rfl⟩ := Nat.exists_eq_succ_of_ne_zero (Nat.pos_iff_ne_zero.mp hf)
    have hc1 : (σ j).right = x := hchain
    simp only [cocAux, hc1, if_pos rfl]
    exact ⟨rfl, by simpa using h⟩
  | cons z rest ih =>
    intro fuel σ K2 j h hchain hall hhnd hf
    obtain ⟨f, rfl⟩ := Nat.exists_eq_succ_of_ne_zero (by omega : fuel ≠ 0)
    obtain ⟨hzN, hzK, hzx⟩ := hall z (by simp)
    obtain ⟨h1, h2⟩ := hchain
    have hhdz : (σ z).header = g.hdr z := h.hdrEq z hzN
    have hzl : g.hdr z ∈ liveCols g K2 :=
      (mem_liveCols g K2 _).mpr ⟨h.hdrMem z hzN, hzK⟩
    have hrep2 : Rep arena g (coverH arena σ (g.hdr z)) (g.hdr z :: K2) :=
      rep_cover_step h hzl
    rw [List.map_cons] at hhnd
    have hchain2 : chainRight (coverH arena σ (g.hdr z)) z rest x := by
      refine chainRight_congr_mem σ _ rest z x ?_ h2
      intro w hw
      rcases List.mem_cons.mp hw with rfl | hw2
      · exact (rep_coverH_data_lr h hzl hzN).2
      · exact (rep_coverH_data_lr h hzl (hall w (List.mem_cons.mpr (Or.inr hw2))).1).2
    have hih := ih f (coverH arena σ (g.hdr z)) (g.hdr z :: K2) z hrep2 hchain2
      (fun w hw => by
        obtain ⟨hwN, hwK, hwx⟩ := hall w (List.mem_cons.mpr (Or.inr hw))
        refine ⟨hwN, ?_, hwx⟩
        intro hm
        rcases List.mem_cons.mp hm with he | hm2
        · exact (List.nodup_cons.mp hhnd).1 (he ▸ List.mem_map.mpr ⟨w, hw, rfl⟩)
        · exact hwK hm2)
      (List.nodup_cons.mp hhnd).2 (by simpa using hf)
    simp only [cocAux, h1, if_neg hzx, hhdz]
    rw [List.map_cons, List.foldl_cons, List.reverse_cons, List.append_assoc]
    exact hih

/-- `cover_other_columns(x)` on a live row node `x`: it covers the headers of
the other nodes of `x`'s row and preserves the invariant. -/
theorem rep_coc {arena : Nat} {g : Geom} {s : Heap} {K : List Nat}
    (h : Rep arena g s K) {x : Nat} (hx : x ∈ allN g)
    (hoth : ∀ z ∈ othFn g x, g.hdr z ∉ K) :
    cover_other_columns arena s x =
      ((othFn g x).map g.hdr).foldl (coverH arena) s ∧
    Rep arena g (cover_other_columns arena s x)
      (((othFn g x).map g.hdr).reverse ++ K) := by
  obtain ⟨hrow, hxr⟩ := rep_rowOf_mem h hx
  have hnd : (g.rowOf x).Nodup := rep_row_nd h _ hrow
  have hchain : chainRight s x (othFn g x) x :=
    rotAt_chainR s (g.rowOf x) hnd (h.rowR _ hrow) x hxr
  have hperm := rep_othFn_perm h hx
  have hmapnd : ((othFn g x).map g.hdr).Nodup := by
    have h1 : ((g.rowOf x).map g.hdr).Nodup := h.rowColsNd _ hrow
    have h2 : ((g.rowOf x).map g.hdr).Perm ((x :: othFn g x).map g.hdr) := hperm.map _
    exact (List.nodup_cons.mp ((h2.nodup_iff).mp h1)).2
  have hall : ∀ z ∈ othFn g x, z ∈ allN g ∧ g.hdr z ∉ K ∧ z ≠ x := by
    intro z hz
    obtain ⟨hzr, hznx⟩ := (rep_othFn_mem h hx z).mp hz
    exact ⟨mem_allN g hrow hzr, hoth z hz, hznx⟩
  have hlf : (othFn g x).length < arena + 1 := by
    have h1 : (g.rowOf x).length = (othFn g x).length + 1 := by
      rw [hperm.length_eq]
      rfl
    have h2 : (g.rowOf x).length ≤ arena := h.rowsLen _ hrow
    omega
  exact cocAux_run arena g x (othFn g x) (arena + 1) s K x h hchain hall hmapnd hlf

theorem rep_uncover_cover {arena : Nat} {g : Geom} {s : Heap} {K : List Nat}
    (h : Rep arena g s K) {c : Nat} (hc : c ∈ liveCols g K) :
    uncoverH arena (coverH arena s c) c = s := by
  have hchs := ((mem_liveCols g K c).mp hc).1
  refine uncover_cover_heap arena s c (liveNodes g K c) (othFn g) (rep_coverZone h hc)
    (le_trans (List.length_filter_le _ _) (h.colLen c hchs)) ?_
  intro x hx
  obtain ⟨hxN, _, _⟩ := rep_liveNodes_allN h hchs hx
  have hperm := rep_othFn_perm h hxN
  have h1 : (g.rowOf x).length = (othFn g x).length + 1 := by
    rw [hperm.length_eq]
    rfl
  have h2 : (g.rowOf x).length ≤ arena := h.rowsLen _ (rep_rowOf_mem h hxN).1
  omega

/-- The loop of `uncover_other_columns`, run after the matching cover
sequence, undoes it column by column. -/
theorem uocAux_run (arena : Nat) (g : Geom) (x : Nat) :
    ∀ (pre : List Nat) (fuel : Nat) (σ0 : Heap) (K0 : List Nat) (j : Nat),
      Rep arena g σ0 K0 →
      chainLeft σ0 j pre.reverse x →
      (∀ z ∈ pre, z ∈ allN g ∧ g.hdr z ∉ K0 ∧ z ≠ x) →
      (pre.map g.hdr).Nodup →
      pre.length < fuel →
      j ∈ allN g →
      uocAux arena x fuel ((pre.map g.hdr).foldl (coverH arena) σ0) j = σ0 := by
  intro pre
  induction pre using List.reverseRecOn with
  | nil =>
    intro fuel σ0 K0 j _ hchain _ _ hf _
    obtain ⟨f, rfl⟩ := Nat.exists_eq_succ_of_ne_zero (Nat.pos_iff_ne_zero.mp hf)
    have hc1 : (σ0 j).left = x := hchain
    simp only [List.map_nil, List.foldl_nil, uocAux, hc1, if_pos rfl]
    simp
  | append_singleton as z ihas =>
    intro fuel σ0 K0 j hrep hchain hall hhnd hf hjN
    obtain ⟨f, rfl⟩ := Nat.exists_eq_succ_of_ne_zero (by omega : fuel ≠ 0)
    rw [List.reverse_append, List.reverse_singleton, List.singleton_append] at hchain
    obtain ⟨h1, h2⟩ := hchain
    obtain ⟨hzN, hzK, hzx⟩ := hall z (by simp)
    rw [List.map_append, List.map_singleton] at hhnd
    have hasnd : (as.map g.hdr).Nodup := (List.nodup_append.mp hhnd).1
    have hzout : g.hdr z ∉ as.map g.hdr := by
      intro hm
      exact (List.nodup_append.mp hhnd).2.2 hm (by simp)
    have hascond : ∀ c ∈ as.map g.hdr, c ∈ g.hs ∧ c ∉ K0 := by
      intro c hc
      obtain ⟨w, hw, rfl⟩ := List.mem_map.mp hc
      obtain ⟨hwN, hwK, _⟩ := hall w (List.mem_append.mpr (Or.inl hw))
      exact ⟨hrep.hdrMem w hwN, hwK⟩
    have hrepa : Rep arena g ((as.map g.hdr).foldl (coverH arena) σ0)
        ((as.map g.hdr).reverse ++ K0) :=
      foldl_cover_rep (as.map g.hdr) σ0 K0 hrep hasnd hascond
    have hzlive : g.hdr z ∈ liveCols g ((as.map g.hdr).reverse ++ K0) := by
      rw [mem_liveCols]
      refine ⟨hrep.hdrMem z hzN, ?_⟩
      intro hm
      rcases List.mem_append.mp hm with hm2 | hm2
      · exact hzout (List.mem_reverse.mp hm2)
      · exact hzK hm2
    have hτeq : ((as ++ [z]).map g.hdr).foldl (coverH arena) σ0 =
        coverH arena ((as.map g.hdr).foldl (coverH arena) σ0) (g.hdr z) := by
      rw [List.map_append, List.map_singleton, List.foldl_append, List.foldl_cons,
        List.foldl_nil]
    have hallcond : ∀ c ∈ (as ++ [z]).map g.hdr, c ∈ g.hs ∧ c ∉ K0 := by
      intro c hc
      obtain ⟨w, hw, rfl⟩ := List.mem_map.mp hc
      obtain ⟨hwN, hwK, _⟩ := hall w hw
      exact ⟨hrep.hdrMem w hwN, hwK⟩
    have hleftj : ((((as ++ [z]).map g.hdr).foldl (coverH arena) σ0) j).left = z := by
      rw [(foldl_cover_data_lr ((as ++ [z]).map g.hdr) σ0 K0 hrep
        (by rw [List.map_append, List.map_singleton]; exact hhnd) hallcond j hjN).1]
      exact h1
    have hhdz : ((((as ++ [z]).map g.hdr).foldl (coverH arena) σ0) z).header = g.hdr z := by
      rw [hτeq]
      exact (rep_cover_step hrepa hzlive).hdrEq z hzN
    simp only [uocAux, hleftj, if_neg hzx, hhdz]
    rw [hτeq, rep_uncover_cover hrepa hzlive]
    exact ihas f σ0 K0 z hrep h2
      (fun w hw => hall w (List.mem_append.mpr (Or.inl hw))) hasnd
      (by simp at hf ⊢; omega) hzN

/-- `uncover_other_columns(x)` exactly undoes `cover_other_columns(x)`. -/
theorem rep_uoc {arena : Nat} {g : Geom} {s : Heap} {K : List Nat}
    (h : Rep arena g s K) {x : Nat} (hx : x ∈ allN g)
    (hoth : ∀ z ∈ othFn g x, g.hdr z ∉ K) :
    uncover_other_columns arena (cover_other_columns arena s x) x = s := by
  rw [(rep_coc h hx hoth).1]
  unfold uncover_other_columns
  obtain ⟨hrow, hxr⟩ := rep_rowOf_mem h hx
  have hnd : (g.rowOf x).Nodup := rep_row_nd h _ hrow
  have hchain : chainLeft s x (othFn g x).reverse x :=
    (leftBack_iff_chainLeft s (othFn g x) x x).mp
      (rotAt_chainL s (g.rowOf x) hnd (h.rowL _ hrow) x hxr)
  have hperm := rep_othFn_perm h hx
  have hmapnd : ((othFn g x).map g.hdr).Nodup := by
    have h1 : ((g.rowOf x).map g.hdr).Nodup := h.rowColsNd _ hrow
    have h2 : ((g.rowOf x).map g.hdr).Perm ((x :: othFn g x).map g.hdr) := hperm.map _
    exact (List.nodup_cons.mp ((h2.nodup_iff).mp h1)).2
  have hall : ∀ z ∈ othFn g x, z ∈ allN g ∧ g.hdr z ∉ K ∧ z ≠ x := by
    intro z hz
    obtain ⟨hzr, hznx⟩ := (rep_othFn_mem h hx z).mp hz
    exact ⟨mem_allN g hrow hzr, hoth z hz, hznx⟩
  have hlf : (othFn g x).length < arena + 1 := by
    have h1 : (g.rowOf x).length = (othFn g x).length + 1 := by
      rw [hperm.length_eq]
      rfl
    have h2 : (g.rowOf x).length ≤ arena := h.rowsLen _ hrow
    omega
  exact uocAux_run arena g x (othFn g x) (arena + 1) s K x h hchain hall hmapnd hlf hx

theorem minCountAux_mem (root : Nat) (L0 : List Nat) :
    ∀ (l : List Nat) (fuel : Nat) (s : Heap) (h : Nat) (m : Option Nat),
      chainRight s h l root → root ∉ l → (∀ z ∈ l, z ∈ L0) → l.length < fuel →
      (∀ mm, m = some mm → mm ∈ L0) →
      (minCountAux root fuel s h m = none → m = none ∧ l = []) ∧
      (∀ c, minCountAux root fuel s h m = some c → c ∈ L0) := by
  intro l
  induction l with
  | nil =>
    intro fuel s h m hchain _ _ hf hm
    obtain ⟨f, rfl⟩ := Nat.exists_eq_succ_of_ne_zero (Nat.pos_iff_ne_zero.mp hf)
    have hc1 : (s h).right = root := hchain
    simp only [minCountAux, hc1, if_pos rfl]
    exact ⟨fun he => ⟨he, trivial⟩, fun c hc => hm c hc⟩
  | cons z rest ih =>
    intro fuel s h m hchain hroot hsub hf hm
    obtain ⟨f, rfl⟩ := Nat.exists_eq_succ_of_ne_zero (by omega : fuel ≠ 0)
    obtain ⟨h1, h2⟩ := hchain
    have hzr : z ≠ root := fun he => hroot (by simp [he])
    have hzL : z ∈ L0 := hsub z (by simp)
    have hsub2 : ∀ w ∈ rest, w ∈ L0 := fun w hw => hsub w (List.mem_cons.mpr (Or.inr hw))
    have hroot2 : root ∉ rest := fun hr => hroot (List.mem_cons.mpr (Or.inr hr))
    have hf2 : rest.length < f := by simpa using hf
    cases m with
    | none =>
      have hih := ih f s z (some z) h2 hroot2 hsub2 hf2
        (fun mm hmm => (Option.some_inj.mp hmm) ▸ hzL)
      simp only [minCountAux, h1, if_neg hzr]
      refine ⟨fun he => absurd (hih.1 he).1 (by simp), fun c hc => hih.2 c hc⟩
    | some m0 =>
      have hm0 : m0 ∈ L0 := hm m0 rfl
      have hih := ih f s z
        (if (s z).node_count < (s m0).node_count then some z else some m0)
        h2 hroot2 hsub2 hf2
        (fun mm hmm => by
          split at hmm
          · exact (Option.some_inj.mp hmm) ▸ hzL
          · exact (Option.some_inj.mp hmm) ▸ hm0)
      simp only [minCountAux, h1, if_neg hzr]
      exact ⟨fun he => absurd (hih.1 he).1 (by split <;> simp), fun c hc => hih.2 c hc⟩

/-- On a nonempty matrix, `hnode_min_count` returns some live column. -/
theorem rep_min_count {arena : Nat} {g : Geom} {s : Heap} {K : List Nat}
    (h : Rep arena g s K) (hne : (s g.root).right ≠ g.root) :
    ∃ c ∈ liveCols g K, hnode_min_count arena s g.root = some c := by
  have hlen : (liveCols g K).length < arena + 1 :=
    Nat.lt_succ_of_le (le_trans (List.length_filter_le _ _) h.hsLen)
  have hroot : g.root ∉ liveCols g K :=
    fun hm => rep_root_not_hs h (((mem_liveCols g K _).mp hm).1)
  have hspec := minCountAux_mem g.root (liveCols g K) (liveCols g K) (arena + 1) s g.root
    none h.hdrR hroot (fun z hz => hz) hlen (fun mm hmm => by cases hmm)
  cases he : hnode_min_count arena s g.root with
  | none =>
    obtain ⟨_, hemp⟩ := hspec.1 he
    have hch : chainRight s g.root ([] : List Nat) g.root := hemp ▸ h.hdrR
    exact absurd hch hne
  | some c =>
    exact ⟨c, hspec.2 c he, rfl⟩

theorem liveCols_nil (g : Geom) : liveCols g [] = g.hs := by
  unfold liveCols
  apply List.filter_eq_self.mpr
  intro z _
  simp

theorem liveCols_sublist (g : Geom) {K K2 : List Nat} (h : ∀ a ∈ K, a ∈ K2) :
    (liveCols g K2).Sublist (liveCols g K) := by
  apply List.monotone_filter_right
  intro a ha
  rw [Bool.not_eq_true'] at ha ⊢
  rw [← Bool.not_eq_true] at ha ⊢
  intro hm
  rw [List.elem_iff] at hm
  exact ha (List.elem_iff.mpr (h a hm))

theorem liveCols_length_lt (g : Geom) {K K2 : List Nat} (hsub : ∀ a ∈ K, a ∈ K2)
    {col : Nat} (h1 : col ∈ liveCols g K) (h2 : col ∈ K2) :
    (liveCols g K2).length < (liveCols g K).length := by
  have hs := liveCols_sublist g hsub
  rcases Nat.lt_or_ge (liveCols g K2).length (liveCols g K).length with h | h
  · exact h
  · exfalso
    have he := hs.eq_of_length_le h
    have : col ∈ liveCols g K2 := he ▸ h1
    rw [mem_liveCols] at this
    exact this.2 h2

theorem liveCols_row_perm {arena : Nat} {g : Geom} {s : Heap} {K : List Nat}
    (h : Rep arena g s K) {col i1 : Nat} (hcol : col ∈ liveCols g K)
    (hi1 : i1 ∈ liveNodes g K col) :
    ((g.rowOf i1).map g.hdr ++
      liveCols g (((othFn g i1).map g.hdr).reverse ++ (col :: K))).Perm
      (liveCols g K) := by
  have hchs := ((mem_liveCols g K col).mp hcol).1
  obtain ⟨hi1N, hi1h, hi1lv⟩ := rep_liveNodes_allN h hchs hi1
  have hrowperm : ((g.rowOf i1).map g.hdr).Perm
      ((i1 :: othFn g i1).map g.hdr) := (rep_othFn_perm h hi1N).map _
  have hK2mem : ∀ a, a ∈ ((othFn g i1).map g.hdr).reverse ++ (col :: K) ↔
      (a ∈ (g.rowOf i1).map g.hdr ∨ a ∈ K) := by
    intro a
    rw [List.mem_append, List.mem_reverse, List.mem_cons]
    constructor
    · intro hm
      rcases hm with hm | hm | hm
      · exact Or.inl (hrowperm.symm.subset (List.mem_cons.mpr (Or.inr hm)))
      · exact Or.inl (hm ▸ hi1h ▸ List.mem_map.mpr ⟨i1, (rep_rowOf_mem h hi1N).2, rfl⟩)
      · exact Or.inr hm
    · intro hm
      rcases hm with hm | hm
      · rcases List.mem_cons.mp (hrowperm.subset hm) with he | hm2
        · exact Or.inr (Or.inl (he.trans hi1h))
        · exact Or.inl hm2
      · exact Or.inr (Or.inr hm)
  have hrow_hs : ∀ a ∈ (g.rowOf i1).map g.hdr, a ∈ g.hs ∧ a ∉ K := by
    intro a ha
    obtain ⟨w, hw, rfl⟩ := List.mem_map.mp ha
    refine ⟨h.hdrMem w (mem_allN g (rep_rowOf_mem h hi1N).1 hw), ?_⟩
    exact (lv_iff g K i1).mp hi1lv _ (List.mem_map.mpr ⟨w, hw, rfl⟩)
  have hnd1 : ((g.rowOf i1).map g.hdr).Nodup := h.rowColsNd _ (rep_rowOf_mem h hi1N).1
  have hnd2 : (liveCols g (((othFn g i1).map g.hdr).reverse ++ (col :: K))).Nodup :=
    (rep_hs_nd h).filter _
  have hndL : ((g.rowOf i1).map g.hdr ++
      liveCols g (((othFn g i1).map g.hdr).reverse ++ (col :: K))).Nodup := by
    rw [List.nodup_append]
    refine ⟨hnd1, hnd2, ?_⟩
    intro a ha hm
    rw [mem_liveCols] at hm
    exact hm.2 ((hK2mem a).mpr (Or.inl ha))
  refine (List.perm_ext_iff_of_nodup hndL (rep_liveCols_nd h)).mpr ?_
  intro a
  rw [List.mem_append, mem_liveCols, mem_liveCols]
  constructor
  · intro hm
    rcases hm with hm | hm
    · exact ⟨(hrow_hs a hm).1, (hrow_hs a hm).2⟩
    · exact ⟨hm.1, fun hK => hm.2 ((hK2mem a).mpr (Or.inr hK))⟩
  · intro ⟨hhs, hK⟩
    by_cases hr : a ∈ (g.rowOf i1).map g.hdr
    · exact Or.inl hr
    · refine Or.inr ⟨hhs, ?_⟩
      intro hm
      rcases (hK2mem a).mp hm with hm2 | hm2
      · exact hr hm2
      · exact hK hm2

theorem solGood_cons {arena : Nat} {g : Geom} {s : Heap} {K : List Nat}
    (h : Rep arena g s K) {col i1 : Nat} (hcol : col ∈ liveCols g K)
    (hi1 : i1 ∈ liveNodes g K col)
    {sol2 : Nat → SRow} {k n : Nat}
    (hg : SolGood g (((othFn g i1).map g.hdr).reverse ++ (col :: K)) sol2 (k + 1) n) :
    SolGood g K (Function.update sol2 k { sol2 k with row_node := i1 }) k n := by
  have hchs := ((mem_liveCols g K col).mp hcol).1
  obtain ⟨hi1N, _, _⟩ := rep_liveNodes_allN h hchs hi1
  obtain ⟨hkn, l2, hlen, hent, hmem, hperm⟩ := hg
  refine ⟨by omega, i1 :: l2, by simp; omega, ?_, ?_, ?_⟩
  · intro t ht
    cases t with
    | zero =>
      simp only [Nat.add_zero, Function.update_same]
      rfl
    | succ t2 =>
      have hne : k + (t2 + 1) ≠ k := by omega
      rw [Function.update_noteq hne]
      have ht2 : t2 < l2.length := by simpa using ht
      have := hent t2 ht2
      rw [show k + (t2 + 1) = (k + 1) + t2 by omega]
      rw [this]
      rfl
  · intro j hj
    rcases List.mem_cons.mp hj with rfl | hj2
    · exact hi1N
    · exact hmem j hj2
  · rw [List.flatMap_cons]
    refine List.Perm.trans ?_ (liveCols_row_perm h hcol hi1)
    exact List.Perm.append_left _ hperm

/-- The row loop of `dlx_exact_cover`: every iteration restores the heap it
entered with, solution entries below `k` are preserved, and a positive
return value comes with a recorded partial cover of the live columns. -/
theorem ecRows_go (arena : Nat) (g : Geom) (K : List Nat) (col k : Nat)
    (s : Heap) (hrep : Rep arena g s K) (hcol : col ∈ liveCols g K)
    (recur : Heap → (Nat → SRow) → Nat → EC)
    (hrec : ∀ (σ2 : Heap) (sol2 : Nat → SRow) (p2 : Nat) (K2 : List Nat),
      Rep arena g σ2 K2 → (∀ a ∈ K, a ∈ K2) → col ∈ K2 →
      (recur σ2 sol2 p2).heap = σ2 ∧
      (∀ m, m < k + 1 → (recur σ2 sol2 p2).sol m = sol2 m) ∧
      ((recur σ2 sol2 p2).ret > 0 →
        SolGood g K2 (recur σ2 sol2 p2).sol (k + 1) (recur σ2 sol2 p2).ret)) :
    ∀ (suffix : List Nat) (fuel : Nat) (sol : Nat → SRow) (p i nPrev : Nat),
      chainDown (coverH arena s col) i suffix col →
      (∀ z ∈ suffix, z ∈ liveNodes g K col) →
      suffix.length < fuel →
      (nPrev > 0 → SolGood g K sol k nPrev) →
      (ecRows recur arena col k fuel (coverH arena s col) sol p i nPrev).heap =
        coverH arena s col ∧
      (∀ m, m < k →
        (ecRows recur arena col k fuel (coverH arena s col) sol p i nPrev).sol m
          = sol m) ∧
      ((ecRows recur arena col k fuel (coverH arena s col) sol p i nPrev).ret > 0 →
        SolGood g K
          (ecRows recur arena col k fuel (coverH arena s col) sol p i nPrev).sol k
          (ecRows recur arena col k fuel (coverH arena s col) sol p i nPrev).ret) := by
  have hchs : col ∈ g.hs := ((mem_liveCols g K col).mp hcol).1
  have hrep1 : Rep arena g (coverH arena s col) (col :: K) := rep_cover_step hrep hcol
  intro suffix
  induction suffix with
  | nil =>
    intro fuel sol p i nPrev hchain _ hf hprev
    obtain ⟨f, rfl⟩ := Nat.exists_eq_succ_of_ne_zero (Nat.pos_iff_ne_zero.mp hf)
    have hc1 : ((coverH arena s col) i).down = col := hchain
    simp only [ecRows, hc1, if_pos rfl]
    exact ⟨rfl, fun m _ => rfl, hprev⟩
  | cons z rest ih =>
    intro fuel sol p i nPrev hchain hsuf hf hprev
    obtain ⟨f, rfl⟩ := Nat.exists_eq_succ_of_ne_zero (by omega : fuel ≠ 0)
    obtain ⟨h1, h2⟩ := hchain
    have hz := hsuf z (by simp)
    obtain ⟨hzN, hzh, hzlv⟩ := rep_liveNodes_allN hrep hchs hz
    have hne : z ≠ col :=
      rep_data_not_col hrep hzN (List.mem_cons.mpr (Or.inr hchs))
    have hoth : ∀ w ∈ othFn g z, g.hdr w ∉ col :: K := by
      intro w hw hm
      obtain ⟨hwr, hwnz⟩ := (rep_othFn_mem hrep hzN w).mp hw
      rcases List.mem_cons.mp hm with he | hm2
      · exact hwnz (rep_row_hdr_inj hrep (rep_rowOf_mem hrep hzN).1 hwr
          (rep_rowOf_mem hrep hzN).2 (he.trans hzh.symm))
      · exact (lv_iff g K z).mp hzlv _ (List.mem_map.mpr ⟨w, hwr, rfl⟩) hm2
    obtain ⟨hcoceq, hrep2⟩ := rep_coc hrep1 hzN hoth
    have hK2sub : ∀ a ∈ K, a ∈ ((othFn g z).map g.hdr).reverse ++ (col :: K) :=
      fun a ha => List.mem_append.mpr (Or.inr (List.mem_cons.mpr (Or.inr ha)))
    have hK2col : col ∈ ((othFn g z).map g.hdr).reverse ++ (col :: K) :=
      List.mem_append.mpr (Or.inr (List.mem_cons_self _ _))
    obtain ⟨hrh, hrsol, hrgood⟩ := hrec (cover_other_columns arena (coverH arena s col) z)
      sol p _ hrep2 hK2sub hK2col
    have huoc : uncover_other_columns arena
        (recur (cover_other_columns arena (coverH arena s col) z) sol p).heap z =
        coverH arena s col := by
      rw [hrh]
      exact rep_uoc hrep1 hzN hoth
    have hgood2 :
        (recur (cover_other_columns arena (coverH arena s col) z) sol p).ret > 0 →
        SolGood g K
          (if (recur (cover_other_columns arena (coverH arena s col) z) sol p).ret > 0
            then Function.update
              (recur (cover_other_columns arena (coverH arena s col) z) sol p).sol k
              { (recur (cover_other_columns arena (coverH arena s col) z) sol p).sol k
                  with row_node := z }
            else (recur (cover_other_columns arena (coverH arena s col) z) sol p).sol)
          k (recur (cover_other_columns arena (coverH arena s col) z) sol p).ret := by
      intro hpos
      rw [if_pos hpos]
      exact solGood_cons hrep hcol hz (hrgood hpos)
    have hsol2pres : ∀ m, m < k →
        (if (recur (cover_other_columns arena (coverH arena s col) z) sol p).ret > 0
          then Function.update
            (recur (cover_other_columns arena (coverH arena s col) z) sol p).sol k
            { (recur (cover_other_columns arena (coverH arena s col) z) sol p).sol k
                with row_node := z }
          else (recur (cover_other_columns arena (coverH arena s col) z) sol p).sol) m
        = sol m := by
      intro m hm
      split
      · rw [Function.update_noteq (by omega)]
        exact hrsol m (by omega)
      · exact hrsol m (by omega)
    simp only [ecRows, h1, if_neg hne]
    by_cases hpn :
        (recur (cover_other_columns arena (coverH arena s col) z) sol p).pnsol = 0
    · rw [if_pos hpn]
      exact ⟨huoc, hsol2pres, hgood2⟩
    · rw [if_neg hpn]
      rw [huoc]
      obtain ⟨ha, hb, hcc⟩ := ih f
        (if (recur (cover_other_columns arena (coverH arena s col) z) sol p).ret > 0
          then Function.update
            (recur (cover_other_columns arena (coverH arena s col) z) sol p).sol k
            { (recur (cover_other_columns arena (coverH arena s col) z) sol p).sol k
                with row_node := z }
          else (recur (cover_other_columns arena (coverH arena s col) z) sol p).sol)
        ((recur (cover_other_columns arena (coverH arena s col) z) sol p).pnsol) z
        ((recur (cover_other_columns arena (coverH arena s col) z) sol p).ret)
        h2 (fun w hw => hsuf w (List.mem_cons.mpr (Or.inr hw)))
        (by simpa using hf) hgood2
      exact ⟨ha, fun m hm => (hb m hm).trans (hsol2pres m hm), hcc⟩

/-- Main specification of the recursive search: the heap is restored exactly,
solution entries below `k` are untouched, and a positive return value `n`
means entries `k .. n-1` record rows whose column sets partition the columns
live on entry. -/
theorem ecAux_spec (arena : Nat) (g : Geom) :
    ∀ (fuel : Nat) (σ : Heap) (sol : Nat → SRow) (k p : Nat) (K : List Nat),
      Rep arena g σ K → (liveCols g K).length < fuel →
      (ecAux arena g.root fuel σ sol k p).heap = σ ∧
      (∀ m, m < k → (ecAux arena g.root fuel σ sol k p).sol m = sol m) ∧
      ((ecAux arena g.root fuel σ sol k p).ret > 0 →
        SolGood g K (ecAux arena g.root fuel σ sol k p).sol k
          (ecAux arena g.root fuel σ sol k p).ret) := by
  intro fuel
  induction fuel with
  | zero =>
    intro σ sol k p K h hf
    exact absurd hf (by omega)
  | succ f ih =>
    intro σ sol k p K h hf
    by_cases hroot : (σ g.root).right = g.root
    · simp only [ecAux, hroot, if_pos rfl]
      refine ⟨rfl, fun m _ => rfl, fun _ => ?_⟩
      have hLC : liveCols g K = [] := by
        cases hLC : liveCols g K with
        | nil => rfl
        | cons c rest =>
          exfalso
          have hch := h.hdrR
          rw [hLC] at hch
          have hc : c = g.root := by rw [← hch.1, hroot]
          have hcm : c ∈ liveCols g K := hLC ▸ List.mem_cons_self c rest
          exact rep_root_not_hs h (hc ▸ ((mem_liveCols g K c).mp hcm).1)
      exact ⟨le_refl k, [], by simp, fun t ht => absurd ht (by simp), by simp,
        by simp [hLC]⟩
    · obtain ⟨col, hcol, hmc⟩ := rep_min_count h hroot
      have hchs : col ∈ g.hs := ((mem_liveCols g K col).mp hcol).1
      have hlen : (liveNodes g K col).length ≤ arena :=
        le_trans (List.length_filter_le _ _) (h.colLen col hchs)
      have holen : ∀ x ∈ liveNodes g K col, (othFn g x).length ≤ arena := by
        intro x hx
        obtain ⟨hxN, _, _⟩ := rep_liveNodes_allN h hchs hx
        have hperm := rep_othFn_perm h hxN
        have h1 : (g.rowOf x).length = (othFn g x).length + 1 := by
          rw [hperm.length_eq]
          rfl
        have h2 : (g.rowOf x).length ≤ arena := h.rowsLen _ (rep_rowOf_mem h hxN).1
        omega
      have hchain : chainDown (coverH arena σ col) col (liveNodes g K col) col :=
        (cover_frame_heap arena σ col (liveNodes g K col) (othFn g)
          (rep_coverZone h hcol) hlen holen).2.2
      obtain ⟨hLa, hLb, hLc⟩ := ecRows_go arena g K col k σ h hcol
        (fun s2 sol2 p2 => ecAux arena g.root f s2 sol2 (k + 1) p2)
        (fun σ2 sol2 p2 K2 hrep2 hsub2 hcol2 =>
          ih σ2 sol2 (k + 1) p2 K2 hrep2
            (lt_of_lt_of_le (liveCols_length_lt g hsub2 hcol hcol2) (by omega)))
        (liveNodes g K col) (arena + 1)
        (Function.update sol k { sol k with id := ((coverH arena σ col) col).id, n_choices := ((coverH arena σ col) col).node_count })
        p col 0 hchain (fun z hz => hz) (by omega) (fun h0 => absurd h0 (by omega))
      simp only [ecAux, if_neg hroot, hmc]
      refine ⟨?_, ?_, ?_⟩
      · show uncoverH arena (ecRows _ arena col k (arena + 1) (coverH arena σ col) _
          p col 0).heap col = σ
        rw [hLa]
        exact rep_uncover_cover h hcol
      · intro m hm
        show (ecRows _ arena col k (arena + 1) (coverH arena σ col) _ p col 0).sol m
          = sol m
        rw [hLb m hm, Function.update_noteq (by omega)]
      · intro hpos
        exact hLc hpos

/-- C1: a top-level `dlx_exact_cover(solution, root, 0, pnsol)` call with
`*pnsol ≥ 1` on a valid DLX matrix (invariant `Rep` with no covered columns)
that returns `s > 0` has recorded in `solution[0..s-1]` row nodes whose rows'
column sets are pairwise disjoint with union exactly the full column set:
their concatenation is a permutation of the header list. -/
theorem exact_cover_solution_exact (st : St) (g : Geom) (sol : Nat → SRow) (p : Nat)
    (hrep : Rep st.n g st.heap []) (_hp : 1 ≤ p)
    (hret : (dlx_exact_cover sol st g.root 0 p).ret > 0) :
    ∃ l : List Nat, l.length = (dlx_exact_cover sol st g.root 0 p).ret ∧
      (∀ t (ht : t < l.length),
        ((dlx_exact_cover sol st g.root 0 p).sol t).row_node = l.get ⟨t, ht⟩) ∧
      (∀ j ∈ l, j ∈ g.rows.flatMap id) ∧
      (l.flatMap (fun j => (g.rowOf j).map g.hdr)).Perm g.hs := by
  have hd : dlx_exact_cover sol st g.root 0 p =
      ecAux st.n g.root (st.n + 1) st.heap sol 0 p := rfl
  rw [hd] at hret ⊢
  have hlen : (liveCols g []).length < st.n + 1 := by
    rw [liveCols_nil]
    exact Nat.lt_succ_of_le hrep.hsLen
  obtain ⟨_, _, hgood⟩ := ecAux_spec st.n g (st.n + 1) st.heap sol 0 p [] hrep hlen
  obtain ⟨_, l, hl1, hl2, hl3, hl4⟩ := hgood hret
  refine ⟨l, by omega, ?_, hl3, ?_⟩
  · intro t ht
    have hent := hl2 t ht
    simpa using hent
  · rw [liveCols_nil] at hl4
    exact hl4

theorem exact_cover_solution_exact_witness :
    ∃ l : List Nat, l.length = (dlx_exact_cover czSol czSt czGeom.root 0 1).ret ∧
      (∀ t (ht : t < l.length),
        ((dlx_exact_cover czSol czSt czGeom.root 0 1).sol t).row_node = l.get ⟨t, ht⟩) ∧
      (∀ j ∈ l, j ∈ czGeom.rows.flatMap id) ∧
      (l.flatMap (fun j => (czGeom.rowOf j).map czGeom.hdr)).Perm czGeom.hs :=
  exact_cover_solution_exact czSt czGeom czSol 1
    (by constructor <;> decide) (by decide) (by decide)

end Dlx
